import Mathlib

/-!
Verification development for the `encrustant` chess engine.

This file gives a shallow embedding, in Lean 4, of the parts of the engine
that the checked properties are about:

* the repetition table (`src/encrustant/src/search/repetition_table.rs`);
* the time manager (`src/encrustant/src/search/time_manager.rs`);
* the search tunables (`src/encrustant/src/search/search_params.rs`);
* transposition-table helpers (`src/encrustant/src/search/transposition.rs`);
* make/unmake on the board (`src/encrustant/src/move_generator/maker.rs`);
* null moves and make/unmake at search level (`src/encrustant/src/search/mod.rs`);
* the negamax node body and aspiration windows (`src/encrustant/src/search/mod.rs`);
* FEN parsing and serialisation (`src/encrustant/src/board/fen.rs`).

Machine integers are embedded as `Nat`/`Int`; Rust `u64`/`u32` values that are
never overflowed by the modelled code are plain `Nat`, and Rust signed division
is `Int.div` (truncation towards zero).  Code with `panic!`/`unwrap` behaviour
is embedded as `Option`-returning, `None` standing for the panic.
-/

namespace Encrustant

/-! ## Repetition table

Translated from `search/repetition_table.rs`.  A `RepetitionTable` is the
vector of zobrist keys of positions played, oldest first (Rust `Vec` push
order); `push` appends at the end.
-/

/-- Zobrist keys are 64-bit values; modelled as `Nat`. -/
abbrev Zobrist := Nat

/-- Rust `Iterator::step_by(2)`: keeps elements at indices 0, 2, 4, … -/
def stepBy2 {α : Type} : List α → List α
  | [] => []
  | [a] => [a]
  | a :: _ :: rest => a :: stepBy2 rest

namespace RepetitionTable

/-- `RepetitionTable::contains` from `search/repetition_table.rs`:
returns false when `half_move_clock < 4`; otherwise scans the stored keys
newest first, at most `half_move_clock` of them, skipping the first three and
then taking every second one, looking for `zobrist_key`. -/
def contains (positions : List Zobrist) (zobrist_key : Nat) (half_move_clock : Nat) : Bool :=
  if half_move_clock < 4 then
    false
  else
    (stepBy2 ((positions.reverse.take half_move_clock).drop 3)).any (fun other => other == zobrist_key)

end RepetitionTable

/-! ## Time manager

Translated from `search/time_manager.rs`.  The Rust `Time` timer is queried
through `timer.milliseconds()`; the embedding passes the observed
elapsed-milliseconds value as an explicit argument instead of carrying a
clock.  The atomic `stopped`/`pondering` booleans become plain booleans
(their values as observed by the load in the queried function).

`NodeLimit::new` and `RealTime::new` `assert!` that the hard limit is at
least the soft limit; the embedding returns `none` where the Rust code
panics. -/

structure NodeLimit where
  soft_limit : Nat
  hard_limit : Nat
  deriving DecidableEq, Repr

namespace NodeLimit

/-- `NodeLimit::new(hard_limit, soft_limit)`; `none` models the
`assert!(hard_limit >= soft_limit)` panic. -/
def new (hard_limit soft_limit : Nat) : Option NodeLimit :=
  if hard_limit ≥ soft_limit then
    some { soft_limit := soft_limit, hard_limit := hard_limit }
  else
    none

end NodeLimit

structure RealTime where
  hard_time_limit : Nat
  soft_time_limit : Nat
  deriving DecidableEq, Repr

namespace RealTime

/-- `RealTime::new(timer, hard_time_limit, soft_time_limit)`; the timer
reference is externalised (see module comment), and `none` models the
`assert!(hard_time_limit >= soft_time_limit)` panic. -/
def new (hard_time_limit soft_time_limit : Nat) : Option RealTime :=
  if hard_time_limit ≥ soft_time_limit then
    some { hard_time_limit := hard_time_limit, soft_time_limit := soft_time_limit }
  else
    none

end RealTime

structure TimeManager where
  depth_limit : Option Nat
  node_limit : Option NodeLimit
  real_time : Option RealTime
  stopped : Bool
  pondering : Bool
  mated_in : Option Nat
  deriving DecidableEq, Repr

/-! ## Search tunables

Translated from `search/search_params.rs` (`Tunable`, `DEFAULT_TUNABLES`). -/

structure Tunable where
  iir_min_depth : Nat
  iir_depth_reduction : Nat
  futility_margin : Int
  futility_max_depth : Nat
  static_null_margin : Int
  improving_static_null_margin : Int
  static_null_max_depth : Nat
  lmr_min_index : Nat
  lmr_min_depth : Nat
  lmr_base : Nat
  lmr_ply_multiplier : Nat
  lmr_index_multiplier : Nat
  lmp_base : Nat
  nmp_min_depth : Nat
  nmp_base_reduction : Nat
  nmp_ply_divisor : Nat
  aspiration_window_start : Int
  aspiration_window_growth : Int
  aspiration_window_count : Nat
  best_move_stability_multiplier_0 : Nat
  best_move_stability_multiplier_1 : Nat
  best_move_stability_multiplier_2 : Nat
  best_move_stability_multiplier_3 : Nat
  best_move_stability_multiplier_4 : Nat
  best_move_stability_multiplier_5 : Nat
  best_move_stability_multiplier_6 : Nat
  best_move_stability_multiplier_7 : Nat
  hard_time_divisor : Nat
  soft_time_divisor : Nat
  deriving DecidableEq, Repr

/-- `DEFAULT_TUNABLES` from `search/search_params.rs` (fields not used by the
modelled code paths keep their source values as well). -/
def DEFAULT_TUNABLES : Tunable :=
  { iir_min_depth := 5
    iir_depth_reduction := 1
    futility_margin := 115
    futility_max_depth := 11
    static_null_margin := 56
    improving_static_null_margin := 39
    static_null_max_depth := 7
    lmr_min_index := 6
    lmr_min_depth := 3
    lmr_base := 1909
    lmr_ply_multiplier := 135
    lmr_index_multiplier := 94
    lmp_base := 2
    nmp_min_depth := 2
    nmp_base_reduction := 3
    nmp_ply_divisor := 4
    aspiration_window_start := 12
    aspiration_window_growth := 41
    aspiration_window_count := 5
    best_move_stability_multiplier_0 := 161
    best_move_stability_multiplier_1 := 133
    best_move_stability_multiplier_2 := 126
    best_move_stability_multiplier_3 := 103
    best_move_stability_multiplier_4 := 104
    best_move_stability_multiplier_5 := 105
    best_move_stability_multiplier_6 := 93
    best_move_stability_multiplier_7 := 71
    hard_time_divisor := 6
    soft_time_divisor := 24 }

/-- Score type of the evaluation (`EvalNumber = i32`), embedded as `Int`. -/
abbrev EvalNumber := Int

/-- `IMMEDIATE_CHECKMATE_SCORE` from `search/mod.rs`. -/
def IMMEDIATE_CHECKMATE_SCORE : Int := 70000

/-- `CHECKMATE_SCORE = IMMEDIATE_CHECKMATE_SCORE - Ply::MAX` from `search/mod.rs`. -/
def CHECKMATE_SCORE : Int := IMMEDIATE_CHECKMATE_SCORE - 255

/-- `Search::score_is_checkmate` from `search/mod.rs`. -/
def score_is_checkmate (score : Int) : Bool :=
  score.natAbs ≥ CHECKMATE_SCORE.toNat

namespace TimeManager

/-- `TimeManager::hard_stop_inner_search(node_count)`; `milliseconds` is the
value `real_time.timer.milliseconds()` would return at this query. -/
def hard_stop_inner_search (tm : TimeManager) (node_count : Nat) (milliseconds : Nat) : Bool :=
  if tm.stopped then
    true
  else if tm.pondering then
    false
  else if (tm.node_limit.map fun node_limit => decide (node_count ≥ node_limit.hard_limit)).getD false then
    true
  else if (tm.real_time.map fun real_time => decide (milliseconds > real_time.hard_time_limit)).getD false then
    true
  else
    false

/-- `TimeManager::soft_stop(node_count, best_score, best_move_stability, parameters)`;
`milliseconds` is the value the timer would report at this query. -/
def soft_stop (tm : TimeManager) (node_count : Nat) (best_score : Int)
    (best_move_stability : Nat) (parameters : Tunable) (milliseconds : Nat) : Bool :=
  if tm.stopped then
    true
  else if tm.pondering then
    false
  else if (tm.node_limit.map fun node_limit => decide (node_count ≥ node_limit.soft_limit)).getD false then
    true
  else if (tm.mated_in.map fun ply =>
      score_is_checkmate best_score &&
        ((ply : Int) == IMMEDIATE_CHECKMATE_SCORE - (best_score.natAbs : Int))).getD false then
    true
  else
    match tm.real_time with
    | some real_time =>
      let best_move_stability_multipliers : List Nat :=
        [parameters.best_move_stability_multiplier_0,
         parameters.best_move_stability_multiplier_1,
         parameters.best_move_stability_multiplier_2,
         parameters.best_move_stability_multiplier_3,
         parameters.best_move_stability_multiplier_4,
         parameters.best_move_stability_multiplier_5,
         parameters.best_move_stability_multiplier_6,
         parameters.best_move_stability_multiplier_7]
      let multiplier := best_move_stability_multipliers.getD (min best_move_stability 7) 0
      let adjusted_time := real_time.soft_time_limit * multiplier / 100
      decide (milliseconds > min adjusted_time real_time.hard_time_limit)
    | none => false

end TimeManager

/-! ## Helper lemmas about `stepBy2` and `RepetitionTable.contains` -/

theorem mem_stepBy2_iff {α : Type} {l : List α} {x : α} :
    x ∈ stepBy2 l ↔ ∃ i, i % 2 = 0 ∧ l.get? i = some x := by
  induction l using stepBy2.induct with
  | case1 =>
    simp [stepBy2]
  | case2 a =>
    constructor
    · intro h
      simp [stepBy2] at h
      exact ⟨0, by simp [h]⟩
    · rintro ⟨i, _, hget⟩
      rcases i with _ | i
      · simp at hget
        simp [stepBy2, hget]
      · simp at hget
  | case3 a b rest ih =>
    constructor
    · intro h
      simp only [stepBy2, List.mem_cons] at h
      rcases h with h | h
      · exact ⟨0, by simp [h]⟩
      · obtain ⟨i, hi, hget⟩ := ih.mp h
        exact ⟨i + 2, by omega, by simpa using hget⟩
    · rintro ⟨i, hi, hget⟩
      rcases i with _ | i
      · simp at hget
        simp [stepBy2, hget]
      · rcases i with _ | i
        · omega
        · simp only [List.get?_cons_succ] at hget
          exact List.mem_cons_of_mem _ (ih.mpr ⟨i, by omega, hget⟩)

/-- Characterisation of `RepetitionTable::contains`: it finds the key exactly
when it sits at one of the scanned offsets — within the last
`half_move_clock` keys (newest first), at offset at least 3 from the top,
and at an even distance from offset 3. -/
theorem contains_iff (positions : List Zobrist) (z : Nat) (hmc : Nat) :
    RepetitionTable.contains positions z hmc = true ↔
      4 ≤ hmc ∧ ∃ i, 3 ≤ i ∧ i < hmc ∧ (i - 3) % 2 = 0 ∧
        positions.reverse.get? i = some z := by
  unfold RepetitionTable.contains
  by_cases h4 : hmc < 4
  · simp [h4]
  · simp only [h4, if_false, List.any_eq_true]
    constructor
    · rintro ⟨x, hx, hxz⟩
      have hxz' : x = z := by simpa using hxz
      subst hxz'
      obtain ⟨j, hj, hget⟩ := mem_stepBy2_iff.mp hx
      rw [List.get?_drop] at hget
      have hlen : 3 + j < (positions.reverse.take hmc).length := by
        rcases List.get?_eq_some.mp hget with ⟨h, _⟩
        exact h
      have hlt : 3 + j < hmc := by
        have := List.length_take hmc positions.reverse
        omega
      rw [List.get?_take hlt] at hget
      exact ⟨by omega, 3 + j, by omega, hlt, by omega, hget⟩
    · rintro ⟨_, i, hi3, hilt, hieven, hget⟩
      refine ⟨z, ?_, by simp⟩
      refine mem_stepBy2_iff.mpr ⟨i - 3, by omega, ?_⟩
      rw [List.get?_drop, List.get?_take (by omega)]
      rw [show 3 + (i - 3) = i by omega]
      exact hget

/-- `contains` only looks at the `newer` suffix of the stack when the
half-move clock is at most the number of positions pushed since: entries
pushed before (`older`) can never be reported. -/
theorem contains_append (older newer : List Zobrist) (z : Nat) (hmc : Nat)
    (h : hmc ≤ newer.length) :
    RepetitionTable.contains (older ++ newer) z hmc =
      RepetitionTable.contains newer z hmc := by
  unfold RepetitionTable.contains
  rw [List.reverse_append,
    List.take_append_of_le_length (by simpa using h)]

/-! ## Claim C10: node and time limit constructors enforce hard ≥ soft -/

/-- C10: `NodeLimit::new(hard_limit, soft_limit)` and
`RealTime::new(timer, hard_time_limit, soft_time_limit)` panic (modelled as
`none`) whenever the hard limit is smaller than the soft limit, so every
constructed node or time limit satisfies `hard_limit ≥ soft_limit`. -/
theorem nodeLimit_realTime_new_hard_ge_soft :
    (∀ hard soft : Nat, hard < soft → NodeLimit.new hard soft = none) ∧
    (∀ hard soft : Nat, ∀ nl : NodeLimit, NodeLimit.new hard soft = some nl →
      nl.hard_limit ≥ nl.soft_limit) ∧
    (∀ hard soft : Nat, hard < soft → RealTime.new hard soft = none) ∧
    (∀ hard soft : Nat, ∀ rt : RealTime, RealTime.new hard soft = some rt →
      rt.hard_time_limit ≥ rt.soft_time_limit) := by
  refine ⟨fun hard soft h => ?_, fun hard soft nl h => ?_,
    fun hard soft h => ?_, fun hard soft rt h => ?_⟩
  · simp only [NodeLimit.new, ite_eq_right_iff]
    intro hge
    omega
  · unfold NodeLimit.new at h
    by_cases hge : hard ≥ soft
    · rw [if_pos hge] at h
      cases h
      exact hge
    · rw [if_neg hge] at h
      exact Option.noConfusion h
  · simp only [RealTime.new, ite_eq_right_iff]
    intro hge
    omega
  · unfold RealTime.new at h
    by_cases hge : hard ≥ soft
    · rw [if_pos hge] at h
      cases h
      exact hge
    · rw [if_neg hge] at h
      exact Option.noConfusion h

/-- C10 witness: the theorem applied at concrete limits. -/
theorem nodeLimit_realTime_new_hard_ge_soft_witness :
    NodeLimit.new 1 2 = none ∧
    (NodeLimit.new 3 2 = some { soft_limit := 2, hard_limit := 3 } ∧ (3 : Nat) ≥ 2) ∧
    RealTime.new 1 2 = none ∧
    (RealTime.new 5 4 = some { hard_time_limit := 5, soft_time_limit := 4 } ∧ (5 : Nat) ≥ 4) :=
  ⟨nodeLimit_realTime_new_hard_ge_soft.1 1 2 (by decide),
   ⟨by decide, nodeLimit_realTime_new_hard_ge_soft.2.1 3 2
      { soft_limit := 2, hard_limit := 3 } (by decide)⟩,
   nodeLimit_realTime_new_hard_ge_soft.2.2.1 1 2 (by decide),
   ⟨by decide, nodeLimit_realTime_new_hard_ge_soft.2.2.2 5 4
      { hard_time_limit := 5, soft_time_limit := 4 } (by decide)⟩⟩

/-! ## Claim C8: soft_stop real-time threshold -/

/-- C8 counterexample: with the default tunables (stability-0 multiplier 161),
a real-time manager with soft and hard limits both 100 and elapsed time 120
returns `soft_stop = true`, although the claimed threshold
`soft_time_limit * multiplier / 100 = 161` has not been exceeded — the code
additionally caps the adjusted threshold at `hard_time_limit`. -/
theorem soft_stop_uncapped_formula_counterexample :
    TimeManager.soft_stop
      { depth_limit := none, node_limit := none,
        real_time := some { hard_time_limit := 100, soft_time_limit := 100 },
        stopped := false, pondering := false, mated_in := none }
      0 0 0 DEFAULT_TUNABLES 120 = true ∧
    ¬ (120 > 100 * DEFAULT_TUNABLES.best_move_stability_multiplier_0 / 100) := by
  constructor
  · decide
  · decide

/-- C8 (amended): when the time manager carries a real-time strategy, has no
node limit and no requested mate distance, and is neither stopped nor
pondering, `soft_stop` returns true exactly when the elapsed milliseconds
exceed `min (soft_time_limit * stability_multiplier[min stability 7] / 100)
hard_time_limit`. -/
theorem soft_stop_real_time_threshold (rt : RealTime) (depth_limit : Option Nat)
    (node_count : Nat) (best_score : Int) (best_move_stability : Nat)
    (parameters : Tunable) (milliseconds : Nat) :
    TimeManager.soft_stop
      { depth_limit := depth_limit, node_limit := none, real_time := some rt,
        stopped := false, pondering := false, mated_in := none }
      node_count best_score best_move_stability parameters milliseconds =
      decide (milliseconds >
        min (rt.soft_time_limit *
            ([parameters.best_move_stability_multiplier_0,
              parameters.best_move_stability_multiplier_1,
              parameters.best_move_stability_multiplier_2,
              parameters.best_move_stability_multiplier_3,
              parameters.best_move_stability_multiplier_4,
              parameters.best_move_stability_multiplier_5,
              parameters.best_move_stability_multiplier_6,
              parameters.best_move_stability_multiplier_7].getD
                (min best_move_stability 7) 0) / 100)
          rt.hard_time_limit) := by
  rfl

/-- C8 witness: the amended theorem applied at a concrete manager. -/
theorem soft_stop_real_time_threshold_witness :
    TimeManager.soft_stop
      { depth_limit := none, node_limit := none,
        real_time := some { hard_time_limit := 200, soft_time_limit := 100 },
        stopped := false, pondering := false, mated_in := none }
      0 0 0 DEFAULT_TUNABLES 170 =
      decide (170 > min (100 * 161 / 100) 200) := by
  have h := soft_stop_real_time_threshold
    { hard_time_limit := 200, soft_time_limit := 100 } none 0 0 0 DEFAULT_TUNABLES 170
  simpa using h

/-! ## Squares, bitboards, pieces

The current-design modules `board/square.rs`, `board/bit_board.rs`,
`board/piece.rs` and `board/game_state.rs` are not in the provided sources
(only the prior design and their callers are); the definitions below are
modelled from the spec (§3 Data model) and from how the provided callers
(`maker.rs`, `fen.rs`, `search/mod.rs`) use them. -/

/-- Modelled from the spec: a square is an integer index in [0, 64) in
little-endian rank-file order (a1 = 0, h8 = 63); the Rust representation is a
signed 8-bit index, embedded as `Int`. -/
structure Square where
  index : Int
  deriving DecidableEq, Repr

namespace Square

/-- `Square::from_index`. -/
def from_index (i : Int) : Square := ⟨i⟩

/-- `Square::from_coords(rank, file)` — index `rank * 8 + file`. -/
def from_coords (rank file : Int) : Square := ⟨rank * 8 + file⟩

/-- `Square::usize()` — the index as an unsigned value. -/
def usize (s : Square) : Nat := s.index.toNat

/-- `Square::file()` — the file, `index % 8`. -/
def file (s : Square) : Int := s.index % 8

/-- `Square::rank()` — the rank, `index / 8`. -/
def rank (s : Square) : Int := s.index / 8

/-- `Square::up(n)` — `n` ranks up. -/
def up (s : Square) (n : Int) : Square := ⟨s.index + 8 * n⟩

/-- `Square::down(n)` — `n` ranks down. -/
def down (s : Square) (n : Int) : Square := ⟨s.index - 8 * n⟩

/-- `Square::offset(n)` — index shifted by `n`. -/
def offset (s : Square) (n : Int) : Square := ⟨s.index + n⟩

/-- `Square::bit_board()` — the single-bit 64-bit set `1 << index`. -/
def bit_board (s : Square) : Nat := 1 <<< s.usize

/-- A square index actually addressing a board square. -/
def isValid (s : Square) : Prop := 0 ≤ s.index ∧ s.index < 64

instance (s : Square) : Decidable s.isValid := by
  unfold isValid
  infer_instance

end Square

/-- A `BitBoard` is a 64-bit square set; embedded as `Nat` (all modelled
operations preserve values `< 2^64` when their inputs are). -/
abbrev BitBoard := Nat

namespace BitBoard

/-- `BitBoard::EMPTY`. -/
def EMPTY : BitBoard := 0

/-- `BitBoard::set(square)` — bitwise or with the square's bit. -/
def set (bb : BitBoard) (sq : Square) : BitBoard := bb ||| sq.bit_board

/-- `BitBoard::toggle(square)` — bitwise xor with the square's bit. -/
def toggle (bb : BitBoard) (sq : Square) : BitBoard := bb ^^^ sq.bit_board

/-- `BitBoard::toggle_two(a, b)` — xor with the union of the two bits. -/
def toggle_two (bb : BitBoard) (a b : Square) : BitBoard :=
  bb ^^^ (a.bit_board ||| b.bit_board)

/-- `BitBoard::get(square)` — whether the square's bit is present. -/
def get (bb : BitBoard) (sq : Square) : Bool := bb &&& sq.bit_board != 0

/-- `BitBoard::overlaps(other)`. -/
def overlaps (a b : BitBoard) : Bool := a &&& b != 0

/-- `BitBoard::count()` — population count (for 64-bit values). -/
def count (bb : BitBoard) : Nat :=
  ((List.range 64).filter fun i => bb.testBit i).length

/-- `BitBoard::RANK_1`. -/
def RANK_1 : BitBoard := 0xFF

/-- `BitBoard::RANK_8`. -/
def RANK_8 : BitBoard := 0xFF <<< 56

end BitBoard

/-- The twelve piece kinds, numbered 0–11 so that `idx % 6` is the piece type
and `idx / 6` the colour (white first), as in `board/piece.rs`. -/
inductive Piece where
  | WhitePawn
  | WhiteKnight
  | WhiteBishop
  | WhiteRook
  | WhiteQueen
  | WhiteKing
  | BlackPawn
  | BlackKnight
  | BlackBishop
  | BlackRook
  | BlackQueen
  | BlackKing
  deriving DecidableEq, Repr, Fintype

namespace Piece

/-- The numbering `piece as usize`. -/
def idx : Piece → Nat
  | WhitePawn => 0
  | WhiteKnight => 1
  | WhiteBishop => 2
  | WhiteRook => 3
  | WhiteQueen => 4
  | WhiteKing => 5
  | BlackPawn => 6
  | BlackKnight => 7
  | BlackBishop => 8
  | BlackRook => 9
  | BlackQueen => 10
  | BlackKing => 11

/-- `WHITE_PIECES`, in index order. -/
def WHITE_PIECES : List Piece :=
  [WhitePawn, WhiteKnight, WhiteBishop, WhiteRook, WhiteQueen, WhiteKing]

/-- `BLACK_PIECES`, in index order. -/
def BLACK_PIECES : List Piece :=
  [BlackPawn, BlackKnight, BlackBishop, BlackRook, BlackQueen, BlackKing]

/-- `ALL_PIECES`, in index order. -/
def ALL_PIECES : List Piece := WHITE_PIECES ++ BLACK_PIECES

end Piece

/-- Modelled from the spec: castling rights are four bits. Accessors named
as in the callers of `board/game_state.rs`. -/
structure CastlingRights where
  white_king_side : Bool
  white_queen_side : Bool
  black_king_side : Bool
  black_queen_side : Bool
  deriving DecidableEq, Repr

namespace CastlingRights

def unset_white_king_side (c : CastlingRights) : CastlingRights :=
  { c with white_king_side := false }

def unset_white_queen_side (c : CastlingRights) : CastlingRights :=
  { c with white_queen_side := false }

def unset_black_king_side (c : CastlingRights) : CastlingRights :=
  { c with black_king_side := false }

def unset_black_queen_side (c : CastlingRights) : CastlingRights :=
  { c with black_queen_side := false }

def get_white_king_side (c : CastlingRights) : Bool := c.white_king_side

def get_white_queen_side (c : CastlingRights) : Bool := c.white_queen_side

def get_black_king_side (c : CastlingRights) : Bool := c.black_king_side

def get_black_queen_side (c : CastlingRights) : Bool := c.black_queen_side

/-- Whether no right is set. -/
def is_none (c : CastlingRights) : Bool :=
  !(c.white_king_side || c.white_queen_side || c.black_king_side || c.black_queen_side)

/-- `CastlingRights::from_fen_section` — `-` clears all rights, otherwise
each letter grants the matching right. -/
def from_fen_section (section' : List Char) : CastlingRights :=
  if section' = ['-'] then
    ⟨false, false, false, false⟩
  else
    ⟨section'.contains 'K', section'.contains 'Q',
     section'.contains 'k', section'.contains 'q'⟩

end CastlingRights

/-- `GameState` from `board/game_state.rs` (modelled from the spec and its
callers): castling rights, optional en-passant target, half-move clock and
the piece captured by the last move. -/
structure GameState where
  castling_rights : CastlingRights
  en_passant_square : Option Square
  half_move_clock : Nat
  captured : Option Piece
  deriving DecidableEq, Repr

/-- The twelve piece bitboards (`bit_boards: [BitBoard; 12]`), one field per
piece index. -/
structure BitBoards where
  wP : BitBoard
  wN : BitBoard
  wB : BitBoard
  wR : BitBoard
  wQ : BitBoard
  wK : BitBoard
  bP : BitBoard
  bN : BitBoard
  bB : BitBoard
  bR : BitBoard
  bQ : BitBoard
  bK : BitBoard
  deriving DecidableEq, Repr

namespace BitBoards

/-- Array indexing `bit_boards[piece as usize]`. -/
def getBB (b : BitBoards) : Piece → BitBoard
  | .WhitePawn => b.wP
  | .WhiteKnight => b.wN
  | .WhiteBishop => b.wB
  | .WhiteRook => b.wR
  | .WhiteQueen => b.wQ
  | .WhiteKing => b.wK
  | .BlackPawn => b.bP
  | .BlackKnight => b.bN
  | .BlackBishop => b.bB
  | .BlackRook => b.bR
  | .BlackQueen => b.bQ
  | .BlackKing => b.bK

/-- Writing one piece's bitboard. -/
def setBB (b : BitBoards) : Piece → BitBoard → BitBoards
  | .WhitePawn, v => { b with wP := v }
  | .WhiteKnight, v => { b with wN := v }
  | .WhiteBishop, v => { b with wB := v }
  | .WhiteRook, v => { b with wR := v }
  | .WhiteQueen, v => { b with wQ := v }
  | .WhiteKing, v => { b with wK := v }
  | .BlackPawn, v => { b with bP := v }
  | .BlackKnight, v => { b with bN := v }
  | .BlackBishop, v => { b with bB := v }
  | .BlackRook, v => { b with bR := v }
  | .BlackQueen, v => { b with bQ := v }
  | .BlackKing, v => { b with bK := v }

/-- In-place mutation through `get_bit_board_mut`. -/
def modifyBB (b : BitBoards) (p : Piece) (f : BitBoard → BitBoard) : BitBoards :=
  b.setBB p (f (b.getBB p))

theorem getBB_setBB (b : BitBoards) (p q : Piece) (v : BitBoard) :
    (b.setBB p v).getBB q = if p = q then v else b.getBB q := by
  cases p <;> cases q <;> simp [getBB, setBB]

theorem eq_of_getBB_eq {a b : BitBoards} (h : ∀ p, a.getBB p = b.getBB p) : a = b := by
  cases a
  cases b
  simp only [BitBoards.mk.injEq]
  exact ⟨h .WhitePawn, h .WhiteKnight, h .WhiteBishop, h .WhiteRook, h .WhiteQueen,
    h .WhiteKing, h .BlackPawn, h .BlackKnight, h .BlackBishop, h .BlackRook,
    h .BlackQueen, h .BlackKing⟩

end BitBoards

/-- The board: twelve bitboards, side to move, game state, full-move
counter (fields of `Board` in `board/mod.rs`, modelled from the spec and
its callers). -/
structure Board where
  bit_boards : BitBoards
  white_to_move : Bool
  game_state : GameState
  full_move_counter : Nat
  deriving DecidableEq, Repr

/-- Move flags from `move_generator/move_data.rs` (modelled from the spec §3). -/
inductive Flag where
  | None
  | PawnTwoUp
  | Castle
  | EnPassant
  | QueenPromotion
  | RookPromotion
  | BishopPromotion
  | KnightPromotion
  deriving DecidableEq, Repr

namespace Flag

/-- `Flag::get_promotion_piece(white_to_move)`. -/
def get_promotion_piece (flag : Flag) (white_to_move : Bool) : Option Piece :=
  match flag with
  | QueenPromotion => some (if white_to_move then .WhiteQueen else .BlackQueen)
  | RookPromotion => some (if white_to_move then .WhiteRook else .BlackRook)
  | BishopPromotion => some (if white_to_move then .WhiteBishop else .BlackBishop)
  | KnightPromotion => some (if white_to_move then .WhiteKnight else .BlackKnight)
  | _ => none

end Flag

/-- A move: from square, to square, flag (`Move` in
`move_generator/move_data.rs`, modelled from the spec §3). -/
structure Move where
  fromSq : Square
  toSq : Square
  flag : Flag
  deriving DecidableEq, Repr

namespace Board

/-- First piece of `pieces` whose bitboard holds `sq`. -/
def piece_at_in (b : Board) (pieces : List Piece) (sq : Square) : Option Piece :=
  pieces.find? fun p => (b.bit_boards.getBB p).get sq

/-- `Board::white_piece_at`. -/
def white_piece_at (b : Board) (sq : Square) : Option Piece :=
  b.piece_at_in Piece.WHITE_PIECES sq

/-- `Board::black_piece_at`. -/
def black_piece_at (b : Board) (sq : Square) : Option Piece :=
  b.piece_at_in Piece.BLACK_PIECES sq

/-- `Board::piece_at`. -/
def piece_at (b : Board) (sq : Square) : Option Piece :=
  b.piece_at_in Piece.ALL_PIECES sq

/-- `Board::friendly_piece_at`. -/
def friendly_piece_at (b : Board) (sq : Square) : Option Piece :=
  if b.white_to_move then b.white_piece_at sq else b.black_piece_at sq

/-- `Board::enemy_piece_at`. -/
def enemy_piece_at (b : Board) (sq : Square) : Option Piece :=
  if b.white_to_move then b.black_piece_at sq else b.white_piece_at sq

/-- The castling-right clearing on captures to a corner square, shared by the
`Flag::None` and promotion branches of `make_move`. -/
def clear_rights_for_capture (cr : CastlingRights) (toSq : Square) : CastlingRights :=
  if toSq = Square.from_index 0 then cr.unset_white_queen_side
  else if toSq = Square.from_index 7 then cr.unset_white_king_side
  else if toSq = Square.from_index 56 then cr.unset_black_queen_side
  else if toSq = Square.from_index 63 then cr.unset_black_king_side
  else cr

/-- `Board::make_move` from `move_generator/maker.rs`.  Returns the prior
`GameState` together with the updated board; `none` models the documented
panics (no friendly piece at `from`; en passant with no en-passant square). -/
def make_move (b : Board) (move_data : Move) : Option (GameState × Board) :=
  let old_state := b.game_state
  let white_to_move := b.white_to_move
  let flag := move_data.flag
  match flag with
  | .None =>
    match b.friendly_piece_at move_data.fromSq with
    | none => none
    | some piece =>
      let gs1 : GameState :=
        { b.game_state with
          half_move_clock :=
            if piece = .WhitePawn ∨ piece = .BlackPawn then 0
            else b.game_state.half_move_clock + 1 }
      let cr1 :=
        if piece = .WhiteKing then
          (gs1.castling_rights.unset_white_king_side).unset_white_queen_side
        else if piece = .BlackKing then
          (gs1.castling_rights.unset_black_king_side).unset_black_queen_side
        else gs1.castling_rights
      let cr2 :=
        if move_data.fromSq = Square.from_index 0 then cr1.unset_white_queen_side
        else if move_data.fromSq = Square.from_index 7 then cr1.unset_white_king_side
        else if move_data.fromSq = Square.from_index 56 then cr1.unset_black_queen_side
        else if move_data.fromSq = Square.from_index 63 then cr1.unset_black_king_side
        else cr1
      let bbs1 := b.bit_boards.modifyBB piece
        (fun bb => bb.toggle_two move_data.fromSq move_data.toSq)
      let gs2 := { gs1 with castling_rights := cr2, en_passant_square := none }
      let captured := { b with bit_boards := bbs1 }.enemy_piece_at move_data.toSq
      let gs3 := { gs2 with captured := captured }
      match captured with
      | some captured_piece =>
        let cr3 := clear_rights_for_capture gs3.castling_rights move_data.toSq
        let bbs2 := bbs1.modifyBB captured_piece (fun bb => bb.toggle move_data.toSq)
        let gs4 := { gs3 with castling_rights := cr3, half_move_clock := 0 }
        some (old_state,
          { b with bit_boards := bbs2, game_state := gs4, white_to_move := !white_to_move })
      | none =>
        some (old_state,
          { b with bit_boards := bbs1, game_state := gs3, white_to_move := !white_to_move })
  | .PawnTwoUp =>
    let piece : Piece := if white_to_move then .WhitePawn else .BlackPawn
    let bbs1 := b.bit_boards.modifyBB piece
      (fun bb => bb.toggle_two move_data.fromSq move_data.toSq)
    let en_passant_square := move_data.fromSq.up (if white_to_move then 1 else -1)
    let gs1 :=
      { b.game_state with
        half_move_clock := 0
        en_passant_square := some en_passant_square
        captured := none }
    some (old_state,
      { b with bit_boards := bbs1, game_state := gs1, white_to_move := !white_to_move })
  | .Castle =>
    let piece : Piece := if white_to_move then .WhiteKing else .BlackKing
    let cr1 :=
      if white_to_move then
        (b.game_state.castling_rights.unset_white_king_side).unset_white_queen_side
      else
        (b.game_state.castling_rights.unset_black_king_side).unset_black_queen_side
    let bbs1 := b.bit_boards.modifyBB piece
      (fun bb => bb.toggle_two move_data.fromSq move_data.toSq)
    let is_king_side := move_data.toSq.file = 6
    let rook_to_offset : Int := if is_king_side then -1 else 1
    let rook_from_offset : Int := if is_king_side then 1 else -2
    let rook : Piece := if white_to_move then .WhiteRook else .BlackRook
    let rook_from := move_data.toSq.offset rook_from_offset
    let rook_to := move_data.toSq.offset rook_to_offset
    let bbs2 := bbs1.modifyBB rook (fun bb => bb.toggle_two rook_from rook_to)
    let gs1 :=
      { b.game_state with
        half_move_clock := b.game_state.half_move_clock + 1
        castling_rights := cr1
        en_passant_square := none }
    some (old_state,
      { b with bit_boards := bbs2, game_state := gs1, white_to_move := !white_to_move })
  | .EnPassant =>
    match b.game_state.en_passant_square with
    | none => none
    | some en_passant_square =>
      let piece : Piece := if white_to_move then .WhitePawn else .BlackPawn
      let bbs1 := b.bit_boards.modifyBB piece
        (fun bb => bb.toggle_two move_data.fromSq move_data.toSq)
      let capture_position := en_passant_square.down (if white_to_move then 1 else -1)
      let captured : Piece := if white_to_move then .BlackPawn else .WhitePawn
      let bbs2 := bbs1.modifyBB captured (fun bb => bb.toggle capture_position)
      let gs1 :=
        { b.game_state with
          half_move_clock := 0
          captured := some captured
          en_passant_square := none }
      some (old_state,
        { b with bit_boards := bbs2, game_state := gs1, white_to_move := !white_to_move })
  | .QueenPromotion | .RookPromotion | .BishopPromotion | .KnightPromotion =>
    match flag.get_promotion_piece white_to_move with
    | none => none
    | some promotion_piece =>
      let piece : Piece := if white_to_move then .WhitePawn else .BlackPawn
      let bbs1 := b.bit_boards.modifyBB piece (fun bb => bb.toggle move_data.fromSq)
      let bbs2 := bbs1.modifyBB promotion_piece (fun bb => bb.set move_data.toSq)
      let gs1 := { b.game_state with half_move_clock := 0, en_passant_square := none }
      let captured := { b with bit_boards := bbs2 }.enemy_piece_at move_data.toSq
      let gs2 := { gs1 with captured := captured }
      match captured with
      | some captured_piece =>
        let cr1 := clear_rights_for_capture gs2.castling_rights move_data.toSq
        let bbs3 := bbs2.modifyBB captured_piece (fun bb => bb.toggle move_data.toSq)
        let gs3 := { gs2 with castling_rights := cr1 }
        some (old_state,
          { b with bit_boards := bbs3, game_state := gs3, white_to_move := !white_to_move })
      | none =>
        some (old_state,
          { b with bit_boards := bbs2, game_state := gs2, white_to_move := !white_to_move })

/-- `Board::unmake_move` from `move_generator/maker.rs`; `none` models the
documented panics. -/
def unmake_move (b : Board) (move_data : Move) (old_state : GameState) : Option Board :=
  let capture := b.game_state.captured
  let white_to_move := !b.white_to_move
  let b1 : Board := { b with game_state := old_state, white_to_move := white_to_move }
  match move_data.flag with
  | .None =>
    match b1.friendly_piece_at move_data.toSq with
    | none => none
    | some piece =>
      let bbs1 := b1.bit_boards.modifyBB piece
        (fun bb => bb.toggle_two move_data.fromSq move_data.toSq)
      let bbs2 :=
        match capture with
        | some captured_piece =>
          bbs1.modifyBB captured_piece (fun bb => bb.set move_data.toSq)
        | none => bbs1
      some { b1 with bit_boards := bbs2 }
  | .PawnTwoUp =>
    let piece : Piece := if white_to_move then .WhitePawn else .BlackPawn
    let bbs1 := b1.bit_boards.modifyBB piece
      (fun bb => bb.toggle_two move_data.fromSq move_data.toSq)
    some { b1 with bit_boards := bbs1 }
  | .RookPromotion | .BishopPromotion | .KnightPromotion | .QueenPromotion =>
    match move_data.flag.get_promotion_piece white_to_move with
    | none => none
    | some promotion_piece =>
      let piece : Piece := if white_to_move then .WhitePawn else .BlackPawn
      let bbs1 := b1.bit_boards.modifyBB piece (fun bb => bb.set move_data.fromSq)
      let bbs2 := bbs1.modifyBB promotion_piece (fun bb => bb.toggle move_data.toSq)
      let bbs3 :=
        match capture with
        | some captured_piece =>
          bbs2.modifyBB captured_piece (fun bb => bb.set move_data.toSq)
        | none => bbs2
      some { b1 with bit_boards := bbs3 }
  | .EnPassant =>
    match b1.game_state.en_passant_square, capture with
    | some en_passant_square, some captured_piece =>
      let capture_position := en_passant_square.down (if white_to_move then 1 else -1)
      let bbs1 := b1.bit_boards.modifyBB captured_piece (fun bb => bb.set capture_position)
      let piece : Piece := if white_to_move then .WhitePawn else .BlackPawn
      let bbs2 := bbs1.modifyBB piece
        (fun bb => bb.toggle_two move_data.fromSq move_data.toSq)
      some { b1 with bit_boards := bbs2 }
    | _, _ => none
  | .Castle =>
    let is_king_side := move_data.toSq.file = 6
    let rook_to_offset : Int := if is_king_side then -1 else 1
    let rook_from_offset : Int := if is_king_side then 1 else -2
    let rook : Piece := if white_to_move then .WhiteRook else .BlackRook
    let bbs1 := b1.bit_boards.modifyBB rook
      (fun bb => bb.toggle_two (move_data.toSq.offset rook_from_offset)
        (move_data.toSq.offset rook_to_offset))
    let piece : Piece := if white_to_move then .WhiteKing else .BlackKing
    let bbs2 := bbs1.modifyBB piece
      (fun bb => bb.toggle_two move_data.fromSq move_data.toSq)
    some { b1 with bit_boards := bbs2 }

end Board

/-! ## Search-level state

`SearchState`, `ExtendedState` and the parts of `Search` (board, repetition
table, search state) touched by `make_move` / `unmake_move` /
`make_null_move` in `search/mod.rs`. -/

/-- `SearchState` from `search/mod.rs`: incremental evaluation sums and the
three zobrist keys. -/
structure SearchState where
  total_middle_game_score : Int
  total_end_game_score : Int
  position_zobrist_key : Zobrist
  pawn_zobrist_key : Zobrist
  minor_piece_zobrist_key : Zobrist
  deriving DecidableEq, Repr

/-- `ExtendedState` from `search/mod.rs`. -/
structure ExtendedState where
  game_state : GameState
  search_state : SearchState
  deriving DecidableEq, Repr

/-- The fields of `Search` read and written by make/unmake and null moves. -/
structure SearchCore where
  board : Board
  repetition_table : List Zobrist
  search_state : SearchState
  deriving DecidableEq, Repr

/-- Modelled from the spec: the zobrist side-to-move toggle constant
(`zobrist.rs` is not in the provided sources; the constant is an arbitrary
fixed 64-bit value, its exact value immaterial to the verified claims). -/
def side_to_move_key : Nat := 0xF8D626AAAF278509

/-- Modelled from the spec: the zobrist en-passant constants, indexed by
file (arbitrary fixed 64-bit values). -/
def en_passant_keys : List Nat :=
  [0x70CC73D90BC26E24, 0xE21A6B35DF0C3AD7, 0x003A93D8B2806962, 0x1C99DED33CB890A1,
   0xCF3145DE0ADD4289, 0xD0E4427A5514FB72, 0x77C621CC9FB3A483, 0x67A34DAC4356550B]

/-- `Zobrist::flip_side_to_move`. -/
def Zobrist.flip_side_to_move (k : Zobrist) : Zobrist := k ^^^ side_to_move_key

/-- `Zobrist::xor_en_passant(square)` — xors the constant of the square's file. -/
def Zobrist.xor_en_passant (k : Zobrist) (sq : Square) : Zobrist :=
  k ^^^ en_passant_keys.getD sq.file.toNat 0

namespace SearchCore

/-- `Search::make_null_move` from `search/mod.rs`: pushes the current
position key on the repetition table, flips the side to move (updating the
position zobrist key), zeroes the half-move clock and clears the en-passant
square (updating the key), returning the prior extended state. -/
def make_null_move (s : SearchCore) : ExtendedState × SearchCore :=
  let repetition_table := s.repetition_table ++ [s.search_state.position_zobrist_key]
  let old_search_state := s.search_state
  let old_game_state := s.board.game_state
  let k1 := Zobrist.flip_side_to_move s.search_state.position_zobrist_key
  let k2 :=
    match s.board.game_state.en_passant_square with
    | some en_passant_square => Zobrist.xor_en_passant k1 en_passant_square
    | none => k1
  let board :=
    { s.board with
      white_to_move := !s.board.white_to_move
      game_state :=
        { s.board.game_state with half_move_clock := 0, en_passant_square := none } }
  ({ game_state := old_game_state, search_state := old_search_state },
   { board := board
     repetition_table := repetition_table
     search_state := { old_search_state with position_zobrist_key := k2 } })

/-- `Search::unmake_move` from `search/mod.rs`: restores the saved
`SearchState` by copy and calls `Board::unmake_move`. -/
def unmake_move (s : SearchCore) (move_data : Move) (old_state : ExtendedState) :
    Option SearchCore :=
  match s.board.unmake_move move_data old_state.game_state with
  | some board =>
    some { s with board := board, search_state := old_state.search_state }
  | none => none

end SearchCore

/-! ## Bit-level lemmas for make/unmake -/

namespace BitBoard

theorem get_eq_testBit (bb : BitBoard) (sq : Square) :
    bb.get sq = bb.testBit sq.usize := by
  unfold get Square.bit_board
  rw [Nat.shiftLeft_eq, one_mul, Nat.and_two_pow]
  cases h : bb.testBit sq.usize <;>
    simp [h, Nat.pos_iff_ne_zero, Nat.pos_pow_of_pos, Nat.pow_eq_zero]

theorem toggle_two_toggle_two (bb : BitBoard) (a c : Square) :
    (bb.toggle_two a c).toggle_two a c = bb := by
  unfold toggle_two
  rw [Nat.xor_assoc, Nat.xor_self, Nat.xor_zero]

theorem testBit_bit_board (sq : Square) (i : Nat) :
    (Square.bit_board sq).testBit i = decide (sq.usize = i) := by
  unfold Square.bit_board
  rw [Nat.shiftLeft_eq, one_mul]
  by_cases h : sq.usize = i
  · simp [h, Nat.testBit_two_pow_self]
  · simp [h, Nat.testBit_two_pow_of_ne h]

theorem toggle_set_of_get (bb : BitBoard) (sq : Square) (h : bb.get sq = true) :
    (bb.toggle sq).set sq = bb := by
  rw [get_eq_testBit] at h
  unfold toggle set
  apply Nat.eq_of_testBit_eq
  intro i
  rw [Nat.testBit_or, Nat.testBit_xor, testBit_bit_board]
  by_cases hi : Square.usize sq = i
  · subst hi
    simp [h]
  · simp [hi]

theorem set_toggle_of_not_get (bb : BitBoard) (sq : Square) (h : bb.get sq = false) :
    (bb.set sq).toggle sq = bb := by
  rw [get_eq_testBit] at h
  unfold toggle set
  apply Nat.eq_of_testBit_eq
  intro i
  rw [Nat.testBit_xor, Nat.testBit_or, testBit_bit_board]
  by_cases hi : Square.usize sq = i
  · subst hi
    simp [h]
  · simp [hi]

theorem get_toggle_two_right (bb : BitBoard) (a c : Square) :
    (bb.toggle_two a c).get c = !(bb.get c) := by
  unfold toggle_two
  rw [get_eq_testBit, get_eq_testBit, Nat.testBit_xor, Nat.testBit_or,
    testBit_bit_board, testBit_bit_board]
  cases bb.testBit c.usize <;> simp

end BitBoard

namespace BitBoards

theorem setBB_setBB_same (x : BitBoards) (p : Piece) (v w : BitBoard) :
    (x.setBB p v).setBB p w = x.setBB p w := by
  cases p <;> rfl

theorem setBB_getBB_self (x : BitBoards) (p : Piece) :
    x.setBB p (x.getBB p) = x := by
  cases p <;> rfl

theorem setBB_setBB_getBB_of_ne (x : BitBoards) (p q : Piece) (v : BitBoard)
    (h : p ≠ q) : (x.setBB p v).setBB q (x.getBB q) = x.setBB p v := by
  have hq : x.getBB q = (x.setBB p v).getBB q := by
    rw [getBB_setBB, if_neg h]
  rw [hq, setBB_getBB_self]

theorem getBB_modifyBB (x : BitBoards) (p q : Piece) (f : BitBoard → BitBoard) :
    (x.modifyBB p f).getBB q = if p = q then f (x.getBB q) else x.getBB q := by
  unfold modifyBB
  rw [getBB_setBB]
  by_cases h : p = q
  · subst h
    simp
  · simp [h]

end BitBoards

/-- A first-match lookup over piece lists, as performed by
`piece_at_in`/`find?`. -/
theorem find?_eq_some_of {l : List Piece} {pred : Piece → Bool} {p : Piece}
    (hmem : p ∈ l) (hp : pred p = true)
    (hothers : ∀ q ∈ l, q ≠ p → pred q = false) :
    l.find? pred = some p := by
  induction l with
  | nil => cases hmem
  | cons a t ih =>
    by_cases ha : pred a = true
    · have hap : a = p := by
        by_contra hne
        rw [hothers a (List.mem_cons_self a t) hne] at ha
        exact Bool.noConfusion ha
      subst hap
      simp [List.find?, ha]
    · have hne : a ≠ p := fun hEq => ha (hEq ▸ hp)
      have hmem' : p ∈ t := by
        rcases List.mem_cons.mp hmem with h | h
        · exact absurd h.symm hne
        · exact h
      rw [List.find?_cons_of_neg _ (by simpa using ha)]
      exact ih hmem' (fun q hq hqp => hothers q (List.mem_cons_of_mem a hq) hqp)

/-- White and black piece lists are disjoint. -/
theorem white_black_pieces_disjoint :
    ∀ p ∈ Piece.WHITE_PIECES, ∀ q ∈ Piece.BLACK_PIECES, p ≠ q := by
  decide

/-! ## Claim C1: make/unmake round-trip -/

/-- The structural legality conditions that every move emitted by the move
generator satisfies and under which the round-trip is proved:

* quiet moves (`Flag::None`) move a friendly piece from `from` to a square
  holding no friendly piece;
* en passant has an en-passant target and an enemy pawn behind it;
* promotions move a friendly pawn sitting on `from` to a square where the
  promotion piece's board has no bit;
* double pushes and castling need no extra condition (their bitboard
  updates are xor-involutive and the game state is restored by copy). -/
def make_unmake_pre (b : Board) (m : Move) : Prop :=
  match m.flag with
  | .None =>
    (b.friendly_piece_at m.fromSq).isSome = true ∧ b.friendly_piece_at m.toSq = none
  | .PawnTwoUp => True
  | .Castle => True
  | .EnPassant =>
    match b.game_state.en_passant_square with
    | some en_passant_square =>
      (b.bit_boards.getBB (if b.white_to_move then .BlackPawn else .WhitePawn)).get
        (en_passant_square.down (if b.white_to_move then 1 else -1)) = true
    | none => False
  | .QueenPromotion | .RookPromotion | .BishopPromotion | .KnightPromotion =>
    (b.bit_boards.getBB (if b.white_to_move then .WhitePawn else .BlackPawn)).get
        m.fromSq = true ∧
    ∀ pp, m.flag.get_promotion_piece b.white_to_move = some pp →
      (b.bit_boards.getBB pp).get m.toSq = false

theorem make_unmake_pawnTwoUp (b : Board) (f t : Square) :
    ∃ b', b.make_move { fromSq := f, toSq := t, flag := .PawnTwoUp } =
        some (b.game_state, b') ∧
      b'.unmake_move { fromSq := f, toSq := t, flag := .PawnTwoUp } b.game_state =
        some b := by
  refine ⟨_, rfl, ?_⟩
  simp only [Board.unmake_move, Bool.not_not, BitBoards.modifyBB, BitBoards.getBB_setBB,
    if_pos, BitBoard.toggle_two_toggle_two, BitBoards.setBB_setBB_same,
    BitBoards.setBB_getBB_self]

theorem make_unmake_castle (b : Board) (f t : Square) :
    ∃ b', b.make_move { fromSq := f, toSq := t, flag := .Castle } =
        some (b.game_state, b') ∧
      b'.unmake_move { fromSq := f, toSq := t, flag := .Castle } b.game_state =
        some b := by
  refine ⟨_, rfl, ?_⟩
  by_cases hw : b.white_to_move <;>
    simp [Board.unmake_move, Bool.not_not, hw, BitBoards.modifyBB, BitBoards.getBB_setBB,
      BitBoard.toggle_two_toggle_two, BitBoards.setBB_setBB_same,
      BitBoards.setBB_getBB_self, BitBoards.setBB_setBB_getBB_of_ne]
  all_goals (cases b; simp_all)

/-- Round-trip for quiet moves, one side-to-move at a time: the core of the
`Flag::None` case. -/
theorem make_unmake_none_core (bbs0 : BitBoards) (gs0 : GameState) (fmc : Nat)
    (wtm : Bool) (f t : Square) (p : Piece)
    (friendly enemy : List Piece)
    (hfriendly : friendly = if wtm then Piece.WHITE_PIECES else Piece.BLACK_PIECES)
    (henemy : enemy = if wtm then Piece.BLACK_PIECES else Piece.WHITE_PIECES)
    (hp : friendly.find? (fun q => ((bbs0.getBB q)).get f) = some p)
    (ht : friendly.find? (fun q => ((bbs0.getBB q)).get t) = none) :
    ∃ b', Board.make_move ⟨bbs0, wtm, gs0, fmc⟩ { fromSq := f, toSq := t, flag := .None } =
        some (gs0, b') ∧
      b'.unmake_move { fromSq := f, toSq := t, flag := .None } gs0 =
        some ⟨bbs0, wtm, gs0, fmc⟩ := by
  have hdisj : ∀ a ∈ friendly, ∀ c ∈ enemy, a ≠ c := by
    cases wtm
    · simp only [Bool.false_eq_true, if_false] at hfriendly henemy
      subst hfriendly henemy
      intro a ha c hc
      exact (white_black_pieces_disjoint c hc a ha).symm
    · simp only [if_true] at hfriendly henemy
      subst hfriendly henemy
      exact white_black_pieces_disjoint
  have hpmem : p ∈ friendly := List.mem_of_find?_eq_some hp
  have hpget : (bbs0.getBB p).get f = true := by
    have := List.find?_some hp
    simpa using this
  have htall : ∀ q ∈ friendly, (bbs0.getBB q).get t = false := by
    intro q hq
    have := List.find?_eq_none.mp ht q hq
    simpa using this
  have hfp : Board.friendly_piece_at ⟨bbs0, wtm, gs0, fmc⟩ f = some p := by
    cases wtm
    · simp only [Bool.false_eq_true, if_false] at hfriendly
      subst hfriendly
      simpa [Board.friendly_piece_at, Board.black_piece_at, Board.piece_at_in] using hp
    · simp only [if_true] at hfriendly
      subst hfriendly
      simpa [Board.friendly_piece_at, Board.white_piece_at, Board.piece_at_in] using hp
  -- the bitboards after the moving piece's toggle
  set bbs1 := bbs0.modifyBB p (fun bb => bb.toggle_two f t) with hbbs1
  have hbbs1_other : ∀ q, q ≠ p → bbs1.getBB q = bbs0.getBB q := by
    intro q hq
    rw [hbbs1, BitBoards.getBB_modifyBB, if_neg (fun hEq => hq hEq.symm)]
  have hbbs1_p : bbs1.getBB p = (bbs0.getBB p).toggle_two f t := by
    rw [hbbs1, BitBoards.getBB_modifyBB, if_pos rfl]
  -- the capture lookup in `make_move`
  have hfind_shape :
      Board.enemy_piece_at ⟨bbs1, wtm, gs0, fmc⟩ t =
        enemy.find? (fun q => ((bbs1.getBB q)).get t) := by
    cases wtm
    · simp only [Bool.false_eq_true, if_false] at henemy
      subst henemy
      simp [Board.enemy_piece_at, Board.white_piece_at, Board.piece_at_in]
    · simp only [if_true] at henemy
      subst henemy
      simp [Board.enemy_piece_at, Board.black_piece_at, Board.piece_at_in]
  -- friendly lookup at `t` after the move, used by `unmake_move`
  have hfind_back : ∀ bbsX : BitBoards,
      (∀ q ∈ friendly, bbsX.getBB q = bbs1.getBB q) →
      Board.friendly_piece_at ⟨bbsX, wtm, gs0, fmc⟩ t = some p := by
    intro bbsX hX
    have hfind : friendly.find? (fun q => ((bbsX.getBB q)).get t) = some p := by
      apply find?_eq_some_of hpmem
      · rw [hX p hpmem, hbbs1_p, BitBoard.get_toggle_two_right, htall p hpmem]
        rfl
      · intro q hq hqp
        rw [hX q hq, hbbs1_other q hqp]
        exact htall q hq
    cases wtm
    · simp only [Bool.false_eq_true, if_false] at hfriendly
      subst hfriendly
      simpa [Board.friendly_piece_at, Board.black_piece_at, Board.piece_at_in] using hfind
    · simp only [if_true] at hfriendly
      subst hfriendly
      simpa [Board.friendly_piece_at, Board.white_piece_at, Board.piece_at_in] using hfind
  rcases hmk : Board.make_move ⟨bbs0, wtm, gs0, fmc⟩ { fromSq := f, toSq := t, flag := .None }
    with _ | ⟨old, bAfter⟩
  · exfalso
    simp only [Board.make_move, hfp] at hmk
    rw [← hbbs1, hfind_shape] at hmk
    rcases hcap : enemy.find? (fun q => ((bbs1.getBB q)).get t) with _ | c <;>
      rw [hcap] at hmk <;> simp at hmk
  · simp only [Board.make_move, hfp] at hmk
    rw [← hbbs1, hfind_shape] at hmk
    rcases hcap : enemy.find? (fun q => ((bbs1.getBB q)).get t) with _ | c
    · -- no capture
      rw [hcap] at hmk
      simp only [Option.some.injEq, Prod.mk.injEq] at hmk
      obtain ⟨hold, hb⟩ := hmk
      subst hold
      refine ⟨bAfter, rfl, ?_⟩
      rw [← hb]
      simp only [Board.unmake_move, Bool.not_not]
      rw [hfind_back bbs1 (fun q _ => rfl)]
      simp only [hbbs1, BitBoards.modifyBB, BitBoards.getBB_setBB, if_pos,
        BitBoards.setBB_setBB_same, BitBoard.toggle_two_toggle_two,
        BitBoards.setBB_getBB_self, ite_true]
    · -- capture of `c`
      have hcmem : c ∈ enemy := List.mem_of_find?_eq_some hcap
      have hcp : p ≠ c := hdisj p hpmem c hcmem
      have hcget : (bbs0.getBB c).get t = true := by
        have := List.find?_some hcap
        rw [hbbs1_other c (fun hEq => hcp hEq.symm)] at this
        simpa using this
      set bbs2 := bbs1.modifyBB c (fun bb => bb.toggle t) with hbbs2
      have hbbs2_other : ∀ q, q ≠ c → bbs2.getBB q = bbs1.getBB q := by
        intro q hq
        rw [hbbs2, BitBoards.getBB_modifyBB, if_neg (fun hEq => hq hEq.symm)]
      have hbbs2_c : bbs2.getBB c = (bbs0.getBB c).toggle t := by
        rw [hbbs2, BitBoards.getBB_modifyBB, if_pos rfl,
          hbbs1_other c (fun hEq => hcp hEq.symm)]
      rw [hcap] at hmk
      simp only [Option.some.injEq, Prod.mk.injEq] at hmk
      obtain ⟨hold, hb⟩ := hmk
      subst hold
      refine ⟨bAfter, rfl, ?_⟩
      rw [← hb, ← hbbs2]
      simp only [Board.unmake_move, Bool.not_not]
      simp only [hfind_back bbs2 (fun q hq => hbbs2_other q (fun hEq => (hdisj q hq c hcmem) hEq))]
      have hfields : ∀ q, ((bbs2.modifyBB p (fun bb => bb.toggle_two f t)).modifyBB c
          (fun bb => bb.set t)).getBB q = bbs0.getBB q := by
        intro q
        simp only [BitBoards.getBB_modifyBB]
        by_cases hqc : c = q
        · subst hqc
          rw [if_pos rfl, if_neg hcp, hbbs2_c, BitBoard.toggle_set_of_get _ _ hcget]
        · rw [if_neg hqc]
          by_cases hqp : p = q
          · subst hqp
            rw [if_pos rfl, hbbs2_other p hcp, hbbs1_p, BitBoard.toggle_two_toggle_two]
          · rw [if_neg hqp, hbbs2_other q (fun hEq => hqc hEq.symm),
              hbbs1_other q (fun hEq => hqp hEq.symm)]
      rw [BitBoards.eq_of_getBB_eq hfields]

/-- Round-trip for en passant. -/
theorem make_unmake_enpassant_core (bbs0 : BitBoards) (cr : CastlingRights)
    (epSq : Square) (hmc : Nat) (cap : Option Piece) (fmc : Nat) (wtm : Bool)
    (f t : Square)
    (hpawn : (bbs0.getBB (if wtm then Piece.BlackPawn else Piece.WhitePawn)).get
      (epSq.down (if wtm then 1 else -1)) = true) :
    ∃ b', Board.make_move ⟨bbs0, wtm, ⟨cr, some epSq, hmc, cap⟩, fmc⟩
        { fromSq := f, toSq := t, flag := .EnPassant } =
        some (⟨cr, some epSq, hmc, cap⟩, b') ∧
      b'.unmake_move { fromSq := f, toSq := t, flag := .EnPassant }
          ⟨cr, some epSq, hmc, cap⟩ =
        some ⟨bbs0, wtm, ⟨cr, some epSq, hmc, cap⟩, fmc⟩ := by
  refine ⟨_, rfl, ?_⟩
  cases wtm
  · simp only [Bool.false_eq_true, if_false, ite_false] at hpawn
    simp [Board.unmake_move, Bool.not_not, BitBoards.modifyBB, BitBoards.getBB_setBB,
      BitBoards.setBB_setBB_same, BitBoards.setBB_getBB_self,
      BitBoards.setBB_setBB_getBB_of_ne, BitBoard.toggle_two_toggle_two,
      BitBoard.toggle_set_of_get _ _ hpawn]
  · simp only [if_true, ite_true] at hpawn
    simp [Board.unmake_move, Bool.not_not, BitBoards.modifyBB, BitBoards.getBB_setBB,
      BitBoards.setBB_setBB_same, BitBoards.setBB_getBB_self,
      BitBoards.setBB_setBB_getBB_of_ne, BitBoard.toggle_two_toggle_two,
      BitBoard.toggle_set_of_get _ _ hpawn]

/-- Round-trip for a white queen promotion. -/
theorem make_unmake_qpromo_white (bbs0 : BitBoards) (gs0 : GameState) (fmc : Nat)
    (f t : Square)
    (hpawnget : (bbs0.getBB Piece.WhitePawn).get f = true)
    (hppget : (bbs0.getBB Piece.WhiteQueen).get t = false) :
    ∃ b', Board.make_move ⟨bbs0, true, gs0, fmc⟩
        { fromSq := f, toSq := t, flag := .QueenPromotion } = some (gs0, b') ∧
      b'.unmake_move { fromSq := f, toSq := t, flag := .QueenPromotion } gs0 =
        some ⟨bbs0, true, gs0, fmc⟩ := by
  set bbs1 := bbs0.modifyBB Piece.WhitePawn (fun bb => bb.toggle f) with hbbs1
  set bbs2 := bbs1.modifyBB Piece.WhiteQueen (fun bb => bb.set t) with hbbs2
  have hbbs2_other : ∀ q, q ≠ Piece.WhiteQueen → q ≠ Piece.WhitePawn →
      bbs2.getBB q = bbs0.getBB q := by
    intro q h1 h2
    rw [hbbs2, BitBoards.getBB_modifyBB, if_neg (fun hEq => h1 hEq.symm), hbbs1,
      BitBoards.getBB_modifyBB, if_neg (fun hEq => h2 hEq.symm)]
  have hbbs2_pp : bbs2.getBB Piece.WhiteQueen = (bbs0.getBB Piece.WhiteQueen).set t := by
    rw [hbbs2, BitBoards.getBB_modifyBB, if_pos rfl, hbbs1, BitBoards.getBB_modifyBB,
      if_neg (by decide)]
  have hbbs2_pawn : bbs2.getBB Piece.WhitePawn = (bbs0.getBB Piece.WhitePawn).toggle f := by
    rw [hbbs2, BitBoards.getBB_modifyBB, if_neg (by decide), hbbs1,
      BitBoards.getBB_modifyBB, if_pos rfl]
  have hfind_shape : ∀ bbsX : BitBoards,
      Board.enemy_piece_at ⟨bbsX, true, gs0, fmc⟩ t =
        Piece.BLACK_PIECES.find? (fun q => ((bbsX.getBB q)).get t) := by
    intro bbsX
    simp [Board.enemy_piece_at, Board.black_piece_at, Board.piece_at_in]
  rcases hmk : Board.make_move ⟨bbs0, true, gs0, fmc⟩
      { fromSq := f, toSq := t, flag := .QueenPromotion } with _ | ⟨old, bAfter⟩
  · exfalso
    simp only [Board.make_move, Flag.get_promotion_piece, if_true, ite_true] at hmk
    rw [← hbbs1, ← hbbs2, hfind_shape] at hmk
    rcases hcap : Piece.BLACK_PIECES.find? (fun q => ((bbs2.getBB q)).get t) with _ | c <;>
      rw [hcap] at hmk <;> simp at hmk
  · simp only [Board.make_move, Flag.get_promotion_piece, if_true, ite_true] at hmk
    rw [← hbbs1, ← hbbs2, hfind_shape] at hmk
    rcases hcap : Piece.BLACK_PIECES.find? (fun q => ((bbs2.getBB q)).get t) with _ | c
    · -- no capture
      rw [hcap] at hmk
      simp only [Option.some.injEq, Prod.mk.injEq] at hmk
      obtain ⟨hold, hb⟩ := hmk
      subst hold
      refine ⟨bAfter, rfl, ?_⟩
      rw [← hb]
      simp only [Board.unmake_move, Bool.not_not, Flag.get_promotion_piece, if_true, ite_true]
      have hfields : ∀ q, ((bbs2.modifyBB Piece.WhitePawn (fun bb => bb.set f)).modifyBB
          Piece.WhiteQueen (fun bb => bb.toggle t)).getBB q = bbs0.getBB q := by
        intro q
        simp only [BitBoards.getBB_modifyBB]
        by_cases hq1 : Piece.WhiteQueen = q
        · subst hq1
          rw [if_pos rfl, if_neg (by decide), hbbs2_pp,
            BitBoard.set_toggle_of_not_get _ _ hppget]
        · rw [if_neg hq1]
          by_cases hq2 : Piece.WhitePawn = q
          · subst hq2
            rw [if_pos rfl, hbbs2_pawn, BitBoard.toggle_set_of_get _ _ hpawnget]
          · rw [if_neg hq2, hbbs2_other q (fun hEq => hq1 hEq.symm) (fun hEq => hq2 hEq.symm)]
      rw [BitBoards.eq_of_getBB_eq hfields]
    · -- capture of `c`
      have hcmem : c ∈ Piece.BLACK_PIECES := List.mem_of_find?_eq_some hcap
      have hc1 : c ≠ Piece.WhiteQueen :=
        fun hEq => (white_black_pieces_disjoint Piece.WhiteQueen (by decide) c hcmem) hEq.symm
      have hc2 : c ≠ Piece.WhitePawn :=
        fun hEq => (white_black_pieces_disjoint Piece.WhitePawn (by decide) c hcmem) hEq.symm
      have hcget : (bbs0.getBB c).get t = true := by
        have := List.find?_some hcap
        rw [hbbs2_other c hc1 hc2] at this
        simpa using this
      rw [hcap] at hmk
      simp only [Option.some.injEq, Prod.mk.injEq] at hmk
      obtain ⟨hold, hb⟩ := hmk
      subst hold
      refine ⟨bAfter, rfl, ?_⟩
      rw [← hb]
      simp only [Board.unmake_move, Bool.not_not, Flag.get_promotion_piece, if_true, ite_true]
      have hfields : ∀ q, ((((bbs2.modifyBB c (fun bb => bb.toggle t)).modifyBB
          Piece.WhitePawn (fun bb => bb.set f)).modifyBB
          Piece.WhiteQueen (fun bb => bb.toggle t)).modifyBB c
          (fun bb => bb.set t)).getBB q = bbs0.getBB q := by
        intro q
        simp only [BitBoards.getBB_modifyBB]
        by_cases hqc : c = q
        · subst hqc
          rw [if_pos rfl, if_neg (fun hEq => hc1 hEq.symm), if_neg (fun hEq => hc2 hEq.symm),
            if_pos rfl, hbbs2_other c hc1 hc2, BitBoard.toggle_set_of_get _ _ hcget]
        · rw [if_neg hqc]
          by_cases hq1 : Piece.WhiteQueen = q
          · subst hq1
            rw [if_pos rfl, if_neg (by decide), if_neg (fun hEq => hqc hEq)]
            rw [hbbs2_pp, BitBoard.set_toggle_of_not_get _ _ hppget]
          · rw [if_neg hq1]
            by_cases hq2 : Piece.WhitePawn = q
            · subst hq2
              rw [if_pos rfl, if_neg (fun hEq => hqc hEq), hbbs2_pawn,
                BitBoard.toggle_set_of_get _ _ hpawnget]
            · rw [if_neg hq2, if_neg (fun hEq => hqc hEq),
                hbbs2_other q (fun hEq => hq1 hEq.symm) (fun hEq => hq2 hEq.symm)]
      rw [BitBoards.eq_of_getBB_eq hfields]

/-- Round-trip for a white rook promotion. -/
theorem make_unmake_rpromo_white (bbs0 : BitBoards) (gs0 : GameState) (fmc : Nat)
    (f t : Square)
    (hpawnget : (bbs0.getBB Piece.WhitePawn).get f = true)
    (hppget : (bbs0.getBB Piece.WhiteRook).get t = false) :
    ∃ b', Board.make_move ⟨bbs0, true, gs0, fmc⟩
        { fromSq := f, toSq := t, flag := .RookPromotion } = some (gs0, b') ∧
      b'.unmake_move { fromSq := f, toSq := t, flag := .RookPromotion } gs0 =
        some ⟨bbs0, true, gs0, fmc⟩ := by
  set bbs1 := bbs0.modifyBB Piece.WhitePawn (fun bb => bb.toggle f) with hbbs1
  set bbs2 := bbs1.modifyBB Piece.WhiteRook (fun bb => bb.set t) with hbbs2
  have hbbs2_other : ∀ q, q ≠ Piece.WhiteRook → q ≠ Piece.WhitePawn →
      bbs2.getBB q = bbs0.getBB q := by
    intro q h1 h2
    rw [hbbs2, BitBoards.getBB_modifyBB, if_neg (fun hEq => h1 hEq.symm), hbbs1,
      BitBoards.getBB_modifyBB, if_neg (fun hEq => h2 hEq.symm)]
  have hbbs2_pp : bbs2.getBB Piece.WhiteRook = (bbs0.getBB Piece.WhiteRook).set t := by
    rw [hbbs2, BitBoards.getBB_modifyBB, if_pos rfl, hbbs1, BitBoards.getBB_modifyBB,
      if_neg (by decide)]
  have hbbs2_pawn : bbs2.getBB Piece.WhitePawn = (bbs0.getBB Piece.WhitePawn).toggle f := by
    rw [hbbs2, BitBoards.getBB_modifyBB, if_neg (by decide), hbbs1,
      BitBoards.getBB_modifyBB, if_pos rfl]
  have hfind_shape : ∀ bbsX : BitBoards,
      Board.enemy_piece_at ⟨bbsX, true, gs0, fmc⟩ t =
        Piece.BLACK_PIECES.find? (fun q => ((bbsX.getBB q)).get t) := by
    intro bbsX
    simp [Board.enemy_piece_at, Board.black_piece_at, Board.piece_at_in]
  rcases hmk : Board.make_move ⟨bbs0, true, gs0, fmc⟩
      { fromSq := f, toSq := t, flag := .RookPromotion } with _ | ⟨old, bAfter⟩
  · exfalso
    simp only [Board.make_move, Flag.get_promotion_piece, if_true, ite_true] at hmk
    rw [← hbbs1, ← hbbs2, hfind_shape] at hmk
    rcases hcap : Piece.BLACK_PIECES.find? (fun q => ((bbs2.getBB q)).get t) with _ | c <;>
      rw [hcap] at hmk <;> simp at hmk
  · simp only [Board.make_move, Flag.get_promotion_piece, if_true, ite_true] at hmk
    rw [← hbbs1, ← hbbs2, hfind_shape] at hmk
    rcases hcap : Piece.BLACK_PIECES.find? (fun q => ((bbs2.getBB q)).get t) with _ | c
    · -- no capture
      rw [hcap] at hmk
      simp only [Option.some.injEq, Prod.mk.injEq] at hmk
      obtain ⟨hold, hb⟩ := hmk
      subst hold
      refine ⟨bAfter, rfl, ?_⟩
      rw [← hb]
      simp only [Board.unmake_move, Bool.not_not, Flag.get_promotion_piece, if_true, ite_true]
      have hfields : ∀ q, ((bbs2.modifyBB Piece.WhitePawn (fun bb => bb.set f)).modifyBB
          Piece.WhiteRook (fun bb => bb.toggle t)).getBB q = bbs0.getBB q := by
        intro q
        simp only [BitBoards.getBB_modifyBB]
        by_cases hq1 : Piece.WhiteRook = q
        · subst hq1
          rw [if_pos rfl, if_neg (by decide), hbbs2_pp,
            BitBoard.set_toggle_of_not_get _ _ hppget]
        · rw [if_neg hq1]
          by_cases hq2 : Piece.WhitePawn = q
          · subst hq2
            rw [if_pos rfl, hbbs2_pawn, BitBoard.toggle_set_of_get _ _ hpawnget]
          · rw [if_neg hq2, hbbs2_other q (fun hEq => hq1 hEq.symm) (fun hEq => hq2 hEq.symm)]
      rw [BitBoards.eq_of_getBB_eq hfields]
    · -- capture of `c`
      have hcmem : c ∈ Piece.BLACK_PIECES := List.mem_of_find?_eq_some hcap
      have hc1 : c ≠ Piece.WhiteRook :=
        fun hEq => (white_black_pieces_disjoint Piece.WhiteRook (by decide) c hcmem) hEq.symm
      have hc2 : c ≠ Piece.WhitePawn :=
        fun hEq => (white_black_pieces_disjoint Piece.WhitePawn (by decide) c hcmem) hEq.symm
      have hcget : (bbs0.getBB c).get t = true := by
        have := List.find?_some hcap
        rw [hbbs2_other c hc1 hc2] at this
        simpa using this
      rw [hcap] at hmk
      simp only [Option.some.injEq, Prod.mk.injEq] at hmk
      obtain ⟨hold, hb⟩ := hmk
      subst hold
      refine ⟨bAfter, rfl, ?_⟩
      rw [← hb]
      simp only [Board.unmake_move, Bool.not_not, Flag.get_promotion_piece, if_true, ite_true]
      have hfields : ∀ q, ((((bbs2.modifyBB c (fun bb => bb.toggle t)).modifyBB
          Piece.WhitePawn (fun bb => bb.set f)).modifyBB
          Piece.WhiteRook (fun bb => bb.toggle t)).modifyBB c
          (fun bb => bb.set t)).getBB q = bbs0.getBB q := by
        intro q
        simp only [BitBoards.getBB_modifyBB]
        by_cases hqc : c = q
        · subst hqc
          rw [if_pos rfl, if_neg (fun hEq => hc1 hEq.symm), if_neg (fun hEq => hc2 hEq.symm),
            if_pos rfl, hbbs2_other c hc1 hc2, BitBoard.toggle_set_of_get _ _ hcget]
        · rw [if_neg hqc]
          by_cases hq1 : Piece.WhiteRook = q
          · subst hq1
            rw [if_pos rfl, if_neg (by decide), if_neg (fun hEq => hqc hEq)]
            rw [hbbs2_pp, BitBoard.set_toggle_of_not_get _ _ hppget]
          · rw [if_neg hq1]
            by_cases hq2 : Piece.WhitePawn = q
            · subst hq2
              rw [if_pos rfl, if_neg (fun hEq => hqc hEq), hbbs2_pawn,
                BitBoard.toggle_set_of_get _ _ hpawnget]
            · rw [if_neg hq2, if_neg (fun hEq => hqc hEq),
                hbbs2_other q (fun hEq => hq1 hEq.symm) (fun hEq => hq2 hEq.symm)]
      rw [BitBoards.eq_of_getBB_eq hfields]

/-- Round-trip for a white bishop promotion. -/
theorem make_unmake_bpromo_white (bbs0 : BitBoards) (gs0 : GameState) (fmc : Nat)
    (f t : Square)
    (hpawnget : (bbs0.getBB Piece.WhitePawn).get f = true)
    (hppget : (bbs0.getBB Piece.WhiteBishop).get t = false) :
    ∃ b', Board.make_move ⟨bbs0, true, gs0, fmc⟩
        { fromSq := f, toSq := t, flag := .BishopPromotion } = some (gs0, b') ∧
      b'.unmake_move { fromSq := f, toSq := t, flag := .BishopPromotion } gs0 =
        some ⟨bbs0, true, gs0, fmc⟩ := by
  set bbs1 := bbs0.modifyBB Piece.WhitePawn (fun bb => bb.toggle f) with hbbs1
  set bbs2 := bbs1.modifyBB Piece.WhiteBishop (fun bb => bb.set t) with hbbs2
  have hbbs2_other : ∀ q, q ≠ Piece.WhiteBishop → q ≠ Piece.WhitePawn →
      bbs2.getBB q = bbs0.getBB q := by
    intro q h1 h2
    rw [hbbs2, BitBoards.getBB_modifyBB, if_neg (fun hEq => h1 hEq.symm), hbbs1,
      BitBoards.getBB_modifyBB, if_neg (fun hEq => h2 hEq.symm)]
  have hbbs2_pp : bbs2.getBB Piece.WhiteBishop = (bbs0.getBB Piece.WhiteBishop).set t := by
    rw [hbbs2, BitBoards.getBB_modifyBB, if_pos rfl, hbbs1, BitBoards.getBB_modifyBB,
      if_neg (by decide)]
  have hbbs2_pawn : bbs2.getBB Piece.WhitePawn = (bbs0.getBB Piece.WhitePawn).toggle f := by
    rw [hbbs2, BitBoards.getBB_modifyBB, if_neg (by decide), hbbs1,
      BitBoards.getBB_modifyBB, if_pos rfl]
  have hfind_shape : ∀ bbsX : BitBoards,
      Board.enemy_piece_at ⟨bbsX, true, gs0, fmc⟩ t =
        Piece.BLACK_PIECES.find? (fun q => ((bbsX.getBB q)).get t) := by
    intro bbsX
    simp [Board.enemy_piece_at, Board.black_piece_at, Board.piece_at_in]
  rcases hmk : Board.make_move ⟨bbs0, true, gs0, fmc⟩
      { fromSq := f, toSq := t, flag := .BishopPromotion } with _ | ⟨old, bAfter⟩
  · exfalso
    simp only [Board.make_move, Flag.get_promotion_piece, if_true, ite_true] at hmk
    rw [← hbbs1, ← hbbs2, hfind_shape] at hmk
    rcases hcap : Piece.BLACK_PIECES.find? (fun q => ((bbs2.getBB q)).get t) with _ | c <;>
      rw [hcap] at hmk <;> simp at hmk
  · simp only [Board.make_move, Flag.get_promotion_piece, if_true, ite_true] at hmk
    rw [← hbbs1, ← hbbs2, hfind_shape] at hmk
    rcases hcap : Piece.BLACK_PIECES.find? (fun q => ((bbs2.getBB q)).get t) with _ | c
    · -- no capture
      rw [hcap] at hmk
      simp only [Option.some.injEq, Prod.mk.injEq] at hmk
      obtain ⟨hold, hb⟩ := hmk
      subst hold
      refine ⟨bAfter, rfl, ?_⟩
      rw [← hb]
      simp only [Board.unmake_move, Bool.not_not, Flag.get_promotion_piece, if_true, ite_true]
      have hfields : ∀ q, ((bbs2.modifyBB Piece.WhitePawn (fun bb => bb.set f)).modifyBB
          Piece.WhiteBishop (fun bb => bb.toggle t)).getBB q = bbs0.getBB q := by
        intro q
        simp only [BitBoards.getBB_modifyBB]
        by_cases hq1 : Piece.WhiteBishop = q
        · subst hq1
          rw [if_pos rfl, if_neg (by decide), hbbs2_pp,
            BitBoard.set_toggle_of_not_get _ _ hppget]
        · rw [if_neg hq1]
          by_cases hq2 : Piece.WhitePawn = q
          · subst hq2
            rw [if_pos rfl, hbbs2_pawn, BitBoard.toggle_set_of_get _ _ hpawnget]
          · rw [if_neg hq2, hbbs2_other q (fun hEq => hq1 hEq.symm) (fun hEq => hq2 hEq.symm)]
      rw [BitBoards.eq_of_getBB_eq hfields]
    · -- capture of `c`
      have hcmem : c ∈ Piece.BLACK_PIECES := List.mem_of_find?_eq_some hcap
      have hc1 : c ≠ Piece.WhiteBishop :=
        fun hEq => (white_black_pieces_disjoint Piece.WhiteBishop (by decide) c hcmem) hEq.symm
      have hc2 : c ≠ Piece.WhitePawn :=
        fun hEq => (white_black_pieces_disjoint Piece.WhitePawn (by decide) c hcmem) hEq.symm
      have hcget : (bbs0.getBB c).get t = true := by
        have := List.find?_some hcap
        rw [hbbs2_other c hc1 hc2] at this
        simpa using this
      rw [hcap] at hmk
      simp only [Option.some.injEq, Prod.mk.injEq] at hmk
      obtain ⟨hold, hb⟩ := hmk
      subst hold
      refine ⟨bAfter, rfl, ?_⟩
      rw [← hb]
      simp only [Board.unmake_move, Bool.not_not, Flag.get_promotion_piece, if_true, ite_true]
      have hfields : ∀ q, ((((bbs2.modifyBB c (fun bb => bb.toggle t)).modifyBB
          Piece.WhitePawn (fun bb => bb.set f)).modifyBB
          Piece.WhiteBishop (fun bb => bb.toggle t)).modifyBB c
          (fun bb => bb.set t)).getBB q = bbs0.getBB q := by
        intro q
        simp only [BitBoards.getBB_modifyBB]
        by_cases hqc : c = q
        · subst hqc
          rw [if_pos rfl, if_neg (fun hEq => hc1 hEq.symm), if_neg (fun hEq => hc2 hEq.symm),
            if_pos rfl, hbbs2_other c hc1 hc2, BitBoard.toggle_set_of_get _ _ hcget]
        · rw [if_neg hqc]
          by_cases hq1 : Piece.WhiteBishop = q
          · subst hq1
            rw [if_pos rfl, if_neg (by decide), if_neg (fun hEq => hqc hEq)]
            rw [hbbs2_pp, BitBoard.set_toggle_of_not_get _ _ hppget]
          · rw [if_neg hq1]
            by_cases hq2 : Piece.WhitePawn = q
            · subst hq2
              rw [if_pos rfl, if_neg (fun hEq => hqc hEq), hbbs2_pawn,
                BitBoard.toggle_set_of_get _ _ hpawnget]
            · rw [if_neg hq2, if_neg (fun hEq => hqc hEq),
                hbbs2_other q (fun hEq => hq1 hEq.symm) (fun hEq => hq2 hEq.symm)]
      rw [BitBoards.eq_of_getBB_eq hfields]

/-- Round-trip for a white knight promotion. -/
theorem make_unmake_kpromo_white (bbs0 : BitBoards) (gs0 : GameState) (fmc : Nat)
    (f t : Square)
    (hpawnget : (bbs0.getBB Piece.WhitePawn).get f = true)
    (hppget : (bbs0.getBB Piece.WhiteKnight).get t = false) :
    ∃ b', Board.make_move ⟨bbs0, true, gs0, fmc⟩
        { fromSq := f, toSq := t, flag := .KnightPromotion } = some (gs0, b') ∧
      b'.unmake_move { fromSq := f, toSq := t, flag := .KnightPromotion } gs0 =
        some ⟨bbs0, true, gs0, fmc⟩ := by
  set bbs1 := bbs0.modifyBB Piece.WhitePawn (fun bb => bb.toggle f) with hbbs1
  set bbs2 := bbs1.modifyBB Piece.WhiteKnight (fun bb => bb.set t) with hbbs2
  have hbbs2_other : ∀ q, q ≠ Piece.WhiteKnight → q ≠ Piece.WhitePawn →
      bbs2.getBB q = bbs0.getBB q := by
    intro q h1 h2
    rw [hbbs2, BitBoards.getBB_modifyBB, if_neg (fun hEq => h1 hEq.symm), hbbs1,
      BitBoards.getBB_modifyBB, if_neg (fun hEq => h2 hEq.symm)]
  have hbbs2_pp : bbs2.getBB Piece.WhiteKnight = (bbs0.getBB Piece.WhiteKnight).set t := by
    rw [hbbs2, BitBoards.getBB_modifyBB, if_pos rfl, hbbs1, BitBoards.getBB_modifyBB,
      if_neg (by decide)]
  have hbbs2_pawn : bbs2.getBB Piece.WhitePawn = (bbs0.getBB Piece.WhitePawn).toggle f := by
    rw [hbbs2, BitBoards.getBB_modifyBB, if_neg (by decide), hbbs1,
      BitBoards.getBB_modifyBB, if_pos rfl]
  have hfind_shape : ∀ bbsX : BitBoards,
      Board.enemy_piece_at ⟨bbsX, true, gs0, fmc⟩ t =
        Piece.BLACK_PIECES.find? (fun q => ((bbsX.getBB q)).get t) := by
    intro bbsX
    simp [Board.enemy_piece_at, Board.black_piece_at, Board.piece_at_in]
  rcases hmk : Board.make_move ⟨bbs0, true, gs0, fmc⟩
      { fromSq := f, toSq := t, flag := .KnightPromotion } with _ | ⟨old, bAfter⟩
  · exfalso
    simp only [Board.make_move, Flag.get_promotion_piece, if_true, ite_true] at hmk
    rw [← hbbs1, ← hbbs2, hfind_shape] at hmk
    rcases hcap : Piece.BLACK_PIECES.find? (fun q => ((bbs2.getBB q)).get t) with _ | c <;>
      rw [hcap] at hmk <;> simp at hmk
  · simp only [Board.make_move, Flag.get_promotion_piece, if_true, ite_true] at hmk
    rw [← hbbs1, ← hbbs2, hfind_shape] at hmk
    rcases hcap : Piece.BLACK_PIECES.find? (fun q => ((bbs2.getBB q)).get t) with _ | c
    · -- no capture
      rw [hcap] at hmk
      simp only [Option.some.injEq, Prod.mk.injEq] at hmk
      obtain ⟨hold, hb⟩ := hmk
      subst hold
      refine ⟨bAfter, rfl, ?_⟩
      rw [← hb]
      simp only [Board.unmake_move, Bool.not_not, Flag.get_promotion_piece, if_true, ite_true]
      have hfields : ∀ q, ((bbs2.modifyBB Piece.WhitePawn (fun bb => bb.set f)).modifyBB
          Piece.WhiteKnight (fun bb => bb.toggle t)).getBB q = bbs0.getBB q := by
        intro q
        simp only [BitBoards.getBB_modifyBB]
        by_cases hq1 : Piece.WhiteKnight = q
        · subst hq1
          rw [if_pos rfl, if_neg (by decide), hbbs2_pp,
            BitBoard.set_toggle_of_not_get _ _ hppget]
        · rw [if_neg hq1]
          by_cases hq2 : Piece.WhitePawn = q
          · subst hq2
            rw [if_pos rfl, hbbs2_pawn, BitBoard.toggle_set_of_get _ _ hpawnget]
          · rw [if_neg hq2, hbbs2_other q (fun hEq => hq1 hEq.symm) (fun hEq => hq2 hEq.symm)]
      rw [BitBoards.eq_of_getBB_eq hfields]
    · -- capture of `c`
      have hcmem : c ∈ Piece.BLACK_PIECES := List.mem_of_find?_eq_some hcap
      have hc1 : c ≠ Piece.WhiteKnight :=
        fun hEq => (white_black_pieces_disjoint Piece.WhiteKnight (by decide) c hcmem) hEq.symm
      have hc2 : c ≠ Piece.WhitePawn :=
        fun hEq => (white_black_pieces_disjoint Piece.WhitePawn (by decide) c hcmem) hEq.symm
      have hcget : (bbs0.getBB c).get t = true := by
        have := List.find?_some hcap
        rw [hbbs2_other c hc1 hc2] at this
        simpa using this
      rw [hcap] at hmk
      simp only [Option.some.injEq, Prod.mk.injEq] at hmk
      obtain ⟨hold, hb⟩ := hmk
      subst hold
      refine ⟨bAfter, rfl, ?_⟩
      rw [← hb]
      simp only [Board.unmake_move, Bool.not_not, Flag.get_promotion_piece, if_true, ite_true]
      have hfields : ∀ q, ((((bbs2.modifyBB c (fun bb => bb.toggle t)).modifyBB
          Piece.WhitePawn (fun bb => bb.set f)).modifyBB
          Piece.WhiteKnight (fun bb => bb.toggle t)).modifyBB c
          (fun bb => bb.set t)).getBB q = bbs0.getBB q := by
        intro q
        simp only [BitBoards.getBB_modifyBB]
        by_cases hqc : c = q
        · subst hqc
          rw [if_pos rfl, if_neg (fun hEq => hc1 hEq.symm), if_neg (fun hEq => hc2 hEq.symm),
            if_pos rfl, hbbs2_other c hc1 hc2, BitBoard.toggle_set_of_get _ _ hcget]
        · rw [if_neg hqc]
          by_cases hq1 : Piece.WhiteKnight = q
          · subst hq1
            rw [if_pos rfl, if_neg (by decide), if_neg (fun hEq => hqc hEq)]
            rw [hbbs2_pp, BitBoard.set_toggle_of_not_get _ _ hppget]
          · rw [if_neg hq1]
            by_cases hq2 : Piece.WhitePawn = q
            · subst hq2
              rw [if_pos rfl, if_neg (fun hEq => hqc hEq), hbbs2_pawn,
                BitBoard.toggle_set_of_get _ _ hpawnget]
            · rw [if_neg hq2, if_neg (fun hEq => hqc hEq),
                hbbs2_other q (fun hEq => hq1 hEq.symm) (fun hEq => hq2 hEq.symm)]
      rw [BitBoards.eq_of_getBB_eq hfields]

/-- Round-trip for a black queen promotion. -/
theorem make_unmake_qpromo_black (bbs0 : BitBoards) (gs0 : GameState) (fmc : Nat)
    (f t : Square)
    (hpawnget : (bbs0.getBB Piece.BlackPawn).get f = true)
    (hppget : (bbs0.getBB Piece.BlackQueen).get t = false) :
    ∃ b', Board.make_move ⟨bbs0, false, gs0, fmc⟩
        { fromSq := f, toSq := t, flag := .QueenPromotion } = some (gs0, b') ∧
      b'.unmake_move { fromSq := f, toSq := t, flag := .QueenPromotion } gs0 =
        some ⟨bbs0, false, gs0, fmc⟩ := by
  set bbs1 := bbs0.modifyBB Piece.BlackPawn (fun bb => bb.toggle f) with hbbs1
  set bbs2 := bbs1.modifyBB Piece.BlackQueen (fun bb => bb.set t) with hbbs2
  have hbbs2_other : ∀ q, q ≠ Piece.BlackQueen → q ≠ Piece.BlackPawn →
      bbs2.getBB q = bbs0.getBB q := by
    intro q h1 h2
    rw [hbbs2, BitBoards.getBB_modifyBB, if_neg (fun hEq => h1 hEq.symm), hbbs1,
      BitBoards.getBB_modifyBB, if_neg (fun hEq => h2 hEq.symm)]
  have hbbs2_pp : bbs2.getBB Piece.BlackQueen = (bbs0.getBB Piece.BlackQueen).set t := by
    rw [hbbs2, BitBoards.getBB_modifyBB, if_pos rfl, hbbs1, BitBoards.getBB_modifyBB,
      if_neg (by decide)]
  have hbbs2_pawn : bbs2.getBB Piece.BlackPawn = (bbs0.getBB Piece.BlackPawn).toggle f := by
    rw [hbbs2, BitBoards.getBB_modifyBB, if_neg (by decide), hbbs1,
      BitBoards.getBB_modifyBB, if_pos rfl]
  have hfind_shape : ∀ bbsX : BitBoards,
      Board.enemy_piece_at ⟨bbsX, false, gs0, fmc⟩ t =
        Piece.WHITE_PIECES.find? (fun q => ((bbsX.getBB q)).get t) := by
    intro bbsX
    simp [Board.enemy_piece_at, Board.white_piece_at, Board.piece_at_in]
  rcases hmk : Board.make_move ⟨bbs0, false, gs0, fmc⟩
      { fromSq := f, toSq := t, flag := .QueenPromotion } with _ | ⟨old, bAfter⟩
  · exfalso
    simp only [Board.make_move, Flag.get_promotion_piece, Bool.false_eq_true, if_false, ite_false] at hmk
    rw [← hbbs1, ← hbbs2, hfind_shape] at hmk
    rcases hcap : Piece.WHITE_PIECES.find? (fun q => ((bbs2.getBB q)).get t) with _ | c <;>
      rw [hcap] at hmk <;> simp at hmk
  · simp only [Board.make_move, Flag.get_promotion_piece, Bool.false_eq_true, if_false, ite_false] at hmk
    rw [← hbbs1, ← hbbs2, hfind_shape] at hmk
    rcases hcap : Piece.WHITE_PIECES.find? (fun q => ((bbs2.getBB q)).get t) with _ | c
    · -- no capture
      rw [hcap] at hmk
      simp only [Option.some.injEq, Prod.mk.injEq] at hmk
      obtain ⟨hold, hb⟩ := hmk
      subst hold
      refine ⟨bAfter, rfl, ?_⟩
      rw [← hb]
      simp only [Board.unmake_move, Bool.not_not, Flag.get_promotion_piece, Bool.false_eq_true, if_false, ite_false]
      have hfields : ∀ q, ((bbs2.modifyBB Piece.BlackPawn (fun bb => bb.set f)).modifyBB
          Piece.BlackQueen (fun bb => bb.toggle t)).getBB q = bbs0.getBB q := by
        intro q
        simp only [BitBoards.getBB_modifyBB]
        by_cases hq1 : Piece.BlackQueen = q
        · subst hq1
          rw [if_pos rfl, if_neg (by decide), hbbs2_pp,
            BitBoard.set_toggle_of_not_get _ _ hppget]
        · rw [if_neg hq1]
          by_cases hq2 : Piece.BlackPawn = q
          · subst hq2
            rw [if_pos rfl, hbbs2_pawn, BitBoard.toggle_set_of_get _ _ hpawnget]
          · rw [if_neg hq2, hbbs2_other q (fun hEq => hq1 hEq.symm) (fun hEq => hq2 hEq.symm)]
      rw [BitBoards.eq_of_getBB_eq hfields]
    · -- capture of `c`
      have hcmem : c ∈ Piece.WHITE_PIECES := List.mem_of_find?_eq_some hcap
      have hc1 : c ≠ Piece.BlackQueen :=
        white_black_pieces_disjoint c hcmem Piece.BlackQueen (by decide)
      have hc2 : c ≠ Piece.BlackPawn :=
        white_black_pieces_disjoint c hcmem Piece.BlackPawn (by decide)
      have hcget : (bbs0.getBB c).get t = true := by
        have := List.find?_some hcap
        rw [hbbs2_other c hc1 hc2] at this
        simpa using this
      rw [hcap] at hmk
      simp only [Option.some.injEq, Prod.mk.injEq] at hmk
      obtain ⟨hold, hb⟩ := hmk
      subst hold
      refine ⟨bAfter, rfl, ?_⟩
      rw [← hb]
      simp only [Board.unmake_move, Bool.not_not, Flag.get_promotion_piece, Bool.false_eq_true, if_false, ite_false]
      have hfields : ∀ q, ((((bbs2.modifyBB c (fun bb => bb.toggle t)).modifyBB
          Piece.BlackPawn (fun bb => bb.set f)).modifyBB
          Piece.BlackQueen (fun bb => bb.toggle t)).modifyBB c
          (fun bb => bb.set t)).getBB q = bbs0.getBB q := by
        intro q
        simp only [BitBoards.getBB_modifyBB]
        by_cases hqc : c = q
        · subst hqc
          rw [if_pos rfl, if_neg (fun hEq => hc1 hEq.symm), if_neg (fun hEq => hc2 hEq.symm),
            if_pos rfl, hbbs2_other c hc1 hc2, BitBoard.toggle_set_of_get _ _ hcget]
        · rw [if_neg hqc]
          by_cases hq1 : Piece.BlackQueen = q
          · subst hq1
            rw [if_pos rfl, if_neg (by decide), if_neg (fun hEq => hqc hEq)]
            rw [hbbs2_pp, BitBoard.set_toggle_of_not_get _ _ hppget]
          · rw [if_neg hq1]
            by_cases hq2 : Piece.BlackPawn = q
            · subst hq2
              rw [if_pos rfl, if_neg (fun hEq => hqc hEq), hbbs2_pawn,
                BitBoard.toggle_set_of_get _ _ hpawnget]
            · rw [if_neg hq2, if_neg (fun hEq => hqc hEq),
                hbbs2_other q (fun hEq => hq1 hEq.symm) (fun hEq => hq2 hEq.symm)]
      rw [BitBoards.eq_of_getBB_eq hfields]

/-- Round-trip for a black rook promotion. -/
theorem make_unmake_rpromo_black (bbs0 : BitBoards) (gs0 : GameState) (fmc : Nat)
    (f t : Square)
    (hpawnget : (bbs0.getBB Piece.BlackPawn).get f = true)
    (hppget : (bbs0.getBB Piece.BlackRook).get t = false) :
    ∃ b', Board.make_move ⟨bbs0, false, gs0, fmc⟩
        { fromSq := f, toSq := t, flag := .RookPromotion } = some (gs0, b') ∧
      b'.unmake_move { fromSq := f, toSq := t, flag := .RookPromotion } gs0 =
        some ⟨bbs0, false, gs0, fmc⟩ := by
  set bbs1 := bbs0.modifyBB Piece.BlackPawn (fun bb => bb.toggle f) with hbbs1
  set bbs2 := bbs1.modifyBB Piece.BlackRook (fun bb => bb.set t) with hbbs2
  have hbbs2_other : ∀ q, q ≠ Piece.BlackRook → q ≠ Piece.BlackPawn →
      bbs2.getBB q = bbs0.getBB q := by
    intro q h1 h2
    rw [hbbs2, BitBoards.getBB_modifyBB, if_neg (fun hEq => h1 hEq.symm), hbbs1,
      BitBoards.getBB_modifyBB, if_neg (fun hEq => h2 hEq.symm)]
  have hbbs2_pp : bbs2.getBB Piece.BlackRook = (bbs0.getBB Piece.BlackRook).set t := by
    rw [hbbs2, BitBoards.getBB_modifyBB, if_pos rfl, hbbs1, BitBoards.getBB_modifyBB,
      if_neg (by decide)]
  have hbbs2_pawn : bbs2.getBB Piece.BlackPawn = (bbs0.getBB Piece.BlackPawn).toggle f := by
    rw [hbbs2, BitBoards.getBB_modifyBB, if_neg (by decide), hbbs1,
      BitBoards.getBB_modifyBB, if_pos rfl]
  have hfind_shape : ∀ bbsX : BitBoards,
      Board.enemy_piece_at ⟨bbsX, false, gs0, fmc⟩ t =
        Piece.WHITE_PIECES.find? (fun q => ((bbsX.getBB q)).get t) := by
    intro bbsX
    simp [Board.enemy_piece_at, Board.white_piece_at, Board.piece_at_in]
  rcases hmk : Board.make_move ⟨bbs0, false, gs0, fmc⟩
      { fromSq := f, toSq := t, flag := .RookPromotion } with _ | ⟨old, bAfter⟩
  · exfalso
    simp only [Board.make_move, Flag.get_promotion_piece, Bool.false_eq_true, if_false, ite_false] at hmk
    rw [← hbbs1, ← hbbs2, hfind_shape] at hmk
    rcases hcap : Piece.WHITE_PIECES.find? (fun q => ((bbs2.getBB q)).get t) with _ | c <;>
      rw [hcap] at hmk <;> simp at hmk
  · simp only [Board.make_move, Flag.get_promotion_piece, Bool.false_eq_true, if_false, ite_false] at hmk
    rw [← hbbs1, ← hbbs2, hfind_shape] at hmk
    rcases hcap : Piece.WHITE_PIECES.find? (fun q => ((bbs2.getBB q)).get t) with _ | c
    · -- no capture
      rw [hcap] at hmk
      simp only [Option.some.injEq, Prod.mk.injEq] at hmk
      obtain ⟨hold, hb⟩ := hmk
      subst hold
      refine ⟨bAfter, rfl, ?_⟩
      rw [← hb]
      simp only [Board.unmake_move, Bool.not_not, Flag.get_promotion_piece, Bool.false_eq_true, if_false, ite_false]
      have hfields : ∀ q, ((bbs2.modifyBB Piece.BlackPawn (fun bb => bb.set f)).modifyBB
          Piece.BlackRook (fun bb => bb.toggle t)).getBB q = bbs0.getBB q := by
        intro q
        simp only [BitBoards.getBB_modifyBB]
        by_cases hq1 : Piece.BlackRook = q
        · subst hq1
          rw [if_pos rfl, if_neg (by decide), hbbs2_pp,
            BitBoard.set_toggle_of_not_get _ _ hppget]
        · rw [if_neg hq1]
          by_cases hq2 : Piece.BlackPawn = q
          · subst hq2
            rw [if_pos rfl, hbbs2_pawn, BitBoard.toggle_set_of_get _ _ hpawnget]
          · rw [if_neg hq2, hbbs2_other q (fun hEq => hq1 hEq.symm) (fun hEq => hq2 hEq.symm)]
      rw [BitBoards.eq_of_getBB_eq hfields]
    · -- capture of `c`
      have hcmem : c ∈ Piece.WHITE_PIECES := List.mem_of_find?_eq_some hcap
      have hc1 : c ≠ Piece.BlackRook :=
        white_black_pieces_disjoint c hcmem Piece.BlackRook (by decide)
      have hc2 : c ≠ Piece.BlackPawn :=
        white_black_pieces_disjoint c hcmem Piece.BlackPawn (by decide)
      have hcget : (bbs0.getBB c).get t = true := by
        have := List.find?_some hcap
        rw [hbbs2_other c hc1 hc2] at this
        simpa using this
      rw [hcap] at hmk
      simp only [Option.some.injEq, Prod.mk.injEq] at hmk
      obtain ⟨hold, hb⟩ := hmk
      subst hold
      refine ⟨bAfter, rfl, ?_⟩
      rw [← hb]
      simp only [Board.unmake_move, Bool.not_not, Flag.get_promotion_piece, Bool.false_eq_true, if_false, ite_false]
      have hfields : ∀ q, ((((bbs2.modifyBB c (fun bb => bb.toggle t)).modifyBB
          Piece.BlackPawn (fun bb => bb.set f)).modifyBB
          Piece.BlackRook (fun bb => bb.toggle t)).modifyBB c
          (fun bb => bb.set t)).getBB q = bbs0.getBB q := by
        intro q
        simp only [BitBoards.getBB_modifyBB]
        by_cases hqc : c = q
        · subst hqc
          rw [if_pos rfl, if_neg (fun hEq => hc1 hEq.symm), if_neg (fun hEq => hc2 hEq.symm),
            if_pos rfl, hbbs2_other c hc1 hc2, BitBoard.toggle_set_of_get _ _ hcget]
        · rw [if_neg hqc]
          by_cases hq1 : Piece.BlackRook = q
          · subst hq1
            rw [if_pos rfl, if_neg (by decide), if_neg (fun hEq => hqc hEq)]
            rw [hbbs2_pp, BitBoard.set_toggle_of_not_get _ _ hppget]
          · rw [if_neg hq1]
            by_cases hq2 : Piece.BlackPawn = q
            · subst hq2
              rw [if_pos rfl, if_neg (fun hEq => hqc hEq), hbbs2_pawn,
                BitBoard.toggle_set_of_get _ _ hpawnget]
            · rw [if_neg hq2, if_neg (fun hEq => hqc hEq),
                hbbs2_other q (fun hEq => hq1 hEq.symm) (fun hEq => hq2 hEq.symm)]
      rw [BitBoards.eq_of_getBB_eq hfields]

/-- Round-trip for a black bishop promotion. -/
theorem make_unmake_bpromo_black (bbs0 : BitBoards) (gs0 : GameState) (fmc : Nat)
    (f t : Square)
    (hpawnget : (bbs0.getBB Piece.BlackPawn).get f = true)
    (hppget : (bbs0.getBB Piece.BlackBishop).get t = false) :
    ∃ b', Board.make_move ⟨bbs0, false, gs0, fmc⟩
        { fromSq := f, toSq := t, flag := .BishopPromotion } = some (gs0, b') ∧
      b'.unmake_move { fromSq := f, toSq := t, flag := .BishopPromotion } gs0 =
        some ⟨bbs0, false, gs0, fmc⟩ := by
  set bbs1 := bbs0.modifyBB Piece.BlackPawn (fun bb => bb.toggle f) with hbbs1
  set bbs2 := bbs1.modifyBB Piece.BlackBishop (fun bb => bb.set t) with hbbs2
  have hbbs2_other : ∀ q, q ≠ Piece.BlackBishop → q ≠ Piece.BlackPawn →
      bbs2.getBB q = bbs0.getBB q := by
    intro q h1 h2
    rw [hbbs2, BitBoards.getBB_modifyBB, if_neg (fun hEq => h1 hEq.symm), hbbs1,
      BitBoards.getBB_modifyBB, if_neg (fun hEq => h2 hEq.symm)]
  have hbbs2_pp : bbs2.getBB Piece.BlackBishop = (bbs0.getBB Piece.BlackBishop).set t := by
    rw [hbbs2, BitBoards.getBB_modifyBB, if_pos rfl, hbbs1, BitBoards.getBB_modifyBB,
      if_neg (by decide)]
  have hbbs2_pawn : bbs2.getBB Piece.BlackPawn = (bbs0.getBB Piece.BlackPawn).toggle f := by
    rw [hbbs2, BitBoards.getBB_modifyBB, if_neg (by decide), hbbs1,
      BitBoards.getBB_modifyBB, if_pos rfl]
  have hfind_shape : ∀ bbsX : BitBoards,
      Board.enemy_piece_at ⟨bbsX, false, gs0, fmc⟩ t =
        Piece.WHITE_PIECES.find? (fun q => ((bbsX.getBB q)).get t) := by
    intro bbsX
    simp [Board.enemy_piece_at, Board.white_piece_at, Board.piece_at_in]
  rcases hmk : Board.make_move ⟨bbs0, false, gs0, fmc⟩
      { fromSq := f, toSq := t, flag := .BishopPromotion } with _ | ⟨old, bAfter⟩
  · exfalso
    simp only [Board.make_move, Flag.get_promotion_piece, Bool.false_eq_true, if_false, ite_false] at hmk
    rw [← hbbs1, ← hbbs2, hfind_shape] at hmk
    rcases hcap : Piece.WHITE_PIECES.find? (fun q => ((bbs2.getBB q)).get t) with _ | c <;>
      rw [hcap] at hmk <;> simp at hmk
  · simp only [Board.make_move, Flag.get_promotion_piece, Bool.false_eq_true, if_false, ite_false] at hmk
    rw [← hbbs1, ← hbbs2, hfind_shape] at hmk
    rcases hcap : Piece.WHITE_PIECES.find? (fun q => ((bbs2.getBB q)).get t) with _ | c
    · -- no capture
      rw [hcap] at hmk
      simp only [Option.some.injEq, Prod.mk.injEq] at hmk
      obtain ⟨hold, hb⟩ := hmk
      subst hold
      refine ⟨bAfter, rfl, ?_⟩
      rw [← hb]
      simp only [Board.unmake_move, Bool.not_not, Flag.get_promotion_piece, Bool.false_eq_true, if_false, ite_false]
      have hfields : ∀ q, ((bbs2.modifyBB Piece.BlackPawn (fun bb => bb.set f)).modifyBB
          Piece.BlackBishop (fun bb => bb.toggle t)).getBB q = bbs0.getBB q := by
        intro q
        simp only [BitBoards.getBB_modifyBB]
        by_cases hq1 : Piece.BlackBishop = q
        · subst hq1
          rw [if_pos rfl, if_neg (by decide), hbbs2_pp,
            BitBoard.set_toggle_of_not_get _ _ hppget]
        · rw [if_neg hq1]
          by_cases hq2 : Piece.BlackPawn = q
          · subst hq2
            rw [if_pos rfl, hbbs2_pawn, BitBoard.toggle_set_of_get _ _ hpawnget]
          · rw [if_neg hq2, hbbs2_other q (fun hEq => hq1 hEq.symm) (fun hEq => hq2 hEq.symm)]
      rw [BitBoards.eq_of_getBB_eq hfields]
    · -- capture of `c`
      have hcmem : c ∈ Piece.WHITE_PIECES := List.mem_of_find?_eq_some hcap
      have hc1 : c ≠ Piece.BlackBishop :=
        white_black_pieces_disjoint c hcmem Piece.BlackBishop (by decide)
      have hc2 : c ≠ Piece.BlackPawn :=
        white_black_pieces_disjoint c hcmem Piece.BlackPawn (by decide)
      have hcget : (bbs0.getBB c).get t = true := by
        have := List.find?_some hcap
        rw [hbbs2_other c hc1 hc2] at this
        simpa using this
      rw [hcap] at hmk
      simp only [Option.some.injEq, Prod.mk.injEq] at hmk
      obtain ⟨hold, hb⟩ := hmk
      subst hold
      refine ⟨bAfter, rfl, ?_⟩
      rw [← hb]
      simp only [Board.unmake_move, Bool.not_not, Flag.get_promotion_piece, Bool.false_eq_true, if_false, ite_false]
      have hfields : ∀ q, ((((bbs2.modifyBB c (fun bb => bb.toggle t)).modifyBB
          Piece.BlackPawn (fun bb => bb.set f)).modifyBB
          Piece.BlackBishop (fun bb => bb.toggle t)).modifyBB c
          (fun bb => bb.set t)).getBB q = bbs0.getBB q := by
        intro q
        simp only [BitBoards.getBB_modifyBB]
        by_cases hqc : c = q
        · subst hqc
          rw [if_pos rfl, if_neg (fun hEq => hc1 hEq.symm), if_neg (fun hEq => hc2 hEq.symm),
            if_pos rfl, hbbs2_other c hc1 hc2, BitBoard.toggle_set_of_get _ _ hcget]
        · rw [if_neg hqc]
          by_cases hq1 : Piece.BlackBishop = q
          · subst hq1
            rw [if_pos rfl, if_neg (by decide), if_neg (fun hEq => hqc hEq)]
            rw [hbbs2_pp, BitBoard.set_toggle_of_not_get _ _ hppget]
          · rw [if_neg hq1]
            by_cases hq2 : Piece.BlackPawn = q
            · subst hq2
              rw [if_pos rfl, if_neg (fun hEq => hqc hEq), hbbs2_pawn,
                BitBoard.toggle_set_of_get _ _ hpawnget]
            · rw [if_neg hq2, if_neg (fun hEq => hqc hEq),
                hbbs2_other q (fun hEq => hq1 hEq.symm) (fun hEq => hq2 hEq.symm)]
      rw [BitBoards.eq_of_getBB_eq hfields]

/-- Round-trip for a black knight promotion. -/
theorem make_unmake_kpromo_black (bbs0 : BitBoards) (gs0 : GameState) (fmc : Nat)
    (f t : Square)
    (hpawnget : (bbs0.getBB Piece.BlackPawn).get f = true)
    (hppget : (bbs0.getBB Piece.BlackKnight).get t = false) :
    ∃ b', Board.make_move ⟨bbs0, false, gs0, fmc⟩
        { fromSq := f, toSq := t, flag := .KnightPromotion } = some (gs0, b') ∧
      b'.unmake_move { fromSq := f, toSq := t, flag := .KnightPromotion } gs0 =
        some ⟨bbs0, false, gs0, fmc⟩ := by
  set bbs1 := bbs0.modifyBB Piece.BlackPawn (fun bb => bb.toggle f) with hbbs1
  set bbs2 := bbs1.modifyBB Piece.BlackKnight (fun bb => bb.set t) with hbbs2
  have hbbs2_other : ∀ q, q ≠ Piece.BlackKnight → q ≠ Piece.BlackPawn →
      bbs2.getBB q = bbs0.getBB q := by
    intro q h1 h2
    rw [hbbs2, BitBoards.getBB_modifyBB, if_neg (fun hEq => h1 hEq.symm), hbbs1,
      BitBoards.getBB_modifyBB, if_neg (fun hEq => h2 hEq.symm)]
  have hbbs2_pp : bbs2.getBB Piece.BlackKnight = (bbs0.getBB Piece.BlackKnight).set t := by
    rw [hbbs2, BitBoards.getBB_modifyBB, if_pos rfl, hbbs1, BitBoards.getBB_modifyBB,
      if_neg (by decide)]
  have hbbs2_pawn : bbs2.getBB Piece.BlackPawn = (bbs0.getBB Piece.BlackPawn).toggle f := by
    rw [hbbs2, BitBoards.getBB_modifyBB, if_neg (by decide), hbbs1,
      BitBoards.getBB_modifyBB, if_pos rfl]
  have hfind_shape : ∀ bbsX : BitBoards,
      Board.enemy_piece_at ⟨bbsX, false, gs0, fmc⟩ t =
        Piece.WHITE_PIECES.find? (fun q => ((bbsX.getBB q)).get t) := by
    intro bbsX
    simp [Board.enemy_piece_at, Board.white_piece_at, Board.piece_at_in]
  rcases hmk : Board.make_move ⟨bbs0, false, gs0, fmc⟩
      { fromSq := f, toSq := t, flag := .KnightPromotion } with _ | ⟨old, bAfter⟩
  · exfalso
    simp only [Board.make_move, Flag.get_promotion_piece, Bool.false_eq_true, if_false, ite_false] at hmk
    rw [← hbbs1, ← hbbs2, hfind_shape] at hmk
    rcases hcap : Piece.WHITE_PIECES.find? (fun q => ((bbs2.getBB q)).get t) with _ | c <;>
      rw [hcap] at hmk <;> simp at hmk
  · simp only [Board.make_move, Flag.get_promotion_piece, Bool.false_eq_true, if_false, ite_false] at hmk
    rw [← hbbs1, ← hbbs2, hfind_shape] at hmk
    rcases hcap : Piece.WHITE_PIECES.find? (fun q => ((bbs2.getBB q)).get t) with _ | c
    · -- no capture
      rw [hcap] at hmk
      simp only [Option.some.injEq, Prod.mk.injEq] at hmk
      obtain ⟨hold, hb⟩ := hmk
      subst hold
      refine ⟨bAfter, rfl, ?_⟩
      rw [← hb]
      simp only [Board.unmake_move, Bool.not_not, Flag.get_promotion_piece, Bool.false_eq_true, if_false, ite_false]
      have hfields : ∀ q, ((bbs2.modifyBB Piece.BlackPawn (fun bb => bb.set f)).modifyBB
          Piece.BlackKnight (fun bb => bb.toggle t)).getBB q = bbs0.getBB q := by
        intro q
        simp only [BitBoards.getBB_modifyBB]
        by_cases hq1 : Piece.BlackKnight = q
        · subst hq1
          rw [if_pos rfl, if_neg (by decide), hbbs2_pp,
            BitBoard.set_toggle_of_not_get _ _ hppget]
        · rw [if_neg hq1]
          by_cases hq2 : Piece.BlackPawn = q
          · subst hq2
            rw [if_pos rfl, hbbs2_pawn, BitBoard.toggle_set_of_get _ _ hpawnget]
          · rw [if_neg hq2, hbbs2_other q (fun hEq => hq1 hEq.symm) (fun hEq => hq2 hEq.symm)]
      rw [BitBoards.eq_of_getBB_eq hfields]
    · -- capture of `c`
      have hcmem : c ∈ Piece.WHITE_PIECES := List.mem_of_find?_eq_some hcap
      have hc1 : c ≠ Piece.BlackKnight :=
        white_black_pieces_disjoint c hcmem Piece.BlackKnight (by decide)
      have hc2 : c ≠ Piece.BlackPawn :=
        white_black_pieces_disjoint c hcmem Piece.BlackPawn (by decide)
      have hcget : (bbs0.getBB c).get t = true := by
        have := List.find?_some hcap
        rw [hbbs2_other c hc1 hc2] at this
        simpa using this
      rw [hcap] at hmk
      simp only [Option.some.injEq, Prod.mk.injEq] at hmk
      obtain ⟨hold, hb⟩ := hmk
      subst hold
      refine ⟨bAfter, rfl, ?_⟩
      rw [← hb]
      simp only [Board.unmake_move, Bool.not_not, Flag.get_promotion_piece, Bool.false_eq_true, if_false, ite_false]
      have hfields : ∀ q, ((((bbs2.modifyBB c (fun bb => bb.toggle t)).modifyBB
          Piece.BlackPawn (fun bb => bb.set f)).modifyBB
          Piece.BlackKnight (fun bb => bb.toggle t)).modifyBB c
          (fun bb => bb.set t)).getBB q = bbs0.getBB q := by
        intro q
        simp only [BitBoards.getBB_modifyBB]
        by_cases hqc : c = q
        · subst hqc
          rw [if_pos rfl, if_neg (fun hEq => hc1 hEq.symm), if_neg (fun hEq => hc2 hEq.symm),
            if_pos rfl, hbbs2_other c hc1 hc2, BitBoard.toggle_set_of_get _ _ hcget]
        · rw [if_neg hqc]
          by_cases hq1 : Piece.BlackKnight = q
          · subst hq1
            rw [if_pos rfl, if_neg (by decide), if_neg (fun hEq => hqc hEq)]
            rw [hbbs2_pp, BitBoard.set_toggle_of_not_get _ _ hppget]
          · rw [if_neg hq1]
            by_cases hq2 : Piece.BlackPawn = q
            · subst hq2
              rw [if_pos rfl, if_neg (fun hEq => hqc hEq), hbbs2_pawn,
                BitBoard.toggle_set_of_get _ _ hpawnget]
            · rw [if_neg hq2, if_neg (fun hEq => hqc hEq),
                hbbs2_other q (fun hEq => hq1 hEq.symm) (fun hEq => hq2 hEq.symm)]
      rw [BitBoards.eq_of_getBB_eq hfields]


/-- C1: for every legal position and every move the move generator emits
(whose legality conditions are captured by `make_unmake_pre`),
`Board::make_move` succeeds, returns the prior `GameState`, and
`Search::unmake_move(m, old_state)` restores the `Board` (including its
`GameState`) and the `SearchState` to values identical to those before the
move.  `ssIncremental` stands for whatever search state the incremental
`Search::make_move` update produced: `unmake_move` restores the saved copy,
so the round-trip holds for the source's update in particular. -/
theorem make_unmake_roundtrip (b : Board) (m : Move) (rt : List Zobrist)
    (ss ssIncremental : SearchState) (h : make_unmake_pre b m) :
    ∃ b', b.make_move m = some (b.game_state, b') ∧
      SearchCore.unmake_move ⟨b', rt, ssIncremental⟩ m ⟨b.game_state, ss⟩ =
        some ⟨b, rt, ss⟩ := by
  have hboard : ∃ b', b.make_move m = some (b.game_state, b') ∧
      b'.unmake_move m b.game_state = some b := by
    rcases m with ⟨f, t, flag⟩
    rcases b with ⟨bbs0, wtm, gs0, fmc⟩
    cases flag
    case None =>
      obtain ⟨hsome, ht⟩ := h
      obtain ⟨p, hp⟩ := Option.isSome_iff_exists.mp hsome
      refine make_unmake_none_core bbs0 gs0 fmc wtm f t p
        (if wtm then Piece.WHITE_PIECES else Piece.BLACK_PIECES)
        (if wtm then Piece.BLACK_PIECES else Piece.WHITE_PIECES) rfl rfl ?_ ?_
      · cases wtm
        · simpa [Board.friendly_piece_at, Board.black_piece_at, Board.piece_at_in] using hp
        · simpa [Board.friendly_piece_at, Board.white_piece_at, Board.piece_at_in] using hp
      · cases wtm
        · simpa [Board.friendly_piece_at, Board.black_piece_at, Board.piece_at_in] using ht
        · simpa [Board.friendly_piece_at, Board.white_piece_at, Board.piece_at_in] using ht
    case PawnTwoUp =>
      exact make_unmake_pawnTwoUp ⟨bbs0, wtm, gs0, fmc⟩ f t
    case Castle =>
      exact make_unmake_castle ⟨bbs0, wtm, gs0, fmc⟩ f t
    case EnPassant =>
      rcases gs0 with ⟨cr, eps, hmc, cap⟩
      rcases eps with _ | epSq
      · exact absurd h (by simp [make_unmake_pre])
      · exact make_unmake_enpassant_core bbs0 cr epSq hmc cap fmc wtm f t (by simpa using h)
    case QueenPromotion =>
      obtain ⟨hpg, hpp⟩ := h
      cases wtm
      · exact make_unmake_qpromo_black bbs0 gs0 fmc f t (by simpa using hpg)
          (by simpa using hpp Piece.BlackQueen rfl)
      · exact make_unmake_qpromo_white bbs0 gs0 fmc f t (by simpa using hpg)
          (by simpa using hpp Piece.WhiteQueen rfl)
    case RookPromotion =>
      obtain ⟨hpg, hpp⟩ := h
      cases wtm
      · exact make_unmake_rpromo_black bbs0 gs0 fmc f t (by simpa using hpg)
          (by simpa using hpp Piece.BlackRook rfl)
      · exact make_unmake_rpromo_white bbs0 gs0 fmc f t (by simpa using hpg)
          (by simpa using hpp Piece.WhiteRook rfl)
    case BishopPromotion =>
      obtain ⟨hpg, hpp⟩ := h
      cases wtm
      · exact make_unmake_bpromo_black bbs0 gs0 fmc f t (by simpa using hpg)
          (by simpa using hpp Piece.BlackBishop rfl)
      · exact make_unmake_bpromo_white bbs0 gs0 fmc f t (by simpa using hpg)
          (by simpa using hpp Piece.WhiteBishop rfl)
    case KnightPromotion =>
      obtain ⟨hpg, hpp⟩ := h
      cases wtm
      · exact make_unmake_kpromo_black bbs0 gs0 fmc f t (by simpa using hpg)
          (by simpa using hpp Piece.BlackKnight rfl)
      · exact make_unmake_kpromo_white bbs0 gs0 fmc f t (by simpa using hpg)
          (by simpa using hpp Piece.WhiteKnight rfl)
  obtain ⟨b', hmk, hunmk⟩ := hboard
  exact ⟨b', hmk, by simp [SearchCore.unmake_move, hunmk]⟩

/-- The standard-chess start position, used as a concrete witness input. -/
def demo_board : Board :=
  { bit_boards :=
      { wP := 0xFF00, wN := 0x42, wB := 0x24, wR := 0x81, wQ := 0x8, wK := 0x10
        bP := 0xFF000000000000, bN := 0x4200000000000000, bB := 0x2400000000000000
        bR := 0x8100000000000000, bQ := 0x800000000000000, bK := 0x1000000000000000 }
    white_to_move := true
    game_state :=
      { castling_rights := ⟨true, true, true, true⟩
        en_passant_square := none
        half_move_clock := 0
        captured := none }
    full_move_counter := 1 }

/-- A placeholder search state for witnesses. -/
def demo_search_state : SearchState :=
  { total_middle_game_score := 0, total_end_game_score := 0,
    position_zobrist_key := 0, pawn_zobrist_key := 0, minor_piece_zobrist_key := 0 }

/-- A second, distinct search state standing for the incrementally updated one. -/
def demo_search_state_after : SearchState :=
  { total_middle_game_score := 7, total_end_game_score := 3,
    position_zobrist_key := 5, pawn_zobrist_key := 9, minor_piece_zobrist_key := 2 }

/-- C1 witness: the round-trip theorem applied to the knight move g1-f3 from
the start position. -/
theorem make_unmake_roundtrip_witness :
    ∃ b', demo_board.make_move { fromSq := ⟨6⟩, toSq := ⟨21⟩, flag := .None } =
        some (demo_board.game_state, b') ∧
      SearchCore.unmake_move ⟨b', [], demo_search_state_after⟩
          { fromSq := ⟨6⟩, toSq := ⟨21⟩, flag := .None }
          ⟨demo_board.game_state, demo_search_state⟩ =
        some ⟨demo_board, [], demo_search_state⟩ :=
  make_unmake_roundtrip demo_board { fromSq := ⟨6⟩, toSq := ⟨21⟩, flag := .None }
    [] demo_search_state demo_search_state_after
    (show (demo_board.friendly_piece_at ⟨6⟩).isSome = true ∧
        demo_board.friendly_piece_at ⟨21⟩ = none by decide)


/-- C9: `Search::make_null_move` zeroes the half-move clock and clears the
en-passant square, updating the position zobrist key accordingly (side-to-move
toggle, plus the en-passant constant when a target was present), and pushes
the pre-null position key; and because `RepetitionTable::contains` inspects at
most the last `half_move_clock` stored keys, any query whose half-move clock
is at most the number of keys pushed since the null move can never report a
position stored before the null move as a repetition. -/
theorem make_null_move_hides_prior (s : SearchCore) :
    ((s.make_null_move).2.board.game_state.half_move_clock = 0 ∧
     (s.make_null_move).2.board.game_state.en_passant_square = none ∧
     (s.make_null_move).2.repetition_table =
       s.repetition_table ++ [s.search_state.position_zobrist_key] ∧
     (s.make_null_move).2.search_state.position_zobrist_key =
       (match s.board.game_state.en_passant_square with
        | some en_passant_square => Zobrist.xor_en_passant
            (Zobrist.flip_side_to_move s.search_state.position_zobrist_key) en_passant_square
        | none => Zobrist.flip_side_to_move s.search_state.position_zobrist_key)) ∧
    (∀ older newer : List Zobrist, ∀ z hmc, hmc ≤ newer.length →
      RepetitionTable.contains (older ++ newer) z hmc =
        RepetitionTable.contains newer z hmc) :=
  ⟨⟨rfl, rfl, rfl, rfl⟩,
   fun older newer z hmc h => contains_append older newer z hmc h⟩

/-- C9 witness: the theorem applied to a concrete search core and a concrete
stack split. -/
theorem make_null_move_hides_prior_witness :
    (SearchCore.make_null_move ⟨demo_board, [3, 4], demo_search_state⟩).2.board.game_state.half_move_clock = 0 ∧
    RepetitionTable.contains ([7] ++ [1, 2, 3, 4]) 7 4 =
      RepetitionTable.contains [1, 2, 3, 4] 7 4 :=
  ⟨(make_null_move_hides_prior ⟨demo_board, [3, 4], demo_search_state⟩).1.1,
   (make_null_move_hides_prior ⟨demo_board, [3, 4], demo_search_state⟩).2
     [7] [1, 2, 3, 4] 7 4 (by decide)⟩


/-! ## Negamax node body

`Search::negamax` from `search/mod.rs`, embedded one invocation at a time:
the surrounding mutable search (move generator output, static evaluation,
transposition slot, recursive calls, clock readings) is supplied by a
`NegamaxEnv` record, and the invocation's control flow, return value and
transposition-table store are translated from the source.  Side effects on
the principal-variation table, killer moves and history tables are state not
observed by any verified claim and are not tracked.  The build without the
`spsa` feature reads all tunables from `DEFAULT_TUNABLES`. -/

/-- `NodeType` from `search/transposition.rs`. -/
inductive NodeType where
  | Exact
  | Beta
  | Alpha
  deriving DecidableEq, Repr

/-- `NodeValue` from `search/transposition.rs`; `transposition_move` is the
16-bit `EncodedMove` value (`NONE = 0`). -/
structure NodeValue where
  zobrist_key_32 : Nat
  ply_remaining : Nat
  node_type : NodeType
  value : Int
  transposition_move : Nat
  deriving DecidableEq, Repr

/-- `normalise_mate_score` from `search/transposition.rs`. -/
def normalise_mate_score (score : Int) (ply_from_root : Nat) : Int :=
  if score ≥ CHECKMATE_SCORE then score + (ply_from_root : Int)
  else if score ≤ -CHECKMATE_SCORE then score - (ply_from_root : Int)
  else score

/-- `retrieve_mate_score` from `search/transposition.rs`. -/
def retrieve_mate_score (score : Int) (ply_from_root : Nat) : Int :=
  if score ≥ CHECKMATE_SCORE then score - (ply_from_root : Int)
  else if score ≤ -CHECKMATE_SCORE then score + (ply_from_root : Int)
  else score

/-- One legal move as the move loop sees it: its `EncodedMove` bits (`moveBits`), whether
its destination holds an enemy piece, and whether making it gives check. -/
structure MoveInfo where
  moveBits : Nat
  is_capture : Bool
  gives_check : Bool
  deriving DecidableEq, Repr

/-- Which of the up-to-three recursive searches of one move is queried. -/
inductive ChildKind where
  | lmrSearch
  | zeroWindow
  | fullWindow
  deriving DecidableEq, Repr

/-- The surrounding state of one `negamax` invocation. -/
structure NegamaxEnv where
  zobrist : Nat
  repetition : List Zobrist
  half_move_clock : Nat
  insufficient_material : Bool
  tt_entry : Option NodeValue
  root_best_move : Nat
  quiescence : Int → Int → Int
  raw_static_eval : Int
  correction : Int
  eval_history : Nat → Int
  is_in_check : Bool
  friendly_pawns_count : Nat
  friendly_pieces_count : Nat
  null_score : Int
  moves : List MoveInfo
  child_score : Nat → ChildKind → Int
  tm : TimeManager
  node_count_at : Nat → Nat
  ms_at : Nat → Nat

/-- What one invocation returns and stores: its score, and the `NodeValue`
written to `transposition_table[zobrist_index]` (none when the invocation
returned before the store). -/
structure NegamaxResult where
  score : Int
  tt_store : Option NodeValue
  deriving DecidableEq

/-- `alpha + 1 == beta` — whether this is not a PV node. -/
def is_not_pv_node (alpha beta : Int) : Bool := alpha + 1 == beta

/-- Outcome of the transposition-table probe: an immediate cutoff value, the
hash move, and the saved (value, node type) pair. -/
structure TTProbeResult where
  cutoff : Option Int
  hash_move : Nat
  saved : Option (Int × NodeType)
  deriving DecidableEq, Repr

/-- The transposition-table probe of `negamax`. -/
def tt_probe (env : NegamaxEnv) (ply_remaining : Nat) (ply_from_root : Nat)
    (alpha beta : Int) : TTProbeResult :=
  match env.tt_entry with
  | some entry =>
    if entry.zobrist_key_32 == env.zobrist % 2 ^ 32 then
      let value := retrieve_mate_score entry.value ply_from_root
      if entry.ply_remaining ≥ ply_remaining &&
          (match entry.node_type with
           | .Exact => is_not_pv_node alpha beta
           | .Beta => decide (value ≥ beta)
           | .Alpha => decide (value ≤ alpha)) then
        { cutoff := some value, hash_move := 0, saved := none }
      else
        { cutoff := none, hash_move := entry.transposition_move,
          saved := some (value, entry.node_type) }
    else
      { cutoff := none, hash_move := 0, saved := none }
  | none => { cutoff := none, hash_move := 0, saved := none }

/-- The hash move after the root override. -/
def negamax_hash_move (env : NegamaxEnv) (ply_remaining : Nat) (ply_from_root : Nat)
    (alpha beta : Int) : Nat :=
  if ply_from_root = 0 then env.root_best_move
  else (tt_probe env ply_remaining ply_from_root alpha beta).hash_move

/-- The remaining depth after internal iterative reduction. -/
def negamax_depth (env : NegamaxEnv) (ply_remaining : Nat) (ply_from_root : Nat)
    (alpha beta : Int) : Nat :=
  if negamax_hash_move env ply_remaining ply_from_root alpha beta == 0 &&
      decide (ply_remaining > DEFAULT_TUNABLES.iir_min_depth) then
    ply_remaining - DEFAULT_TUNABLES.iir_depth_reduction
  else ply_remaining

/-- The static evaluation: raw evaluation, possibly overwritten by a tighter
saved transposition value, plus the correction-history offset
(`get_correction`). -/
def negamax_static_eval (env : NegamaxEnv) (saved : Option (Int × NodeType)) : Int :=
  let static_eval := env.raw_static_eval
  let static_eval :=
    match saved with
    | some (saved_value, saved_node_type) =>
      if !score_is_checkmate saved_value &&
          (match saved_node_type with
           | .Exact => true
           | .Beta => decide (saved_value > static_eval)
           | .Alpha => decide (saved_value < static_eval)) then
        saved_value
      else static_eval
    | none => static_eval
  static_eval + env.correction

/-- The `improving` flag. -/
def negamax_improving (env : NegamaxEnv) (ply_from_root : Nat) (static_eval : Int) : Bool :=
  if env.is_in_check then false
  else decide (ply_from_root ≥ 2) &&
    decide (static_eval > env.eval_history (ply_from_root - 2))

/-- Whether static null-move pruning (reverse futility) returns. -/
def negamax_snmp_cut (env : NegamaxEnv) (depth : Nat) (static_eval : Int)
    (improving : Bool) (alpha beta : Int) : Bool :=
  is_not_pv_node alpha beta && !env.is_in_check &&
    decide (depth < DEFAULT_TUNABLES.static_null_max_depth) &&
    decide (static_eval - (depth : Int) *
      (if improving then DEFAULT_TUNABLES.improving_static_null_margin
       else DEFAULT_TUNABLES.static_null_margin) > beta)

/-- Whether the null-move pruning branch is taken (a null move is played). -/
def negamax_nmp_taken (env : NegamaxEnv) (depth : Nat) (allow_null_move : Bool)
    (static_eval : Int) (alpha beta : Int) : Bool :=
  is_not_pv_node alpha beta && !env.is_in_check && allow_null_move &&
    decide (depth > DEFAULT_TUNABLES.nmp_min_depth) &&
    decide (static_eval ≥ beta) &&
    decide (env.friendly_pawns_count + 1 ≠ env.friendly_pieces_count)

/-- Mutable state of the move loop. -/
structure LoopState where
  alpha : Int
  best_score : Int
  best_move : Nat
  node_type : NodeType
  quiets_evaluated : List Nat
  captures_evaluated : List Nat
  deriving DecidableEq, Repr

/-- How the move loop ended: aborted by the hard stop, or finished (end of
moves, beta cutoff, futility pruning or late-move pruning). -/
inductive LoopOutcome where
  | aborted
  | finished (st : LoopState)
  deriving DecidableEq, Repr

/-- The move loop of `negamax`, one iteration per examined move. -/
def negamax_loop (env : NegamaxEnv) (ply_remaining : Nat) (beta : Int)
    (static_eval : Int) (improving : Bool) (is_not_pv : Bool) :
    List MoveInfo → Nat → LoopState → LoopOutcome
  | [], _, st => LoopOutcome.finished st
  | mv :: rest, index, st =>
    let check_extension := mv.gives_check
    let normal_search0 := check_extension || mv.is_capture ||
      decide (index < DEFAULT_TUNABLES.lmr_min_index) ||
      decide (ply_remaining < DEFAULT_TUNABLES.lmr_min_depth)
    let scoreNormal1 :=
      if !normal_search0 then
        let s := -(env.child_score index ChildKind.lmrSearch)
        (s, decide (s > st.alpha))
      else ((0 : Int), normal_search0)
    let scoreNormal2 :=
      if scoreNormal1.2 && decide (index ≠ 0) then
        let s := -(env.child_score index ChildKind.zeroWindow)
        (s, decide (st.alpha < s) && decide (s < beta))
      else scoreNormal1
    let score :=
      if scoreNormal2.2 then -(env.child_score index ChildKind.fullWindow)
      else scoreNormal2.1
    if decide (ply_remaining > 1) &&
        env.tm.hard_stop_inner_search (env.node_count_at index) (env.ms_at index) then
      LoopOutcome.aborted
    else if decide (score > st.best_score) && decide (score > st.alpha) &&
        decide (score ≥ beta) then
      LoopOutcome.finished
        { st with
          best_score := score
          alpha := score
          best_move := mv.moveBits
          node_type := .Beta }
    else
      let st1 :=
        if score > st.best_score then
          if score > st.alpha then
            { st with
              best_score := score
              alpha := score
              best_move := mv.moveBits
              node_type := .Exact }
          else { st with best_score := score }
        else st
      if mv.is_capture then
        negamax_loop env ply_remaining beta static_eval improving is_not_pv rest
          (index + 1) { st1 with captures_evaluated := st1.captures_evaluated ++ [mv.moveBits] }
      else
        if is_not_pv && !env.is_in_check &&
            decide (ply_remaining < DEFAULT_TUNABLES.futility_max_depth) &&
            decide (st1.best_score > -CHECKMATE_SCORE) &&
            decide (static_eval +
              DEFAULT_TUNABLES.futility_margin * (ply_remaining : Int) < st1.alpha) then
          LoopOutcome.finished st1
        else if is_not_pv && !env.is_in_check &&
            decide (st1.best_score > -CHECKMATE_SCORE) &&
            decide (st1.quiets_evaluated.length + 1 >
              (DEFAULT_TUNABLES.lmp_base + ply_remaining * ply_remaining) /
                (2 - (if improving then 1 else 0))) then
          LoopOutcome.finished st1
        else
          negamax_loop env ply_remaining beta static_eval improving is_not_pv rest
            (index + 1) { st1 with quiets_evaluated := st1.quiets_evaluated ++ [mv.moveBits] }

/-- `Search::negamax` from `search/mod.rs` (one invocation over its
environment).  Returns the score and the transposition-table store. -/
def negamax (env : NegamaxEnv) (ply_remaining : Nat) (ply_from_root : Nat)
    (allow_null_move : Bool) (alpha beta : Int) : NegamaxResult :=
  if decide (ply_from_root ≠ 0) &&
      (RepetitionTable.contains env.repetition env.zobrist env.half_move_clock ||
       env.insufficient_material) then
    { score := 0, tt_store := none }
  else
    let probe := tt_probe env ply_remaining ply_from_root alpha beta
    match probe.cutoff with
    | some value => { score := value, tt_store := none }
    | none =>
      let hash_move := negamax_hash_move env ply_remaining ply_from_root alpha beta
      let depth := negamax_depth env ply_remaining ply_from_root alpha beta
      if depth = 0 then
        { score := env.quiescence alpha beta, tt_store := none }
      else
        let static_eval := negamax_static_eval env probe.saved
        let improving := negamax_improving env ply_from_root static_eval
        if negamax_snmp_cut env depth static_eval improving alpha beta then
          { score := static_eval, tt_store := none }
        else
          let null_score := -env.null_score
          if negamax_nmp_taken env depth allow_null_move static_eval alpha beta &&
              decide (null_score ≥ beta) then
            if null_score ≥ CHECKMATE_SCORE then
              { score := beta, tt_store := none }
            else
              { score := null_score, tt_store := none }
          else
            match env.moves with
            | [] =>
              { score :=
                  if env.is_in_check then
                    -IMMEDIATE_CHECKMATE_SCORE + (ply_from_root : Int)
                  else 0
                tt_store := none }
            | mv :: rest =>
              match negamax_loop env depth beta static_eval improving
                  (is_not_pv_node alpha beta) (mv :: rest) 0
                  { alpha := alpha
                    best_score := -(2 ^ 31 - 1)
                    best_move := 0
                    node_type := .Alpha
                    quiets_evaluated := []
                    captures_evaluated := [] } with
              | .aborted => { score := 0, tt_store := none }
              | .finished st =>
                { score := st.best_score
                  tt_store := some
                    { zobrist_key_32 := env.zobrist % 2 ^ 32
                      ply_remaining := depth
                      node_type := st.node_type
                      value := normalise_mate_score st.best_score ply_from_root
                      transposition_move :=
                        if st.best_move == 0 then hash_move else st.best_move } }


/-- A neutral environment used as the base of concrete witness inputs. -/
def base_env : NegamaxEnv :=
  { zobrist := 0
    repetition := []
    half_move_clock := 0
    insufficient_material := false
    tt_entry := none
    root_best_move := 0
    quiescence := fun _ _ => 0
    raw_static_eval := 0
    correction := 0
    eval_history := fun _ => 0
    is_in_check := false
    friendly_pawns_count := 0
    friendly_pieces_count := 2
    null_score := 0
    moves := []
    child_score := fun _ _ => 0
    tm :=
      { depth_limit := none, node_limit := none, real_time := none,
        stopped := false, pondering := false, mated_in := none }
    node_count_at := fun _ => 0
    ms_at := fun _ => 0 }

/-! ## Claim C6: repetition draws -/

/-- C6: at every ply other than the root, `negamax` returns 0 (and stores no
transposition entry) when `RepetitionTable::contains` reports the current
position key; `contains` finds the key exactly when it sits within the last
`half_move_clock` stored keys scanned newest first, at an offset of at least
three and an even distance from offset three; and it returns false whenever
`half_move_clock < 4`. -/
theorem negamax_repetition_draw :
    (∀ env : NegamaxEnv, ∀ pr ply : Nat, ∀ alw : Bool, ∀ a b : Int, ply ≠ 0 →
      RepetitionTable.contains env.repetition env.zobrist env.half_move_clock = true →
      negamax env pr ply alw a b = { score := 0, tt_store := none }) ∧
    (∀ positions : List Zobrist, ∀ z hmc : Nat,
      RepetitionTable.contains positions z hmc = true ↔
        4 ≤ hmc ∧ ∃ i, 3 ≤ i ∧ i < hmc ∧ (i - 3) % 2 = 0 ∧
          positions.reverse.get? i = some z) ∧
    (∀ positions : List Zobrist, ∀ z hmc : Nat, hmc < 4 →
      RepetitionTable.contains positions z hmc = false) := by
  refine ⟨?_, contains_iff, ?_⟩
  · intro env pr ply alw a b hply hcont
    unfold negamax
    simp [hply, hcont]
  · intro positions z hmc h
    simp [RepetitionTable.contains, h]

/-- C6 witness: a repetition at ply 1 with half-move clock 4. -/
theorem negamax_repetition_draw_witness :
    negamax { base_env with
        zobrist := 9
        repetition := [9, 9, 9, 9, 9]
        half_move_clock := 4 } 3 1 true 0 1 = { score := 0, tt_store := none } ∧
    RepetitionTable.contains [1, 2, 3] 1 3 = false :=
  ⟨negamax_repetition_draw.1 _ 3 1 true 0 1 (by decide) (by decide),
   negamax_repetition_draw.2.2 [1, 2, 3] 1 3 (by decide)⟩

/-! ## Claim C3: mate and stalemate scores -/

/-- C3: when a `negamax` node reaches move generation (no repetition or
insufficient-material draw, no transposition cutoff, nonzero post-reduction
depth, no static-null or null-move pruning return) and the move generator
produced zero legal moves, it returns
`-IMMEDIATE_CHECKMATE_SCORE + ply_from_root` when in check and 0 (stalemate)
otherwise. -/
theorem negamax_no_legal_moves (env : NegamaxEnv) (pr ply : Nat) (alw : Bool)
    (a b : Int)
    (hrep : ply ≠ 0 →
      RepetitionTable.contains env.repetition env.zobrist env.half_move_clock = false ∧
      env.insufficient_material = false)
    (htt : (tt_probe env pr ply a b).cutoff = none)
    (hdepth : negamax_depth env pr ply a b ≠ 0)
    (hsnmp : negamax_snmp_cut env (negamax_depth env pr ply a b)
      (negamax_static_eval env (tt_probe env pr ply a b).saved)
      (negamax_improving env ply
        (negamax_static_eval env (tt_probe env pr ply a b).saved)) a b = false)
    (hnmp : (negamax_nmp_taken env (negamax_depth env pr ply a b) alw
      (negamax_static_eval env (tt_probe env pr ply a b).saved) a b &&
      decide (-env.null_score ≥ b)) = false)
    (hmoves : env.moves = []) :
    negamax env pr ply alw a b =
      { score :=
          if env.is_in_check then -IMMEDIATE_CHECKMATE_SCORE + (ply : Int) else 0
        tt_store := none } := by
  have hcond : (decide (ply ≠ 0) &&
      (RepetitionTable.contains env.repetition env.zobrist env.half_move_clock ||
       env.insufficient_material)) = false := by
    by_cases hply : ply = 0
    · simp [hply]
    · obtain ⟨h1, h2⟩ := hrep hply
      simp [hply, h1, h2]
  unfold negamax
  rw [hcond]
  simp only [Bool.false_eq_true, if_false]
  rw [htt]
  simp only
  rw [if_neg hdepth, hsnmp]
  simp only [Bool.false_eq_true, if_false]
  rw [hnmp]
  simp only [Bool.false_eq_true, if_false]
  rw [hmoves]

/-- C3 witness: a checkmated node (no moves, in check) at ply 2. -/
theorem negamax_no_legal_moves_witness :
    negamax { base_env with is_in_check := true } 3 2 true 0 1 =
      { score := -IMMEDIATE_CHECKMATE_SCORE + 2, tt_store := none } := by
  have h := negamax_no_legal_moves { base_env with is_in_check := true } 3 2 true 0 1
    (by decide) (by decide) (by decide) (by decide) (by decide) rfl
  simpa using h

/-! ## Claim C4: null-move pruning cutoff value -/

/-- C4 counterexample: a node where the null-move branch is taken with
`beta = 10` and the reduced-depth null search returns 15 (not a mate score);
`negamax` returns 15, not `beta = 10` as claimed. -/
theorem negamax_nmp_returns_score_counterexample :
    negamax { base_env with raw_static_eval := 10, null_score := -15 }
        4 1 true 9 10 =
      { score := 15, tt_store := none } ∧ (15 : Int) ≠ 10 := by
  constructor
  · decide
  · decide

/-- C4 (amended): whenever the null-move pruning branch is taken and the
reduced-depth null-move search returns a score `≥ beta`, `negamax` returns
that score, except that a mate-range score (`≥ CHECKMATE_SCORE`) is replaced
by `beta`; nothing is stored in the transposition table. -/
theorem negamax_nmp_cutoff (env : NegamaxEnv) (pr ply : Nat) (alw : Bool)
    (a b : Int)
    (hrep : ply ≠ 0 →
      RepetitionTable.contains env.repetition env.zobrist env.half_move_clock = false ∧
      env.insufficient_material = false)
    (htt : (tt_probe env pr ply a b).cutoff = none)
    (hdepth : negamax_depth env pr ply a b ≠ 0)
    (hsnmp : negamax_snmp_cut env (negamax_depth env pr ply a b)
      (negamax_static_eval env (tt_probe env pr ply a b).saved)
      (negamax_improving env ply
        (negamax_static_eval env (tt_probe env pr ply a b).saved)) a b = false)
    (hnmp : negamax_nmp_taken env (negamax_depth env pr ply a b) alw
      (negamax_static_eval env (tt_probe env pr ply a b).saved) a b = true)
    (hcut : -env.null_score ≥ b) :
    negamax env pr ply alw a b =
      { score := if -env.null_score ≥ CHECKMATE_SCORE then b else -env.null_score
        tt_store := none } := by
  have hcond : (decide (ply ≠ 0) &&
      (RepetitionTable.contains env.repetition env.zobrist env.half_move_clock ||
       env.insufficient_material)) = false := by
    by_cases hply : ply = 0
    · simp [hply]
    · obtain ⟨h1, h2⟩ := hrep hply
      simp [hply, h1, h2]
  unfold negamax
  rw [hcond]
  simp only [Bool.false_eq_true, if_false]
  rw [htt]
  simp only
  rw [if_neg hdepth, hsnmp]
  simp only [Bool.false_eq_true, if_false]
  rw [hnmp]
  simp only [Bool.true_and]
  rw [decide_eq_true hcut]
  simp only [if_true]
  split <;> rfl

/-- C4 witness: the amended theorem at the counterexample's input. -/
theorem negamax_nmp_cutoff_witness :
    negamax { base_env with raw_static_eval := 10, null_score := -15 }
        4 1 true 9 10 =
      { score :=
          if -({ base_env with raw_static_eval := 10, null_score := -15 } :
              NegamaxEnv).null_score ≥ CHECKMATE_SCORE then 10
          else -({ base_env with raw_static_eval := 10, null_score := -15 } :
              NegamaxEnv).null_score
        tt_store := none } :=
  negamax_nmp_cutoff { base_env with raw_static_eval := 10, null_score := -15 }
    4 1 true 9 10 (by decide) (by decide) (by decide) (by decide) (by decide)
    (by decide)

/-! ## Claim C7: hard-stop abort -/

/-- C7: when the move loop runs at remaining depth `> 1` and the time
manager's hard stop fires at its first check, `negamax` returns the sentinel
score 0 and stores nothing in the transposition table; and
`hard_stop_inner_search` fires exactly when `stopped` is set, or (while not
pondering) a node or wall-clock hard limit is exceeded. -/
theorem negamax_hard_stop_abort :
    (∀ env : NegamaxEnv, ∀ pr ply : Nat, ∀ alw : Bool, ∀ a b : Int,
      (ply ≠ 0 →
        RepetitionTable.contains env.repetition env.zobrist env.half_move_clock = false ∧
        env.insufficient_material = false) →
      (tt_probe env pr ply a b).cutoff = none →
      negamax_snmp_cut env (negamax_depth env pr ply a b)
        (negamax_static_eval env (tt_probe env pr ply a b).saved)
        (negamax_improving env ply
          (negamax_static_eval env (tt_probe env pr ply a b).saved)) a b = false →
      (negamax_nmp_taken env (negamax_depth env pr ply a b) alw
        (negamax_static_eval env (tt_probe env pr ply a b).saved) a b &&
        decide (-env.null_score ≥ b)) = false →
      negamax_depth env pr ply a b > 1 →
      env.tm.hard_stop_inner_search (env.node_count_at 0) (env.ms_at 0) = true →
      env.moves ≠ [] →
      negamax env pr ply alw a b = { score := 0, tt_store := none }) ∧
    (∀ tm : TimeManager, ∀ nc ms : Nat,
      TimeManager.hard_stop_inner_search tm nc ms =
        (tm.stopped || (!tm.pondering &&
          ((tm.node_limit.map fun nl => decide (nc ≥ nl.hard_limit)).getD false ||
           (tm.real_time.map fun rt => decide (ms > rt.hard_time_limit)).getD false)))) := by
  constructor
  · intro env pr ply alw a b hrep htt hsnmp hnmp hdeep hstop hmv
    have hcond : (decide (ply ≠ 0) &&
        (RepetitionTable.contains env.repetition env.zobrist env.half_move_clock ||
         env.insufficient_material)) = false := by
      by_cases hply : ply = 0
      · simp [hply]
      · obtain ⟨h1, h2⟩ := hrep hply
        simp [hply, h1, h2]
    obtain ⟨mv, rest, hmoves⟩ := List.exists_cons_of_ne_nil hmv
    unfold negamax
    rw [hcond]
    simp only [Bool.false_eq_true, if_false]
    rw [htt]
    simp only
    rw [if_neg (by omega : negamax_depth env pr ply a b ≠ 0), hsnmp]
    simp only [Bool.false_eq_true, if_false]
    rw [hnmp]
    simp only [Bool.false_eq_true, if_false]
    rw [hmoves]
    unfold negamax_loop
    rw [decide_eq_true hdeep, hstop]
    simp only [Bool.true_and, Bool.and_true, if_true]
  · intro tm nc ms
    unfold TimeManager.hard_stop_inner_search
    cases hs : tm.stopped <;> cases hp : tm.pondering <;> simp

/-- C7 witness: a stopped search at depth 3 with one legal move aborts. -/
theorem negamax_hard_stop_abort_witness :
    negamax { base_env with
        moves := [{ moveBits := 5, is_capture := false, gives_check := false }]
        tm := { depth_limit := none, node_limit := none, real_time := none,
                stopped := true, pondering := false, mated_in := none } }
      3 1 true 0 5 = { score := 0, tt_store := none } :=
  negamax_hard_stop_abort.1 _ 3 1 true 0 5 (by decide) (by decide) (by decide)
    (by decide) (by decide) (by decide) (by decide)


/-! ## Aspiration windows

`Search::aspiration_search` from `search/mod.rs`.  The recursive `negamax`
calls are supplied by an oracle `scores : Nat → Int` (the result of the
`i`-th call); the embedding additionally returns the list of `(alpha, beta)`
windows passed to the successive calls, in order, so that the widening
policy is observable. -/

/-- `i32::MAX`. -/
def I32_MAX : Int := 2147483647

/-- `i32::MIN`. -/
def I32_MIN : Int := -2147483648

/-- `i32::saturating_sub`. -/
def satSub32 (a b : Int) : Int := min (max (a - b) I32_MIN) I32_MAX

/-- `i32::saturating_add`. -/
def satAdd32 (a b : Int) : Int := min (max (a + b) I32_MIN) I32_MAX

/-- The fail-low window update: lower alpha by the growth step (saturating,
floored at `-EvalNumber::MAX`), then set beta to the midpoint of the NEW
alpha and the old beta (`i64` average truncated towards zero). -/
def aspiration_fail_low_window (alpha beta : Int) : Int × Int :=
  let alpha1 := max (satSub32 alpha DEFAULT_TUNABLES.aspiration_window_growth) (-I32_MAX)
  (alpha1, Int.div (alpha1 + beta) 2)

/-- The aspiration loop (`for _ in 0..aspiration_window_count`), with the
fall-through full-window search when the iterations are exhausted.  `k` is
the index of the next `negamax` call. -/
def aspiration_loop (scores : Nat → Int) :
    Nat → Nat → Int → Int → Int × List (Int × Int)
  | 0, k, _, _ => (scores k, [(-I32_MAX, I32_MAX)])
  | r + 1, k, alpha, beta =>
    let s := scores k
    if s ≤ alpha then
      let next := aspiration_fail_low_window alpha beta
      let rec_result := aspiration_loop scores r (k + 1) next.1 next.2
      (rec_result.1, (alpha, beta) :: rec_result.2)
    else if s ≥ beta then
      let rec_result := aspiration_loop scores r (k + 1) alpha
        (satAdd32 beta DEFAULT_TUNABLES.aspiration_window_growth)
      (rec_result.1, (alpha, beta) :: rec_result.2)
    else (s, [(alpha, beta)])

/-- The sequence of `(alpha, beta)` windows that `aspiration_loop` passes to
its successive `negamax` calls (instrumentation of the same loop). -/
def aspiration_windows_loop (scores : Nat → Int) :
    Nat → Nat → Int → Int → List (Int × Int)
  | 0, _, _, _ => [(-I32_MAX, I32_MAX)]
  | r + 1, k, alpha, beta =>
    if scores k ≤ alpha then
      (alpha, beta) ::
        aspiration_windows_loop scores r (k + 1) (aspiration_fail_low_window alpha beta).1
          (aspiration_fail_low_window alpha beta).2
    else if scores k ≥ beta then
      (alpha, beta) ::
        aspiration_windows_loop scores r (k + 1) alpha
          (satAdd32 beta DEFAULT_TUNABLES.aspiration_window_growth)
    else [(alpha, beta)]

/-- `Search::aspiration_search`, returning the result and the window trace. -/
def aspiration_search (scores : Nat → Int) (best_score : Int) (depth : Nat) :
    Int × List (Int × Int) :=
  if depth > 2 then
    let alpha := max (satSub32 best_score DEFAULT_TUNABLES.aspiration_window_start) (-I32_MAX)
    let beta := satAdd32 best_score DEFAULT_TUNABLES.aspiration_window_start
    aspiration_loop scores DEFAULT_TUNABLES.aspiration_window_count 0 alpha beta
  else
    (scores 0, [(-I32_MAX, I32_MAX)])

theorem aspiration_windows_loop_def :
    ∀ r k : Nat, ∀ alpha beta : Int, ∀ scores : Nat → Int,
    (aspiration_loop scores r k alpha beta).2 =
      aspiration_windows_loop scores r k alpha beta := by
  intro r
  induction r with
  | zero =>
    intro k alpha beta scores
    rfl
  | succ r ih =>
    intro k alpha beta scores
    unfold aspiration_loop aspiration_windows_loop
    by_cases h1 : scores k ≤ alpha
    · rw [if_pos h1, if_pos h1]
      simp [ih]
    · rw [if_neg h1, if_neg h1]
      by_cases h2 : scores k ≥ beta
      · rw [if_pos h2, if_pos h2]
        simp [ih]
      · rw [if_neg h2, if_neg h2]

theorem aspiration_windows_loop_head (scores : Nat → Int) (r k : Nat)
    (alpha beta : Int) :
    (aspiration_windows_loop scores r k alpha beta).get? 0 =
      some (if r = 0 then (-I32_MAX, I32_MAX) else (alpha, beta)) := by
  cases r with
  | zero => rfl
  | succ r =>
    unfold aspiration_windows_loop
    by_cases h1 : scores k ≤ alpha
    · rw [if_pos h1]
      rfl
    · rw [if_neg h1]
      by_cases h2 : scores k ≥ beta
      · rw [if_pos h2]
        rfl
      · rw [if_neg h2]
        rfl

theorem aspiration_windows_loop_step (scores : Nat → Int) :
    ∀ r k : Nat, ∀ alpha beta : Int, ∀ i : Nat, ∀ a' b' a2 b2 : Int,
    (aspiration_windows_loop scores r k alpha beta).get? i = some (a', b') →
    (aspiration_windows_loop scores r k alpha beta).get? (i + 1) = some (a2, b2) →
    i + 1 < r → scores (k + i) ≤ a' →
    (a2, b2) = aspiration_fail_low_window a' b' := by
  intro r
  induction r with
  | zero =>
    intro k alpha beta i a' b' a2 b2 _ _ h
    omega
  | succ r ih =>
    intro k alpha beta i a' b' a2 b2 hget hget1 hlt hfail
    unfold aspiration_windows_loop at hget hget1
    by_cases h1 : scores k ≤ alpha
    · rw [if_pos h1] at hget hget1
      cases i with
      | zero =>
        simp only [List.get?_cons_zero, Option.some.injEq, Prod.mk.injEq] at hget
        obtain ⟨ha, hb⟩ := hget
        subst ha
        subst hb
        have hr : r ≠ 0 := by omega
        rw [List.get?_cons_succ, aspiration_windows_loop_head, if_neg hr] at hget1
        simp only [Option.some.injEq] at hget1
        rw [← hget1]
      | succ i =>
        rw [List.get?_cons_succ] at hget hget1
        exact ih (k + 1) _ _ i a' b' a2 b2 hget hget1 (by omega)
          (by rw [show k + 1 + i = k + (i + 1) by omega]; exact hfail)
    · rw [if_neg h1] at hget hget1
      by_cases h2 : scores k ≥ beta
      · rw [if_pos h2] at hget hget1
        cases i with
        | zero =>
          simp only [List.get?_cons_zero, Option.some.injEq, Prod.mk.injEq] at hget
          obtain ⟨ha, _⟩ := hget
          subst ha
          simp at hfail
          omega
        | succ i =>
          rw [List.get?_cons_succ] at hget hget1
          exact ih (k + 1) _ _ i a' b' a2 b2 hget hget1 (by omega)
            (by rw [show k + 1 + i = k + (i + 1) by omega]; exact hfail)
      · rw [if_neg h2] at hget hget1
        cases i with
        | zero => simp at hget1
        | succ i => simp at hget

theorem aspiration_windows_loop_fallback (scores : Nat → Int) :
    ∀ r k : Nat, ∀ alpha beta : Int,
    (aspiration_windows_loop scores r k alpha beta).length = r + 1 →
    (aspiration_windows_loop scores r k alpha beta).get? r = some (-I32_MAX, I32_MAX) := by
  intro r
  induction r with
  | zero =>
    intro k alpha beta _
    rfl
  | succ r ih =>
    intro k alpha beta hlen
    unfold aspiration_windows_loop at hlen ⊢
    by_cases h1 : scores k ≤ alpha
    · rw [if_pos h1] at hlen ⊢
      rw [List.get?_cons_succ]
      exact ih _ _ _ (by simpa using hlen)
    · rw [if_neg h1] at hlen ⊢
      by_cases h2 : scores k ≥ beta
      · rw [if_pos h2] at hlen ⊢
        rw [List.get?_cons_succ]
        exact ih _ _ _ (by simpa using hlen)
      · rw [if_neg h2] at hlen ⊢
        simp at hlen

/-- C5 counterexample: with the default tunables (start 12, growth 41), a
first call that fails low at window `(-12, 12)` is followed by the window
`(-53, -20)`: beta is the midpoint of the NEW alpha `-53` and the old beta
`12`, not the midpoint `0` of the old alpha and the old beta as claimed. -/
theorem aspiration_fail_low_midpoint_counterexample :
    (aspiration_search (fun _ => -100) 0 3).2.get? 0 = some (-12, 12) ∧
    (aspiration_search (fun _ => -100) 0 3).2.get? 1 = some (-53, -20) ∧
    (-20 : Int) ≠ Int.div (-12 + 12) 2 := by
  refine ⟨?_, ?_, ?_⟩ <;> decide

/-- C5 (amended): in `aspiration_search` (at depth `> 2`), the first window
is `[best_score − S, best_score + S]` (saturating, alpha floored at
`-EvalNumber::MAX`); on a fail-low the next window lowers alpha by the
growth step (saturating, floored at `-EvalNumber::MAX`) and sets beta to the
midpoint of the NEW alpha and the old beta; and when all
`aspiration_window_count` calls fail, the final call uses the full window
`[-EvalNumber::MAX, EvalNumber::MAX]`. -/
theorem aspiration_search_windows (scores : Nat → Int) (best_score : Int)
    (depth : Nat) (hd : depth > 2) :
    ((aspiration_search scores best_score depth).2.get? 0 =
      some (max (satSub32 best_score DEFAULT_TUNABLES.aspiration_window_start) (-I32_MAX),
        satAdd32 best_score DEFAULT_TUNABLES.aspiration_window_start)) ∧
    (∀ i : Nat, ∀ a' b' a2 b2 : Int,
      (aspiration_search scores best_score depth).2.get? i = some (a', b') →
      (aspiration_search scores best_score depth).2.get? (i + 1) = some (a2, b2) →
      i + 1 < DEFAULT_TUNABLES.aspiration_window_count → scores i ≤ a' →
      a2 = max (satSub32 a' DEFAULT_TUNABLES.aspiration_window_growth) (-I32_MAX) ∧
      b2 = Int.div (a2 + b') 2) ∧
    ((aspiration_search scores best_score depth).2.length =
        DEFAULT_TUNABLES.aspiration_window_count + 1 →
      (aspiration_search scores best_score depth).2.get?
        DEFAULT_TUNABLES.aspiration_window_count = some (-I32_MAX, I32_MAX)) := by
  unfold aspiration_search
  rw [if_pos hd]
  simp only [aspiration_windows_loop_def]
  refine ⟨?_, ?_, ?_⟩
  · rw [aspiration_windows_loop_head]
    rfl
  · intro i a' b' a2 b2 hget hget1 hlt hfail
    have := aspiration_windows_loop_step scores DEFAULT_TUNABLES.aspiration_window_count 0 _ _
      i a' b' a2 b2 hget hget1 hlt (by simpa using hfail)
    simp only [aspiration_fail_low_window, Prod.mk.injEq] at this
    obtain ⟨h1, h2⟩ := this
    refine ⟨h1, ?_⟩
    rw [h1]
    exact h2
  · intro hlen
    exact aspiration_windows_loop_fallback scores DEFAULT_TUNABLES.aspiration_window_count 0 _ _ hlen

/-- C5 witness: the amended theorem at the counterexample's inputs. -/
theorem aspiration_search_windows_witness :
    (aspiration_search (fun _ => -100) 0 3).2.get? 0 =
      some (max (satSub32 0 DEFAULT_TUNABLES.aspiration_window_start) (-I32_MAX),
        satAdd32 0 DEFAULT_TUNABLES.aspiration_window_start) ∧
    ((-53 : Int) = max (satSub32 (-12) DEFAULT_TUNABLES.aspiration_window_growth) (-I32_MAX) ∧
     (-20 : Int) = Int.div (-53 + 12) 2) := by
  have h := aspiration_search_windows (fun _ => -100) 0 3 (by decide)
  refine ⟨h.1, ?_⟩
  have := h.2.1 0 (-12) 12 (-53) (-20) (by decide) (by decide) (by decide) (by decide)
  obtain ⟨h1, h2⟩ := this
  exact ⟨h1, by rw [h2, h1]⟩


/-! ## FEN

Characters, square notation, decimal numbers, whitespace splitting, the
attack tables used by `from_fen`'s validity checks, and the
serialiser/parser pair from `board/fen.rs`. -/

namespace Piece

/-- `Piece::to_fen_char` (modelled from the spec: standard FEN letters,
white upper-case). -/
def to_fen_char : Piece → Char
  | WhitePawn => 'P'
  | WhiteKnight => 'N'
  | WhiteBishop => 'B'
  | WhiteRook => 'R'
  | WhiteQueen => 'Q'
  | WhiteKing => 'K'
  | BlackPawn => 'p'
  | BlackKnight => 'n'
  | BlackBishop => 'b'
  | BlackRook => 'r'
  | BlackQueen => 'q'
  | BlackKing => 'k'

/-- `Piece::from_fen_char` (modelled from the spec). -/
def from_fen_char (c : Char) : Option Piece :=
  if c = 'P' then some WhitePawn
  else if c = 'N' then some WhiteKnight
  else if c = 'B' then some WhiteBishop
  else if c = 'R' then some WhiteRook
  else if c = 'Q' then some WhiteQueen
  else if c = 'K' then some WhiteKing
  else if c = 'p' then some BlackPawn
  else if c = 'n' then some BlackKnight
  else if c = 'b' then some BlackBishop
  else if c = 'r' then some BlackRook
  else if c = 'q' then some BlackQueen
  else if c = 'k' then some BlackKing
  else none

theorem from_to_fen_char (p : Piece) : from_fen_char p.to_fen_char = some p := by
  cases p <;> rfl

end Piece

namespace Square

/-- `Square::to_notation` (modelled from the spec: file letter then rank
digit). -/
def to_notation (s : Square) : List Char :=
  [Char.ofNat (97 + s.file.toNat), Char.ofNat (49 + s.rank.toNat)]

/-- `Square::from_notation` (modelled from the spec); `none` is the `Err`
case. -/
def from_notation (l : List Char) : Option Square :=
  match l with
  | [f, r] =>
    if 'a' ≤ f ∧ f ≤ 'h' ∧ '1' ≤ r ∧ r ≤ '8' then
      some (from_coords ((r.toNat : Int) - 49) ((f.toNat : Int) - 97))
    else none
  | _ => none

theorem from_to_notation (s : Square) (h : s.isValid) :
    from_notation (Square.to_notation s) = some s := by
  obtain ⟨i⟩ := s
  obtain ⟨h0, h64⟩ := h
  have h0' : 0 ≤ i := h0
  have h64' : i < 64 := h64
  have : ∀ j : Fin 64, from_notation (Square.to_notation ⟨(j : Nat)⟩) = some ⟨(j : Nat)⟩ := by
    decide
  have hj := this ⟨i.toNat, by omega⟩
  simpa [Int.toNat_of_nonneg h0'] using hj

end Square

/-- A decimal digit character (`char::from_digit(_, 10)`). -/
def digitChar (d : Nat) : Char := Char.ofNat (48 + d)

/-- Decimal printing of an unsigned integer (Rust `Display`), with fuel. -/
def natToCharsAux : Nat → Nat → List Char
  | 0, _ => []
  | fuel + 1, n =>
    if n < 10 then [digitChar n]
    else natToCharsAux fuel (n / 10) ++ [digitChar (n % 10)]

/-- Decimal printing of an unsigned integer (`to_string`). -/
def natToChars (n : Nat) : List Char := natToCharsAux (n + 1) n

/-- `char::to_digit(10)`. -/
def charToDigit? (c : Char) : Option Nat :=
  if '0' ≤ c ∧ c ≤ '9' then some (c.toNat - 48) else none

/-- The digit-folding core of `str::parse` for unsigned integers. -/
def parseDigits : List Char → Nat → Option Nat
  | [], acc => some acc
  | c :: rest, acc =>
    match charToDigit? c with
    | some d => parseDigits rest (10 * acc + d)
    | none => none

/-- `str::parse::<uN>`: nonempty all-digit strings whose value fits. -/
def parseNat (l : List Char) (bound : Nat) : Option Nat :=
  if l = [] then none
  else match parseDigits l 0 with
    | some v => if v < bound then some v else none
    | none => none

/-- `str::split_whitespace`, on character lists (accumulator form). -/
def wordsAux : List Char → List Char → List (List Char)
  | [], acc => if acc = [] then [] else [acc.reverse]
  | c :: rest, acc =>
    if c.isWhitespace then
      if acc = [] then wordsAux rest []
      else acc.reverse :: wordsAux rest []
    else wordsAux rest (c :: acc)

/-- `str::split_whitespace`. -/
def words (l : List Char) : List (List Char) := wordsAux l []

/-- One sliding ray: squares reachable from `(rank, file)` in direction
`(dr, df)` up to and including the first blocker (modelled from the spec
§4.1 contract of the magic-bitboard lookup). -/
def rayWalk (blockers : BitBoard) (dr df : Int) : Int → Int → Nat → BitBoard
  | _, _, 0 => 0
  | rank, file, steps + 1 =>
    let r := rank + dr
    let f := file + df
    if 0 ≤ r ∧ r < 8 ∧ 0 ≤ f ∧ f < 8 then
      let sq := Square.from_coords r f
      if blockers.get sq then sq.bit_board
      else sq.bit_board ||| rayWalk blockers dr df r f steps
    else 0

/-- `get_bishop_moves` (modelled from the spec §4.1). -/
def get_bishop_moves (sq : Square) (blockers : BitBoard) : BitBoard :=
  rayWalk blockers 1 1 sq.rank sq.file 7 ||| rayWalk blockers 1 (-1) sq.rank sq.file 7 |||
  rayWalk blockers (-1) 1 sq.rank sq.file 7 ||| rayWalk blockers (-1) (-1) sq.rank sq.file 7

/-- `get_rook_moves` (modelled from the spec §4.1). -/
def get_rook_moves (sq : Square) (blockers : BitBoard) : BitBoard :=
  rayWalk blockers 1 0 sq.rank sq.file 7 ||| rayWalk blockers (-1) 0 sq.rank sq.file 7 |||
  rayWalk blockers 0 1 sq.rank sq.file 7 ||| rayWalk blockers 0 (-1) sq.rank sq.file 7

/-- One ray of the relevant-blocker mask: interior squares only (the last
square before the edge is excluded; modelled from the spec §4.1). -/
def rayInterior (dr df : Int) : Int → Int → Nat → BitBoard
  | _, _, 0 => 0
  | rank, file, steps + 1 =>
    let r := rank + dr
    let f := file + df
    if 0 ≤ r + dr ∧ r + dr < 8 ∧ 0 ≤ f + df ∧ f + df < 8 then
      (Square.from_coords r f).bit_board ||| rayInterior dr df r f steps
    else 0

/-- `relevant_bishop_blockers` (modelled from the spec §4.1). -/
def relevant_bishop_blockers (sq : Square) : BitBoard :=
  rayInterior 1 1 sq.rank sq.file 7 ||| rayInterior 1 (-1) sq.rank sq.file 7 |||
  rayInterior (-1) 1 sq.rank sq.file 7 ||| rayInterior (-1) (-1) sq.rank sq.file 7

/-- `relevant_rook_blockers` (modelled from the spec §4.1). -/
def relevant_rook_blockers (sq : Square) : BitBoard :=
  rayInterior 1 0 sq.rank sq.file 7 ||| rayInterior (-1) 0 sq.rank sq.file 7 |||
  rayInterior 0 1 sq.rank sq.file 7 ||| rayInterior 0 (-1) sq.rank sq.file 7

/-- The union of the in-bounds squares at the given coordinate offsets. -/
def offsetsBoard (rank file : Int) (offsets : List (Int × Int)) : BitBoard :=
  offsets.foldl
    (fun acc d =>
      let r := rank + d.1
      let f := file + d.2
      if 0 ≤ r ∧ r < 8 ∧ 0 ≤ f ∧ f < 8 then acc ||| (Square.from_coords r f).bit_board
      else acc) 0

/-- `MoveGenerator::king_attack_bit_board` (modelled from the spec). -/
def king_attack_bit_board (sq : Square) : BitBoard :=
  offsetsBoard sq.rank sq.file
    [(-1, -1), (-1, 0), (-1, 1), (0, -1), (0, 1), (1, -1), (1, 0), (1, 1)]

/-- `MoveGenerator::knight_attack_bit_board` (modelled from the spec). -/
def knight_attack_bit_board (sq : Square) : BitBoard :=
  offsetsBoard sq.rank sq.file
    [(-2, -1), (-2, 1), (-1, -2), (-1, 2), (1, -2), (1, 2), (2, -1), (2, 1)]

/-- `pawn_move_generator::attack_bit_board(square, white)` (modelled from
the spec): the capture targets of a pawn of the given colour on `square`. -/
def pawn_attack_bit_board (sq : Square) (white : Bool) : BitBoard :=
  offsetsBoard sq.rank sq.file (if white then [(1, -1), (1, 1)] else [(-1, -1), (-1, 1)])

/-- `MoveGenerator::calculate_checkers` from `move_generator/mod.rs`. -/
def calculate_checkers (white_to_move : Bool) (king_square : Square)
    (enemy_pawns enemy_knights enemy_diagonal enemy_orthogonal occupied_squares : BitBoard) :
    BitBoard :=
  let check_mask : BitBoard := 0
  let diagonal_blockers := occupied_squares &&& relevant_bishop_blockers king_square
  let diagonal_attacks := get_bishop_moves king_square diagonal_blockers
  let diagonal_attacker := diagonal_attacks &&& enemy_diagonal
  let check_mask := check_mask ||| diagonal_attacker
  let orthogonal_blockers := occupied_squares &&& relevant_rook_blockers king_square
  let orthogonal_attacks := get_rook_moves king_square orthogonal_blockers
  let orthogonal_attacker := orthogonal_attacks &&& enemy_orthogonal
  let check_mask := check_mask ||| orthogonal_attacker
  let pawn_check := pawn_attack_bit_board king_square white_to_move
  let pawn_attacker := pawn_check &&& enemy_pawns
  let check_mask := check_mask ||| pawn_attacker
  let knight_check := knight_attack_bit_board king_square
  let knight_attacker := knight_check &&& enemy_knights
  check_mask ||| knight_attacker


inductive FenParseErr where
  | MissingPosition
  | InvalidPiece
  | MissingKing
  | MultipleKings
  | TouchingKings
  | PawnOnPromotionRank
  | InvalidDigit
  | MissingSideToMove
  | InvalidSideToMove
  | MissingHalfMoveClock
  | InvalidHalfMoveClock
  | MissingFullMoveCounter
  | InvalidFullMoveCounter
  | MissingEnPassant
  | InvalidEnPassant
  | MissingCastling
  | TooManyChecks
  deriving DecidableEq, Repr

/-- The position-section loop of `Board::from_fen` (fen.rs lines 87-143):
`/` is skipped; a digit advances the file; a piece character runs the
king/pawn checks, records king squares, sets the piece bit and advances the
file; after a digit or piece, `file == 8` moves to the next rank down, or
stops at rank 0 (the source's `break`, which leaves any remaining
characters unread). -/
def parsePos : List Char → Int → Int → BitBoards → Option Square → Option Square →
    Except FenParseErr (BitBoards × Option Square × Option Square)
  | [], _, _, bit_boards, wk, bk => .ok (bit_boards, wk, bk)
  | c :: rest, rank, file, bit_boards, wk, bk =>
    if c = '/' then parsePos rest rank file bit_boards wk bk
    else
      match charToDigit? c with
      | some digit =>
        if digit > 8 then .error .InvalidDigit
        else
          let file := file + digit
          if file > 8 then .error .InvalidDigit
          else if file = 8 then
            if rank = 0 then .ok (bit_boards, wk, bk)
            else parsePos rest (rank - 1) 0 bit_boards wk bk
          else parsePos rest rank file bit_boards wk bk
      | none =>
        match Piece.from_fen_char c with
        | some piece =>
          let square := Square.from_coords rank file
          let checked : Except FenParseErr (Option Square × Option Square) :=
            match piece with
            | .WhiteKing =>
              if wk.isSome then .error .MultipleKings else .ok (some square, bk)
            | .BlackKing =>
              if bk.isSome then .error .MultipleKings else .ok (wk, some square)
            | .WhitePawn =>
              if BitBoard.RANK_8.get square then .error .PawnOnPromotionRank
              else .ok (wk, bk)
            | .BlackPawn =>
              if BitBoard.RANK_1.get square then .error .PawnOnPromotionRank
              else .ok (wk, bk)
            | _ => .ok (wk, bk)
          match checked with
          | .error e => .error e
          | .ok (wk, bk) =>
            let bit_boards := bit_boards.modifyBB piece (fun bb => bb.set square)
            let file := file + 1
            if file = 8 then
              if rank = 0 then .ok (bit_boards, wk, bk)
              else parsePos rest (rank - 1) 0 bit_boards wk bk
            else parsePos rest rank file bit_boards wk bk
        | none => .error .InvalidPiece

/-- `"w"`/`"b"`: `some` is the side, `none` the `InvalidSideToMove` case. -/
def parseSide (s : List Char) : Option Bool :=
  if s = ['w'] then some true else if s = ['b'] then some false else none

/-- `bit_boards[0] | ... | bit_boards[11]`. -/
def BitBoards.occupied (x : BitBoards) : BitBoard :=
  x.wP ||| x.wN ||| x.wB ||| x.wR ||| x.wQ ||| x.wK |||
  x.bP ||| x.bN ||| x.bB ||| x.bR ||| x.bQ ||| x.bK

/-- The checker computation at the end of `from_fen` (fen.rs lines
229-275): the enemy piece sets and occupancy fed to
`calculate_checkers`. -/
def checkers_of (white_to_move : Bool) (x : BitBoards) (king_square : Square) : BitBoard :=
  if white_to_move then
    calculate_checkers true king_square x.bP x.bN (x.bB ||| x.bQ) (x.bR ||| x.bQ) x.occupied
  else
    calculate_checkers false king_square x.wP x.wN (x.wB ||| x.wQ) (x.wR ||| x.wQ) x.occupied

/-- `Board::from_fen` (fen.rs lines 69-278); the input is the FEN string as
a character list and the sequential `components.next()` calls are reads of
the `words` list. `str::parse` for the clock fields is `parseNat` with the
64-bit bound (the counters are 64-bit; modelled from the spec §3). -/
def Board.from_fen (fen : List Char) : Except FenParseErr Board :=
  match words fen with
  | [] => .error .MissingPosition
  | position :: components =>
    match parsePos position 7 0 ⟨0, 0, 0, 0, 0, 0, 0, 0, 0, 0, 0, 0⟩ none none with
    | .error e => .error e
    | .ok (bit_boards, white_king_square, black_king_square) =>
      match white_king_square, black_king_square with
      | some wks, some bks =>
        if (king_attack_bit_board wks).overlaps bks.bit_board then .error .TouchingKings
        else
          match components with
          | [] => .error .MissingSideToMove
          | side :: components =>
            match parseSide side with
            | none => .error .InvalidSideToMove
            | some white_to_move =>
              match components with
              | [] => .error .MissingCastling
              | castling :: components =>
                let castling_rights := CastlingRights.from_fen_section castling
                match components with
                | [] => .error .MissingEnPassant
                | en_passant :: components =>
                  let eps : Except FenParseErr (Option Square) :=
                    if en_passant = ['-'] then .ok none
                    else
                      match Square.from_notation en_passant with
                      | some sq => .ok (some sq)
                      | none => .error .InvalidEnPassant
                  match eps with
                  | .error e => .error e
                  | .ok en_passant_square =>
                    match components with
                    | [] => .error .MissingHalfMoveClock
                    | half_move :: components =>
                      match parseNat half_move (2 ^ 64) with
                      | none => .error .InvalidHalfMoveClock
                      | some half_move_clock =>
                        match components with
                        | [] => .error .MissingFullMoveCounter
                        | full_move :: _ =>
                          match parseNat full_move (2 ^ 64) with
                          | none => .error .InvalidFullMoveCounter
                          | some full_move_counter =>
                            let game_state : GameState :=
                              { castling_rights := castling_rights
                                en_passant_square := en_passant_square
                                half_move_clock := half_move_clock
                                captured := none }
                            let board : Board :=
                              { bit_boards := bit_boards
                                white_to_move := white_to_move
                                game_state := game_state
                                full_move_counter := full_move_counter }
                            let king_square := if white_to_move then wks else bks
                            if (checkers_of white_to_move bit_boards king_square).count ≥ 3 then
                              .error .TooManyChecks
                            else .ok board
      | _, _ => .error .MissingKing

/-- The cells of one rank in file order, as `to_fen`'s inner loop reads
them. -/
def cellsRow (b : Board) (rank : Int) : List (Option Piece) :=
  List.map (fun f : Nat => b.piece_at (Square.from_coords rank (f : Int))) (List.range 8)

/-- Flushing the empty-square counter (`char::from_digit(empty, 10)` when
nonzero). -/
def emptyFlush (empty : Nat) : List Char :=
  if empty = 0 then [] else [digitChar empty]

/-- The file loop of `to_fen` over one rank's cells, carrying the empty
counter: a piece flushes the counter and emits its letter, an empty square
increments it, and the rank's end flushes it. (In the source the counter
variable is shared across ranks, but it is always zero when a rank starts
and flushed when it ends.) -/
def encodeCells : List (Option Piece) → Nat → List Char
  | [], empty => emptyFlush empty
  | none :: cs, empty => encodeCells cs (empty + 1)
  | some p :: cs, empty => emptyFlush empty ++ p.to_fen_char :: encodeCells cs 0

/-- One rank of the position section. -/
def to_fen_rank (b : Board) (rank : Int) : List Char :=
  encodeCells (cellsRow b rank) 0

/-- Ranks `r` down to 0 joined by `/` (the `(0..8).rev()` rank loop). -/
def to_fen_ranks (b : Board) : Nat → List Char
  | 0 => to_fen_rank b 0
  | r + 1 => to_fen_rank b ((r : Int) + 1) ++ '/' :: to_fen_ranks b r

/-- The position section of `to_fen`. -/
def to_fen_position (b : Board) : List Char := to_fen_ranks b 7

/-- The castling section of `to_fen`: `-` if no rights, else the letters
`KQkq` of the present rights in that order. -/
def castlingChars (cr : CastlingRights) : List Char :=
  if cr.is_none then ['-']
  else
    (if cr.get_white_king_side then ['K'] else []) ++
    (if cr.get_white_queen_side then ['Q'] else []) ++
    (if cr.get_black_king_side then ['k'] else []) ++
    (if cr.get_black_queen_side then ['q'] else [])

/-- The en-passant section of `to_fen`. -/
def epChars : Option Square → List Char
  | some sq => Square.to_notation sq
  | none => ['-']

/-- `Board::to_fen` (fen.rs lines 286-347), as a character list. -/
def Board.to_fen (b : Board) : List Char :=
  to_fen_position b ++
  ' ' :: (if b.white_to_move then ['w'] else ['b']) ++
  ' ' :: castlingChars b.game_state.castling_rights ++
  ' ' :: epChars b.game_state.en_passant_square ++
  ' ' :: natToChars b.game_state.half_move_clock ++
  ' ' :: natToChars b.full_move_counter

/-- The conditions under which `from_fen` accepts a board's own FEN: 64-bit
piece sets that are pairwise disjoint, exactly one king per colour, no pawn
on its promotion rank, kings not adjacent, fewer than three checkers
against the side to move, a valid en-passant square, and clock values that
fit their integer types. Every position the engine can reach satisfies
them. -/
structure ValidBoard (b : Board) : Prop where
  bounded : ∀ p : Piece, b.bit_boards.getBB p < 2 ^ 64
  disjoint : ∀ i : Nat, i < 64 → ∀ p q : Piece,
    (b.bit_boards.getBB p).testBit i → (b.bit_boards.getBB q).testBit i → p = q
  kings : ∃ ws bs : Square, ws.isValid ∧ bs.isValid ∧
    b.bit_boards.wK = ws.bit_board ∧ b.bit_boards.bK = bs.bit_board ∧
    (king_attack_bit_board ws).overlaps bs.bit_board = false ∧
    (checkers_of b.white_to_move b.bit_boards
      (if b.white_to_move then ws else bs)).count < 3
  wp_rank8 : b.bit_boards.wP &&& BitBoard.RANK_8 = 0
  bp_rank1 : b.bit_boards.bP &&& BitBoard.RANK_1 = 0
  ep_valid : ∀ sq, b.game_state.en_passant_square = some sq → sq.isValid
  hmc_fits : b.game_state.half_move_clock < 2 ^ 64
  fmc_fits : b.full_move_counter < 2 ^ 64

/-- The parsed board differs from the serialised one only in the
non-serialised `captured` field, which `from_fen` sets to `None`. -/
def stripCaptured (b : Board) : Board :=
  { b with game_state := { b.game_state with captured := none } }


theorem natToCharsAux_fuel :
    ∀ f1 f2 n : Nat, n < f1 → n < f2 → natToCharsAux f1 n = natToCharsAux f2 n := by
  intro f1
  induction f1 with
  | zero => intro f2 n h1; omega
  | succ a ih =>
    intro f2 n h1 h2
    cases f2 with
    | zero => omega
    | succ b =>
      simp only [natToCharsAux]
      by_cases h : n < 10
      · simp [h]
      · have hd : n / 10 < a := by omega
        have hd2 : n / 10 < b := by omega
        simp only [if_neg h, ih b (n / 10) hd hd2]

theorem natToChars_eq (n : Nat) :
    natToChars n =
      if n < 10 then [digitChar n] else natToChars (n / 10) ++ [digitChar (n % 10)] := by
  unfold natToChars
  conv_lhs => rw [natToCharsAux]
  by_cases h : n < 10
  · simp [h]
  · have : n / 10 < n := by omega
    simp only [if_neg h]
    rw [natToCharsAux_fuel n (n / 10 + 1) (n / 10) (by omega) (by omega)]

theorem charToDigit?_digitChar (d : Nat) (h : d < 10) :
    charToDigit? (digitChar d) = some d := by
  interval_cases d <;> decide

theorem digitChar_not_ws (d : Nat) (h : d < 10) :
    (digitChar d).isWhitespace = false := by
  interval_cases d <;> decide

theorem digitChar_ne_slash (d : Nat) (h : d < 10) : digitChar d ≠ '/' := by
  interval_cases d <;> decide

theorem parseDigits_append (xs ys : List Char) (acc : Nat) :
    parseDigits (xs ++ ys) acc =
      match parseDigits xs acc with
      | some v => parseDigits ys v
      | none => none := by
  induction xs generalizing acc with
  | nil => rfl
  | cons c cs ih =>
    simp only [List.cons_append, parseDigits]
    cases charToDigit? c with
    | none => rfl
    | some d => exact ih (10 * acc + d)

theorem parseDigits_natToChars (n : Nat) : parseDigits (natToChars n) 0 = some n := by
  induction n using Nat.strong_induction_on with
  | _ n ih =>
    rw [natToChars_eq]
    by_cases h : n < 10
    · rw [if_pos h]
      simp [parseDigits, charToDigit?_digitChar n h]
    · rw [if_neg h, parseDigits_append]
      have hlt : n / 10 < n := by omega
      rw [ih (n / 10) hlt]
      simp [parseDigits, charToDigit?_digitChar (n % 10) (by omega)]
      omega

theorem natToChars_ne_nil (n : Nat) : natToChars n ≠ [] := by
  rw [natToChars_eq]
  by_cases h : n < 10 <;> simp [h]

theorem natToChars_not_ws (n : Nat) : ∀ c ∈ natToChars n, c.isWhitespace = false := by
  induction n using Nat.strong_induction_on with
  | _ n ih =>
    rw [natToChars_eq]
    by_cases h : n < 10
    · simp only [if_pos h, List.mem_singleton]
      rintro c rfl
      exact digitChar_not_ws n h
    · simp only [if_neg h, List.mem_append, List.mem_singleton]
      rintro c (hc | rfl)
      · exact ih (n / 10) (by omega) c hc
      · exact digitChar_not_ws (n % 10) (by omega)

theorem parseNat_natToChars (n bound : Nat) (h : n < bound) :
    parseNat (natToChars n) bound = some n := by
  unfold parseNat
  rw [if_neg (natToChars_ne_nil n), parseDigits_natToChars]
  simp [h]

theorem wordsAux_no_ws (w : List Char) (hw : ∀ c ∈ w, c.isWhitespace = false) :
    ∀ rest acc, wordsAux (w ++ rest) acc = wordsAux rest (w.reverse ++ acc) := by
  induction w with
  | nil => intro rest acc; simp
  | cons c cs ih =>
    intro rest acc
    have hc : c.isWhitespace = false := hw c (List.mem_cons_self c cs)
    simp only [List.cons_append, wordsAux, hc, Bool.false_eq_true, if_false]
    simp only [List.append_eq]
    rw [ih (fun x hx => hw x (List.mem_cons_of_mem c hx)) rest (c :: acc)]
    simp

theorem words_append_word (w rest : List Char) (hw0 : w ≠ [])
    (hw : ∀ c ∈ w, c.isWhitespace = false) :
    words (w ++ ' ' :: rest) = w :: words rest := by
  unfold words
  rw [wordsAux_no_ws w hw (' ' :: rest) []]
  have hrev : ¬(w.reverse ++ [] = []) := by simp [hw0]
  simp [wordsAux, hrev, hw0]

theorem words_single (w : List Char) (hw0 : w ≠ [])
    (hw : ∀ c ∈ w, c.isWhitespace = false) : words w = [w] := by
  unfold words
  have := wordsAux_no_ws w hw [] []
  rw [List.append_nil] at this
  rw [this]
  simp [wordsAux, hw0]

theorem to_fen_char_not_ws (p : Piece) : p.to_fen_char.isWhitespace = false := by
  cases p <;> decide

theorem to_fen_char_ne_slash (p : Piece) : p.to_fen_char ≠ '/' := by
  cases p <;> decide

theorem charToDigit?_to_fen_char (p : Piece) : charToDigit? p.to_fen_char = none := by
  cases p <;> decide

theorem encodeCells_not_ws :
    ∀ (cells : List (Option Piece)) (e : Nat), e + cells.length ≤ 8 →
      ∀ c ∈ encodeCells cells e, c.isWhitespace = false := by
  intro cells
  induction cells with
  | nil =>
    intro e he c hc
    simp only [encodeCells, emptyFlush] at hc
    by_cases h : e = 0
    · simp [h] at hc
    · rw [if_neg h] at hc
      simp only [List.mem_singleton] at hc
      subst hc
      exact digitChar_not_ws e (by simp at he; omega)
  | cons cell cs ih =>
    intro e he c hc
    cases cell with
    | none =>
      exact ih (e + 1) (by simp at he ⊢; omega) c hc
    | some p =>
      simp only [encodeCells, emptyFlush, List.mem_append, List.mem_cons] at hc
      rcases hc with hc | hc | hc
      · by_cases h : e = 0
        · simp [h] at hc
        · rw [if_neg h] at hc
          simp only [List.mem_singleton] at hc
          subst hc
          exact digitChar_not_ws e (by simp at he; omega)
      · subst hc
        exact to_fen_char_not_ws p
      · exact ih 0 (by simp at he ⊢; omega) c hc

theorem cellsRow_length (b : Board) (rank : Int) : (cellsRow b rank).length = 8 := by
  rfl

theorem to_fen_rank_not_ws (b : Board) (rank : Int) :
    ∀ c ∈ to_fen_rank b rank, c.isWhitespace = false := by
  intro c hc
  exact encodeCells_not_ws (cellsRow b rank) 0 (by rw [cellsRow_length]) c hc

theorem to_fen_ranks_not_ws (b : Board) :
    ∀ r : Nat, ∀ c ∈ to_fen_ranks b r, c.isWhitespace = false := by
  intro r
  induction r with
  | zero => exact to_fen_rank_not_ws b 0
  | succ a ih =>
    intro c hc
    simp only [to_fen_ranks, List.mem_append, List.mem_cons] at hc
    rcases hc with hc | hc | hc
    · exact to_fen_rank_not_ws b ((a : Int) + 1) c hc
    · subst hc; decide
    · exact ih c hc

theorem encodeCells_ne_nil :
    ∀ (cells : List (Option Piece)) (e : Nat), cells ≠ [] ∨ e ≠ 0 →
      encodeCells cells e ≠ [] := by
  intro cells
  induction cells with
  | nil =>
    intro e he
    rcases he with he | he
    · exact absurd rfl he
    · simp [encodeCells, emptyFlush, he]
  | cons cell cs ih =>
    intro e _
    cases cell with
    | none => exact ih (e + 1) (Or.inr (by omega))
    | some p => simp [encodeCells]

theorem to_fen_ranks_ne_nil (b : Board) (r : Nat) (h : to_fen_ranks b r = []) : False := by
  cases r with
  | zero =>
    simp only [to_fen_ranks, to_fen_rank] at h
    have h8 := cellsRow_length b 0
    exact encodeCells_ne_nil (cellsRow b 0) 0 (Or.inl (by intro hc; rw [hc] at h8; simp at h8)) h
  | succ a => simp [to_fen_ranks] at h

theorem parseSide_roundtrip (w : Bool) :
    parseSide (if w then ['w'] else ['b']) = some w := by
  cases w <;> rfl

theorem from_fen_section_castlingChars (cr : CastlingRights) :
    CastlingRights.from_fen_section (castlingChars cr) = cr := by
  obtain ⟨a, b, c, d⟩ := cr
  cases a <;> cases b <;> cases c <;> cases d <;> decide

theorem castlingChars_ne_nil (cr : CastlingRights) : castlingChars cr ≠ [] := by
  obtain ⟨a, b, c, d⟩ := cr
  cases a <;> cases b <;> cases c <;> cases d <;> decide

theorem castlingChars_not_ws (cr : CastlingRights) :
    ∀ c ∈ castlingChars cr, c.isWhitespace = false := by
  obtain ⟨a, b, c, d⟩ := cr
  cases a <;> cases b <;> cases c <;> cases d <;> decide

theorem to_notation_not_ws (s : Square) (h : s.isValid) :
    ∀ c ∈ Square.to_notation s, c.isWhitespace = false := by
  obtain ⟨i⟩ := s
  obtain ⟨h0, h64⟩ := h
  have h0' : 0 ≤ i := h0
  have h64' : i < 64 := h64
  have hall : ∀ j : Fin 64, ∀ c ∈ Square.to_notation ⟨(j : Nat)⟩, c.isWhitespace = false := by
    decide
  have hj := hall ⟨i.toNat, by omega⟩
  intro c hc
  apply hj c
  have : ((i.toNat : Int)) = i := Int.toNat_of_nonneg h0'
  rw [this]
  exact hc

theorem to_notation_ne_dash (s : Square) (h : s.isValid) :
    Square.to_notation s ≠ ['-'] := by
  intro hcon
  have := congrArg List.length hcon
  simp [Square.to_notation] at this

theorem epChars_ne_nil (ep : Option Square) : epChars ep ≠ [] := by
  cases ep with
  | none => decide
  | some sq =>
    intro hcon
    have := congrArg List.length hcon
    simp [epChars, Square.to_notation] at this

theorem epChars_not_ws (ep : Option Square) (h : ∀ sq, ep = some sq → sq.isValid) :
    ∀ c ∈ epChars ep, c.isWhitespace = false := by
  cases ep with
  | none => intro c hc; simp only [epChars, List.mem_singleton] at hc; subst hc; decide
  | some sq => exact to_notation_not_ws sq (h sq rfl)

/-- The bitboard effect of the position loop over one rank's cells,
starting at `file`. -/
def setCellsRow (rank : Int) : BitBoards → Int → List (Option Piece) → BitBoards
  | bbs, _, [] => bbs
  | bbs, file, none :: cs => setCellsRow rank bbs (file + 1) cs
  | bbs, file, some p :: cs =>
    setCellsRow rank (bbs.modifyBB p (fun bb => bb.set (Square.from_coords rank file)))
      (file + 1) cs

/-- The king-square tracking effect of the position loop over one rank's
cells. -/
def rowKings (rank : Int) :
    Int → Option Square → Option Square → List (Option Piece) →
      Option Square × Option Square
  | _, wk, bk, [] => (wk, bk)
  | file, wk, bk, none :: cs => rowKings rank (file + 1) wk bk cs
  | file, wk, bk, some p :: cs =>
    rowKings rank (file + 1)
      (if p = .WhiteKing then some (Square.from_coords rank file) else wk)
      (if p = .BlackKing then some (Square.from_coords rank file) else bk) cs

/-- The conditions under which one rank's cells pass the position loop's
king and pawn checks. -/
def rowOk (rank : Int) :
    Int → Option Square → Option Square → List (Option Piece) → Prop
  | _, _, _, [] => True
  | file, wk, bk, none :: cs => rowOk rank (file + 1) wk bk cs
  | file, wk, bk, some p :: cs =>
    (match p with
     | .WhiteKing => wk = none
     | .BlackKing => bk = none
     | .WhitePawn => BitBoard.RANK_8.get (Square.from_coords rank file) = false
     | .BlackPawn => BitBoard.RANK_1.get (Square.from_coords rank file) = false
     | _ => True) ∧
    rowOk rank (file + 1)
      (if p = .WhiteKing then some (Square.from_coords rank file) else wk)
      (if p = .BlackKing then some (Square.from_coords rank file) else bk) cs

theorem parsePos_digit_step (e : Nat) (L : List Char) (rank file : Int)
    (bbs : BitBoards) (wk bk : Option Square)
    (h1 : 0 < e) (h2 : e ≤ 8) (h3 : file + e < 8) :
    parsePos (digitChar e :: L) rank file bbs wk bk =
      parsePos L rank (file + e) bbs wk bk := by
  simp only [parsePos]
  rw [if_neg (digitChar_ne_slash e (by omega))]
  rw [charToDigit?_digitChar e (by omega)]
  simp only []
  rw [if_neg (by omega : ¬ e > 8)]
  rw [if_neg (by omega : ¬ file + (e : Int) > 8)]
  rw [if_neg (by omega : ¬ file + (e : Int) = 8)]

theorem parsePos_encodeCells :
    ∀ (cells : List (Option Piece)) (e : Nat) (file : Int) (bbs : BitBoards)
      (wk bk : Option Square) (rest : List Char) (rank : Int),
      0 ≤ file → file + e + cells.length = 8 → (cells = [] → 0 < e) →
      rowOk rank (file + e) wk bk cells →
      parsePos (encodeCells cells e ++ rest) rank file bbs wk bk =
        (if rank = 0 then
          .ok (setCellsRow rank bbs (file + e) cells,
               (rowKings rank (file + e) wk bk cells).1,
               (rowKings rank (file + e) wk bk cells).2)
        else
          parsePos rest (rank - 1) 0 (setCellsRow rank bbs (file + e) cells)
            (rowKings rank (file + e) wk bk cells).1
            (rowKings rank (file + e) wk bk cells).2) := by
  intro cells
  induction cells with
  | nil =>
    intro e file bbs wk bk rest rank hf hlen hne _
    simp only [List.length_nil] at hlen
    have he : 0 < e := hne rfl
    have he8 : e ≤ 8 := by omega
    simp only [encodeCells, emptyFlush, if_neg (by omega : ¬ e = 0), List.cons_append,
      List.nil_append]
    simp only [parsePos]
    rw [if_neg (digitChar_ne_slash e (by omega))]
    rw [charToDigit?_digitChar e (by omega)]
    simp only []
    rw [if_neg (by omega : ¬ e > 8)]
    rw [if_neg (by omega : ¬ file + (e : Int) > 8)]
    rw [if_pos (by omega : file + (e : Int) = 8)]
    simp only [setCellsRow, rowKings]
  | cons cell cs ih =>
    intro e file bbs wk bk rest rank hf hlen hne hok
    cases cell with
    | none =>
      have hcast : file + ((e + 1 : Nat) : Int) = file + e + 1 := by push_cast; ring
      have := ih (e + 1) file bbs wk bk rest rank hf
        (by simp at hlen ⊢; omega) (by intro hcs; omega)
        (by rw [hcast]; exact hok)
      rw [hcast] at this
      simpa only [encodeCells, setCellsRow, rowKings] using this
    | some p =>
      -- reduce the flushed digit, if any, reaching the piece character at
      -- file position `file + e`
      have hlen' : file + (e : Int) + (1 + (cs.length : Int)) = 8 := by
        simp at hlen; omega
      -- the continuation shared by all twelve piece kinds, after the piece
      -- checks pass with updated king squares `wk2`, `bk2`
      have hcont : ∀ (bbs2 : BitBoards) (wk2 bk2 : Option Square),
          rowOk rank (file + (e : Int) + 1) wk2 bk2 cs →
          (if file + (e : Int) + 1 = 8 then
            if rank = 0 then (Except.ok (bbs2, wk2, bk2) :
                Except FenParseErr (BitBoards × Option Square × Option Square))
            else parsePos (encodeCells cs 0 ++ rest) (rank - 1) 0 bbs2 wk2 bk2
          else parsePos (encodeCells cs 0 ++ rest) rank (file + (e : Int) + 1) bbs2 wk2 bk2) =
          (if rank = 0 then
            Except.ok (setCellsRow rank bbs2 (file + (e : Int) + 1) cs,
              (rowKings rank (file + (e : Int) + 1) wk2 bk2 cs).1,
              (rowKings rank (file + (e : Int) + 1) wk2 bk2 cs).2)
          else
            parsePos rest (rank - 1) 0 (setCellsRow rank bbs2 (file + (e : Int) + 1) cs)
              (rowKings rank (file + (e : Int) + 1) wk2 bk2 cs).1
              (rowKings rank (file + (e : Int) + 1) wk2 bk2 cs).2) := by
        intro bbs2 wk2 bk2 hok2
        by_cases hcs : cs = []
        · subst hcs
          have h8 : file + (e : Int) + 1 = 8 := by simp at hlen'; omega
          rw [if_pos h8]
          split <;> rfl
        · have hlb : (1 : Int) ≤ (cs.length : Int) := by
            have : cs.length ≠ 0 := by simpa using hcs
            omega
          rw [if_neg (by omega)]
          have hrec := ih 0 (file + (e : Int) + 1) bbs2 wk2 bk2 rest rank (by omega)
            (by push_cast; omega) (fun hc => absurd hc hcs)
            (by simpa using hok2)
          simpa using hrec
      suffices h :
          parsePos (p.to_fen_char :: (encodeCells cs 0 ++ rest)) rank
              (file + (e : Int)) bbs wk bk =
            (if rank = 0 then
              .ok (setCellsRow rank bbs (file + (e : Int)) (some p :: cs),
                   (rowKings rank (file + (e : Int)) wk bk (some p :: cs)).1,
                   (rowKings rank (file + (e : Int)) wk bk (some p :: cs)).2)
            else
              parsePos rest (rank - 1) 0
                (setCellsRow rank bbs (file + (e : Int)) (some p :: cs))
                (rowKings rank (file + (e : Int)) wk bk (some p :: cs)).1
                (rowKings rank (file + (e : Int)) wk bk (some p :: cs)).2) by
        by_cases he : e = 0
        · subst he
          simp only [Nat.cast_zero, add_zero] at h
          simpa [encodeCells, emptyFlush] using h
        · simp only [encodeCells, emptyFlush, if_neg he, List.cons_append, List.nil_append,
            List.singleton_append, List.append_assoc]
          rw [parsePos_digit_step e _ rank file bbs wk bk (by omega) (by omega) (by omega)]
          exact h
      simp only [parsePos]
      rw [if_neg (to_fen_char_ne_slash p)]
      rw [charToDigit?_to_fen_char p, Piece.from_to_fen_char p]
      cases p with
      | WhiteKing =>
        obtain ⟨hhead, htail⟩ := hok
        have hwk : wk = none := hhead
        subst hwk
        exact hcont _ _ _ htail
      | BlackKing =>
        obtain ⟨hhead, htail⟩ := hok
        have hbk : bk = none := hhead
        subst hbk
        exact hcont _ _ _ htail
      | WhitePawn =>
        obtain ⟨hhead, htail⟩ := hok
        have hget : BitBoard.RANK_8.get (Square.from_coords rank (file + (e : Int))) = false :=
          hhead
        simp only [hget, Bool.false_eq_true, if_false]
        exact hcont _ _ _ htail
      | BlackPawn =>
        obtain ⟨hhead, htail⟩ := hok
        have hget : BitBoard.RANK_1.get (Square.from_coords rank (file + (e : Int))) = false :=
          hhead
        simp only [hget, Bool.false_eq_true, if_false]
        exact hcont _ _ _ htail
      | WhiteKnight => obtain ⟨_, htail⟩ := hok; exact hcont _ _ _ htail
      | WhiteBishop => obtain ⟨_, htail⟩ := hok; exact hcont _ _ _ htail
      | WhiteRook => obtain ⟨_, htail⟩ := hok; exact hcont _ _ _ htail
      | WhiteQueen => obtain ⟨_, htail⟩ := hok; exact hcont _ _ _ htail
      | BlackKnight => obtain ⟨_, htail⟩ := hok; exact hcont _ _ _ htail
      | BlackBishop => obtain ⟨_, htail⟩ := hok; exact hcont _ _ _ htail
      | BlackRook => obtain ⟨_, htail⟩ := hok; exact hcont _ _ _ htail
      | BlackQueen => obtain ⟨_, htail⟩ := hok; exact hcont _ _ _ htail


/-- The bitboard effect of parsing ranks `r` down to 0 of the serialised
position. -/
def setRows (b : Board) : BitBoards → Nat → BitBoards
  | bbs, 0 => setCellsRow 0 bbs 0 (cellsRow b 0)
  | bbs, r + 1 => setRows b (setCellsRow ((r : Int) + 1) bbs 0 (cellsRow b ((r : Int) + 1))) r

/-- King tracking over ranks `r` down to 0. -/
def kingsRows (b : Board) :
    Option Square → Option Square → Nat → Option Square × Option Square
  | wk, bk, 0 => rowKings 0 0 wk bk (cellsRow b 0)
  | wk, bk, r + 1 =>
    let ks := rowKings ((r : Int) + 1) 0 wk bk (cellsRow b ((r : Int) + 1))
    kingsRows b ks.1 ks.2 r

/-- The parser's king and pawn checks over ranks `r` down to 0. -/
def rowsOk (b : Board) : Option Square → Option Square → Nat → Prop
  | wk, bk, 0 => rowOk 0 0 wk bk (cellsRow b 0)
  | wk, bk, r + 1 =>
    rowOk ((r : Int) + 1) 0 wk bk (cellsRow b ((r : Int) + 1)) ∧
    (let ks := rowKings ((r : Int) + 1) 0 wk bk (cellsRow b ((r : Int) + 1))
     rowsOk b ks.1 ks.2 r)

theorem parsePos_slash (L : List Char) (rank file : Int) (bbs : BitBoards)
    (wk bk : Option Square) :
    parsePos ('/' :: L) rank file bbs wk bk = parsePos L rank file bbs wk bk := by
  simp [parsePos]

theorem cellsRow_ne_nil (b : Board) (rank : Int) : cellsRow b rank ≠ [] := by
  intro h
  have := cellsRow_length b rank
  rw [h] at this
  simp at this

theorem parsePos_to_fen_ranks (b : Board) :
    ∀ (r : Nat) (bbs : BitBoards) (wk bk : Option Square),
      rowsOk b wk bk r →
      parsePos (to_fen_ranks b r) (r : Int) 0 bbs wk bk =
        .ok (setRows b bbs r, (kingsRows b wk bk r).1, (kingsRows b wk bk r).2) := by
  intro r
  induction r with
  | zero =>
    intro bbs wk bk hok
    have key := parsePos_encodeCells (cellsRow b 0) 0 0 bbs wk bk [] 0 (by omega)
      (by rw [cellsRow_length]; rfl) (fun hc => absurd hc (cellsRow_ne_nil b 0))
      (by simpa using hok)
    simp only [Nat.cast_zero, add_zero, if_pos rfl] at key
    simpa only [to_fen_ranks, to_fen_rank, List.append_nil, Nat.cast_zero, setRows,
      kingsRows] using key
  | succ r ih =>
    intro bbs wk bk hok
    obtain ⟨hok1, hok2⟩ := hok
    have hcast : ((r + 1 : Nat) : Int) = (r : Int) + 1 := by push_cast; ring
    have key := parsePos_encodeCells (cellsRow b ((r : Int) + 1)) 0 0 bbs wk bk
      ('/' :: to_fen_ranks b r) ((r : Int) + 1) (by omega)
      (by rw [cellsRow_length]; rfl)
      (fun hc => absurd hc (cellsRow_ne_nil b ((r : Int) + 1)))
      (by simpa using hok1)
    rw [if_neg (by omega : ¬ ((r : Int) + 1 = 0))] at key
    simp only [Nat.cast_zero, add_zero] at key
    rw [show (r : Int) + 1 - 1 = (r : Int) by ring, parsePos_slash] at key
    rw [ih _ _ _ hok2] at key
    simp only [to_fen_ranks, to_fen_rank]
    rw [hcast, key]
    simp only [setRows, kingsRows]

theorem mem_all_pieces (p : Piece) : p ∈ Piece.ALL_PIECES := by
  cases p <;> decide

theorem usize_lt_of_valid (sq : Square) (h : sq.isValid) : sq.usize < 64 := by
  obtain ⟨h0, h64⟩ := h
  unfold Square.usize
  omega

theorem piece_at_iff_testBit (b : Board)
    (hdisj : ∀ i : Nat, i < 64 → ∀ p q : Piece,
      (b.bit_boards.getBB p).testBit i → (b.bit_boards.getBB q).testBit i → p = q)
    (sq : Square) (hsq : sq.isValid) (p : Piece) :
    b.piece_at sq = some p ↔ (b.bit_boards.getBB p).testBit sq.usize = true := by
  constructor
  · intro h
    have := List.find?_some h
    rwa [BitBoard.get_eq_testBit] at this
  · intro h
    unfold Board.piece_at Board.piece_at_in
    apply find?_eq_some_of (mem_all_pieces p)
    · rwa [BitBoard.get_eq_testBit]
    · intro q _ hq
      rw [BitBoard.get_eq_testBit]
      by_contra hcon
      simp only [Bool.not_eq_false] at hcon
      exact hq (hdisj sq.usize (usize_lt_of_valid sq hsq) q p hcon h)

/-- The single-piece bit mask contributed by one rank's cells. -/
def rowMask (q : Piece) (rank : Int) : Int → List (Option Piece) → BitBoard
  | _, [] => 0
  | file, c :: cs =>
    (if c = some q then (Square.from_coords rank file).bit_board else 0) |||
      rowMask q rank (file + 1) cs

/-- The single-piece bit mask contributed by ranks `r` down to 0. -/
def rowsMask (b : Board) (q : Piece) : Nat → BitBoard
  | 0 => rowMask q 0 0 (cellsRow b 0)
  | r + 1 => rowMask q ((r : Int) + 1) 0 (cellsRow b ((r : Int) + 1)) ||| rowsMask b q r

theorem getBB_setCellsRow (q : Piece) (rank : Int) :
    ∀ (cells : List (Option Piece)) (bbs : BitBoards) (f0 : Int),
      (setCellsRow rank bbs f0 cells).getBB q = bbs.getBB q ||| rowMask q rank f0 cells := by
  intro cells
  induction cells with
  | nil => intro bbs f0; simp [setCellsRow, rowMask]
  | cons c cs ih =>
    intro bbs f0
    cases c with
    | none =>
      rw [show setCellsRow rank bbs f0 (none :: cs) = setCellsRow rank bbs (f0 + 1) cs from rfl]
      rw [ih bbs (f0 + 1)]
      simp [rowMask]
    | some p =>
      rw [show setCellsRow rank bbs f0 (some p :: cs) =
        setCellsRow rank (bbs.modifyBB p (fun bb => bb.set (Square.from_coords rank f0)))
          (f0 + 1) cs from rfl]
      rw [ih _ (f0 + 1)]
      rw [BitBoards.getBB_modifyBB]
      by_cases hpq : p = q
      · subst hpq
        simp only [eq_self_iff_true, if_true, rowMask, BitBoard.set]
        rw [Nat.or_assoc]
      · rw [if_neg hpq]
        simp only [rowMask]
        rw [if_neg (by simpa using hpq)]
        simp [Nat.or_assoc]

theorem getBB_setRows (b : Board) (q : Piece) :
    ∀ (r : Nat) (bbs : BitBoards),
      (setRows b bbs r).getBB q = bbs.getBB q ||| rowsMask b q r := by
  intro r
  induction r with
  | zero => intro bbs; exact getBB_setCellsRow q 0 (cellsRow b 0) bbs 0
  | succ r ih =>
    intro bbs
    rw [show setRows b bbs (r + 1) =
      setRows b (setCellsRow ((r : Int) + 1) bbs 0 (cellsRow b ((r : Int) + 1))) r from rfl]
    rw [ih, getBB_setCellsRow]
    rw [show rowsMask b q (r + 1) =
      rowMask q ((r : Int) + 1) 0 (cellsRow b ((r : Int) + 1)) ||| rowsMask b q r from rfl]
    rw [Nat.or_assoc]

theorem testBit_rowMask (q : Piece) (rank : Int) :
    ∀ (cells : List (Option Piece)) (f0 : Int) (i : Nat),
      (rowMask q rank f0 cells).testBit i = true ↔
        ∃ j, ∃ h : j < cells.length, cells.get ⟨j, h⟩ = some q ∧
          i = (Square.from_coords rank (f0 + (j : Int))).usize := by
  intro cells
  induction cells with
  | nil => intro f0 i; simp [rowMask]
  | cons c cs ih =>
    intro f0 i
    simp only [rowMask, Nat.testBit_or, Bool.or_eq_true]
    constructor
    · rintro (hbit | hbit)
      · by_cases hc : c = some q
        · rw [if_pos hc, BitBoard.testBit_bit_board] at hbit
          simp only [decide_eq_true_eq] at hbit
          refine ⟨0, by simp, by simpa using hc, ?_⟩
          rw [← hbit]
          norm_num
        · rw [if_neg hc] at hbit
          simp at hbit
      · obtain ⟨j, h, hget, hi⟩ := (ih (f0 + 1) i).mp hbit
        refine ⟨j + 1, by simpa using h, by simpa using hget, ?_⟩
        rw [hi]
        have : f0 + 1 + (j : Int) = f0 + ((j + 1 : Nat) : Int) := by push_cast; ring
        rw [this]
    · rintro ⟨j, h, hget, hi⟩
      cases j with
      | zero =>
        left
        have hc : c = some q := by simpa using hget
        rw [if_pos hc, BitBoard.testBit_bit_board]
        simp only [decide_eq_true_eq]
        rw [hi]
        norm_num
      | succ j' =>
        right
        refine (ih (f0 + 1) i).mpr ⟨j', by simpa using h, by simpa using hget, ?_⟩
        rw [hi]
        have : f0 + ((j' + 1 : Nat) : Int) = f0 + 1 + (j' : Int) := by push_cast; ring
        rw [this]

theorem cellsRow_get (b : Board) (rank : Int) (j : Nat) (h : j < (cellsRow b rank).length) :
    (cellsRow b rank).get ⟨j, h⟩ = b.piece_at (Square.from_coords rank (j : Int)) := by
  unfold cellsRow
  rw [List.get_eq_getElem, List.getElem_map, List.getElem_range]

theorem testBit_rowMask_row (b : Board) (q : Piece) (rank : Int) (i : Nat) :
    (rowMask q rank 0 (cellsRow b rank)).testBit i = true ↔
      ∃ j : Nat, j < 8 ∧ b.piece_at (Square.from_coords rank (j : Int)) = some q ∧
        i = (Square.from_coords rank (j : Int)).usize := by
  rw [testBit_rowMask]
  constructor
  · rintro ⟨j, h, hget, hi⟩
    have h8 : j < 8 := by rw [cellsRow_length] at h; exact h
    rw [cellsRow_get] at hget
    exact ⟨j, h8, hget, by simpa using hi⟩
  · rintro ⟨j, h8, hat, hi⟩
    refine ⟨j, by rw [cellsRow_length]; exact h8, ?_, by simpa using hi⟩
    rw [cellsRow_get]
    exact hat

theorem testBit_rowsMask (b : Board) (q : Piece) :
    ∀ (r : Nat) (i : Nat),
      (rowsMask b q r).testBit i = true ↔
        ∃ rk : Nat, rk ≤ r ∧ ∃ fl : Nat, fl < 8 ∧
          b.piece_at (Square.from_coords (rk : Int) (fl : Int)) = some q ∧
          i = (Square.from_coords (rk : Int) (fl : Int)).usize := by
  intro r
  induction r with
  | zero =>
    intro i
    rw [show rowsMask b q 0 = rowMask q 0 0 (cellsRow b 0) from rfl]
    rw [testBit_rowMask_row]
    constructor
    · rintro ⟨j, h8, hat, hi⟩
      exact ⟨0, le_refl 0, j, h8, by simpa using hat, by simpa using hi⟩
    · rintro ⟨rk, hrk, fl, h8, hat, hi⟩
      have hrk0 : rk = 0 := Nat.le_zero.mp hrk
      subst hrk0
      exact ⟨fl, h8, by simpa using hat, by simpa using hi⟩
  | succ r ih =>
    intro i
    rw [show rowsMask b q (r + 1) =
      rowMask q ((r : Int) + 1) 0 (cellsRow b ((r : Int) + 1)) ||| rowsMask b q r from rfl]
    rw [Nat.testBit_or, Bool.or_eq_true, testBit_rowMask_row, ih]
    have hcast : (((r + 1 : Nat)) : Int) = (r : Int) + 1 := by push_cast; ring
    constructor
    · rintro (⟨j, h8, hat, hi⟩ | ⟨rk, hrk, fl, h8, hat, hi⟩)
      · exact ⟨r + 1, le_refl _, j, h8, by rw [hcast]; exact hat, by rw [hcast]; exact hi⟩
      · exact ⟨rk, Nat.le_succ_of_le hrk, fl, h8, hat, hi⟩
    · rintro ⟨rk, hrk, fl, h8, hat, hi⟩
      by_cases hr : rk = r + 1
      · subst hr
        left
        exact ⟨fl, h8, by rw [← hcast]; exact hat, by rw [← hcast]; exact hi⟩
      · right
        exact ⟨rk, by omega, fl, h8, hat, hi⟩

theorem getBB_zero (q : Piece) :
    ((⟨0, 0, 0, 0, 0, 0, 0, 0, 0, 0, 0, 0⟩ : BitBoards)).getBB q = 0 := by
  cases q <;> rfl

theorem usize_from_coords (rk fl : Nat) :
    (Square.from_coords (rk : Int) (fl : Int)).usize = 8 * rk + fl := by
  show ((rk : Int) * 8 + (fl : Int)).toNat = 8 * rk + fl
  omega

theorem from_coords_isValid (rk fl : Nat) (h1 : rk < 8) (h2 : fl < 8) :
    (Square.from_coords (rk : Int) (fl : Int)).isValid := by
  constructor
  · show (0 : Int) ≤ (rk : Int) * 8 + (fl : Int)
    omega
  · show ((rk : Int) * 8 + (fl : Int)) < 64
    omega

theorem setRows_eq_bit_boards (b : Board) (hv : ValidBoard b) :
    setRows b ⟨0, 0, 0, 0, 0, 0, 0, 0, 0, 0, 0, 0⟩ 7 = b.bit_boards := by
  apply BitBoards.eq_of_getBB_eq
  intro q
  rw [getBB_setRows, getBB_zero, Nat.zero_or]
  apply Nat.eq_of_testBit_eq
  intro i
  by_cases hi : i < 64
  · have husz : (Square.from_coords ((i / 8 : Nat) : Int) ((i % 8 : Nat) : Int)).usize = i := by
      rw [usize_from_coords]; omega
    have hpiece := piece_at_iff_testBit b hv.disjoint
      (Square.from_coords ((i / 8 : Nat) : Int) ((i % 8 : Nat) : Int))
      (from_coords_isValid (i / 8) (i % 8) (by omega) (by omega)) q
    rw [husz] at hpiece
    have hiff : ((rowsMask b q 7).testBit i = true) ↔
        ((b.bit_boards.getBB q).testBit i = true) := by
      rw [testBit_rowsMask]
      constructor
      · rintro ⟨rk, hrk, fl, h8, hat, hi'⟩
        have hvld := from_coords_isValid rk fl (by omega) h8
        have := (piece_at_iff_testBit b hv.disjoint _ hvld q).mp hat
        rw [hi']
        exact this
      · intro htb
        exact ⟨i / 8, by omega, i % 8, by omega, hpiece.mpr htb, by rw [husz]⟩
    cases h1 : (rowsMask b q 7).testBit i <;>
      cases h2 : (b.bit_boards.getBB q).testBit i <;> simp_all
  · have h2 : (b.bit_boards.getBB q).testBit i = false := by
      apply Nat.testBit_lt_two_pow
      calc b.bit_boards.getBB q < 2 ^ 64 := hv.bounded q
        _ ≤ 2 ^ i := Nat.pow_le_pow_right (by omega) (by omega)
    have h1 : (rowsMask b q 7).testBit i = false := by
      by_contra hcon
      simp only [Bool.not_eq_false] at hcon
      obtain ⟨rk, hrk, fl, h8, _, hi'⟩ := (testBit_rowsMask b q 7 i).mp hcon
      rw [usize_from_coords] at hi'
      omega
    rw [h1, h2]

theorem square_eq_of_usize_eq {a c : Square} (ha : a.isValid) (hc : c.isValid)
    (h : a.usize = c.usize) : a = c := by
  obtain ⟨i⟩ := a
  obtain ⟨j⟩ := c
  obtain ⟨hi0, _⟩ := ha
  obtain ⟨hj0, _⟩ := hc
  have hi0' : (0 : Int) ≤ i := hi0
  have hj0' : (0 : Int) ≤ j := hj0
  have h' : i.toNat = j.toNat := h
  congr 1
  omega

theorem rank_file_of_valid (s : Square) (h : s.isValid) :
    Square.from_coords s.rank s.file = s ∧
      0 ≤ s.rank ∧ s.rank < 8 ∧ 0 ≤ s.file ∧ s.file < 8 := by
  obtain ⟨i⟩ := s
  obtain ⟨h0, h64⟩ := h
  have h0' : (0 : Int) ≤ i := h0
  have h64' : i < 64 := h64
  refine ⟨?_, ?_, ?_, ?_, ?_⟩
  · show Square.mk (i / 8 * 8 + i % 8) = Square.mk i
    congr 1
    omega
  · show (0 : Int) ≤ i / 8
    omega
  · show i / 8 < 8
    omega
  · show (0 : Int) ≤ i % 8
    omega
  · show i % 8 < 8
    omega

theorem from_coords_inj {r1 f1 r2 f2 : Int} (hr1 : 0 ≤ r1) (hr1' : r1 < 8)
    (hf1 : 0 ≤ f1) (hf1' : f1 < 8) (hr2 : 0 ≤ r2) (hr2' : r2 < 8)
    (hf2 : 0 ≤ f2) (hf2' : f2 < 8)
    (h : Square.from_coords r1 f1 = Square.from_coords r2 f2) : r1 = r2 ∧ f1 = f2 := by
  have h' : r1 * 8 + f1 = r2 * 8 + f2 := congrArg Square.index h
  omega

/-- With pairwise-disjoint bitboards, a piece whose bitboard is a single
square bit sits exactly on that square. -/
theorem king_char (b : Board)
    (hdisj : ∀ i : Nat, i < 64 → ∀ p q : Piece,
      (b.bit_boards.getBB p).testBit i → (b.bit_boards.getBB q).testBit i → p = q)
    (p0 : Piece) (ks : Square) (hkv : ks.isValid)
    (hbb : b.bit_boards.getBB p0 = ks.bit_board) :
    ∀ sq : Square, sq.isValid → (b.piece_at sq = some p0 ↔ sq = ks) := by
  intro sq hsq
  rw [piece_at_iff_testBit b hdisj sq hsq p0, hbb, BitBoard.testBit_bit_board]
  constructor
  · intro h
    simp only [decide_eq_true_eq] at h
    exact square_eq_of_usize_eq hsq hkv h.symm
  · rintro rfl
    simp

theorem valid_wp_not_rank8 (b : Board) (hv : ValidBoard b) :
    ∀ sq : Square, sq.isValid → b.piece_at sq = some .WhitePawn →
      BitBoard.RANK_8.get sq = false := by
  intro sq hsq hat
  have htb := (piece_at_iff_testBit b hv.disjoint sq hsq .WhitePawn).mp hat
  have htb' : b.bit_boards.wP.testBit sq.usize = true := htb
  rw [BitBoard.get_eq_testBit]
  by_contra hcon
  simp only [Bool.not_eq_false] at hcon
  have hand : (b.bit_boards.wP &&& BitBoard.RANK_8).testBit sq.usize = true := by
    rw [Nat.testBit_and, htb', hcon]
    rfl
  rw [hv.wp_rank8] at hand
  simp at hand

theorem valid_bp_not_rank1 (b : Board) (hv : ValidBoard b) :
    ∀ sq : Square, sq.isValid → b.piece_at sq = some .BlackPawn →
      BitBoard.RANK_1.get sq = false := by
  intro sq hsq hat
  have htb := (piece_at_iff_testBit b hv.disjoint sq hsq .BlackPawn).mp hat
  have htb' : b.bit_boards.bP.testBit sq.usize = true := htb
  rw [BitBoard.get_eq_testBit]
  by_contra hcon
  simp only [Bool.not_eq_false] at hcon
  have hand : (b.bit_boards.bP &&& BitBoard.RANK_1).testBit sq.usize = true := by
    rw [Nat.testBit_and, htb', hcon]
    rfl
  rw [hv.bp_rank1] at hand
  simp at hand

/-- The white-king component of `rowKings`, threaded on its own. -/
def rowKing1 (p0 : Piece) (rank : Int) :
    Int → Option Square → List (Option Piece) → Option Square
  | _, wk, [] => wk
  | file, wk, c :: cs =>
    rowKing1 p0 rank (file + 1)
      (if c = some p0 then some (Square.from_coords rank file) else wk) cs

theorem rowKings_split (rank : Int) :
    ∀ (cells : List (Option Piece)) (f0 : Int) (wk bk : Option Square),
      rowKings rank f0 wk bk cells =
        (rowKing1 .WhiteKing rank f0 wk cells, rowKing1 .BlackKing rank f0 bk cells) := by
  intro cells
  induction cells with
  | nil => intro f0 wk bk; rfl
  | cons c cs ih =>
    intro f0 wk bk
    cases c with
    | none =>
      simp only [rowKings, rowKing1]
      rw [ih]
      simp
    | some p =>
      simp only [rowKings, rowKing1]
      rw [ih]
      congr 1 <;> · congr 1
                    simp [Option.some.injEq]

theorem rowKing1_eq (p0 : Piece) (rank : Int) (ks : Square) :
    ∀ (cells : List (Option Piece)) (f0 : Int) (wk : Option Square),
      (∀ j, ∀ hj : j < cells.length, cells.get ⟨j, hj⟩ = some p0 →
        Square.from_coords rank (f0 + (j : Int)) = ks) →
      rowKing1 p0 rank f0 wk cells = if some p0 ∈ cells then some ks else wk := by
  intro cells
  induction cells with
  | nil => intro f0 wk _; simp [rowKing1]
  | cons c cs ih =>
    intro f0 wk h
    have hshift : ∀ j, ∀ hj : j < cs.length, cs.get ⟨j, hj⟩ = some p0 →
        Square.from_coords rank (f0 + 1 + (j : Int)) = ks := by
      intro j hj hget
      have := h (j + 1) (by simpa using hj) (by simpa using hget)
      rw [← this]
      congr 1
      push_cast
      ring
    by_cases hc : c = some p0
    · have hks : Square.from_coords rank f0 = ks := by
        have := h 0 (by simp) (by simpa using hc)
        simpa using this
      simp only [rowKing1, if_pos hc, hks]
      rw [ih (f0 + 1) (some ks) hshift]
      simp [hc]
    · simp only [rowKing1, if_neg hc]
      rw [ih (f0 + 1) wk hshift]
      have hmem : (some p0 ∈ cs) ↔ (some p0 ∈ c :: cs) := by
        simp only [List.mem_cons]
        constructor
        · exact Or.inr
        · rintro (h1 | h1)
          · exact absurd h1.symm hc
          · exact h1
      exact if_congr hmem rfl rfl

theorem rowOk_of (rank : Int) :
    ∀ (cells : List (Option Piece)) (f0 : Int) (wk bk : Option Square),
      (∀ j, ∀ hj : j < cells.length, cells.get ⟨j, hj⟩ = some .WhitePawn →
        BitBoard.RANK_8.get (Square.from_coords rank (f0 + (j : Int))) = false) →
      (∀ j, ∀ hj : j < cells.length, cells.get ⟨j, hj⟩ = some .BlackPawn →
        BitBoard.RANK_1.get (Square.from_coords rank (f0 + (j : Int))) = false) →
      (some Piece.WhiteKing ∈ cells → wk = none) →
      (∀ j, ∀ hj : j < cells.length, ∀ j2, ∀ hj2 : j2 < cells.length,
        cells.get ⟨j, hj⟩ = some .WhiteKing → cells.get ⟨j2, hj2⟩ = some .WhiteKing →
        j = j2) →
      (some Piece.BlackKing ∈ cells → bk = none) →
      (∀ j, ∀ hj : j < cells.length, ∀ j2, ∀ hj2 : j2 < cells.length,
        cells.get ⟨j, hj⟩ = some .BlackKing → cells.get ⟨j2, hj2⟩ = some .BlackKing →
        j = j2) →
      rowOk rank f0 wk bk cells := by
  intro cells
  induction cells with
  | nil => intro f0 wk bk _ _ _ _ _ _; trivial
  | cons c cs ih =>
    intro f0 wk bk hwp hbp hwkm hwku hbkm hbku
    have hwp' : ∀ j, ∀ hj : j < cs.length, cs.get ⟨j, hj⟩ = some .WhitePawn →
        BitBoard.RANK_8.get (Square.from_coords rank (f0 + 1 + (j : Int))) = false := by
      intro j hj hg
      have := hwp (j + 1) (by simpa using hj) (by simpa using hg)
      rw [← this]
      congr 2
      push_cast
      ring
    have hbp' : ∀ j, ∀ hj : j < cs.length, cs.get ⟨j, hj⟩ = some .BlackPawn →
        BitBoard.RANK_1.get (Square.from_coords rank (f0 + 1 + (j : Int))) = false := by
      intro j hj hg
      have := hbp (j + 1) (by simpa using hj) (by simpa using hg)
      rw [← this]
      congr 2
      push_cast
      ring
    have hwku' : ∀ j, ∀ hj : j < cs.length, ∀ j2, ∀ hj2 : j2 < cs.length,
        cs.get ⟨j, hj⟩ = some .WhiteKing → cs.get ⟨j2, hj2⟩ = some .WhiteKing → j = j2 := by
      intro j hj j2 hj2 h1 h2
      have := hwku (j + 1) (by simpa using hj) (j2 + 1) (by simpa using hj2)
        (by simpa using h1) (by simpa using h2)
      omega
    have hbku' : ∀ j, ∀ hj : j < cs.length, ∀ j2, ∀ hj2 : j2 < cs.length,
        cs.get ⟨j, hj⟩ = some .BlackKing → cs.get ⟨j2, hj2⟩ = some .BlackKing → j = j2 := by
      intro j hj j2 hj2 h1 h2
      have := hbku (j + 1) (by simpa using hj) (j2 + 1) (by simpa using hj2)
        (by simpa using h1) (by simpa using h2)
      omega
    cases c with
    | none =>
      show rowOk rank (f0 + 1) wk bk cs
      exact ih (f0 + 1) wk bk hwp' hbp'
        (fun hm => hwkm (List.mem_cons_of_mem _ hm)) hwku'
        (fun hm => hbkm (List.mem_cons_of_mem _ hm)) hbku'
    | some p =>
      have hwknew : some Piece.WhiteKing ∈ cs →
          (if p = Piece.WhiteKing then some (Square.from_coords rank f0) else wk) = none := by
        intro hm
        by_cases hp : p = Piece.WhiteKing
        · exfalso
          obtain ⟨⟨j, hj⟩, hg⟩ := List.mem_iff_get.mp hm
          have := hwku 0 (by simp) (j + 1) (by simpa using hj)
            (by simp [hp]) (by simpa using hg)
          omega
        · rw [if_neg hp]
          exact hwkm (List.mem_cons_of_mem _ hm)
      have hbknew : some Piece.BlackKing ∈ cs →
          (if p = Piece.BlackKing then some (Square.from_coords rank f0) else bk) = none := by
        intro hm
        by_cases hp : p = Piece.BlackKing
        · exfalso
          obtain ⟨⟨j, hj⟩, hg⟩ := List.mem_iff_get.mp hm
          have := hbku 0 (by simp) (j + 1) (by simpa using hj)
            (by simp [hp]) (by simpa using hg)
          omega
        · rw [if_neg hp]
          exact hbkm (List.mem_cons_of_mem _ hm)
      refine ⟨?_, ih (f0 + 1) _ _ hwp' hbp' hwknew hwku' hbknew hbku'⟩
      cases p
      case WhiteKing => exact hwkm (List.mem_cons_self _ _)
      case BlackKing => exact hbkm (List.mem_cons_self _ _)
      case WhitePawn => simpa using hwp 0 (by simp) (by simp)
      case BlackPawn => simpa using hbp 0 (by simp) (by simp)
      all_goals trivial

theorem cellsRow_king_loc (b : Board) (p0 : Piece) (ks : Square)
    (hchar : ∀ sq : Square, sq.isValid → (b.piece_at sq = some p0 ↔ sq = ks))
    (rk : Nat) (hrk : rk < 8) :
    ∀ j, ∀ hj : j < (cellsRow b (rk : Int)).length,
      (cellsRow b (rk : Int)).get ⟨j, hj⟩ = some p0 →
      Square.from_coords (rk : Int) ((0 : Int) + (j : Int)) = ks := by
  intro j hj hg
  rw [cellsRow_get] at hg
  have hj8 : j < 8 := by rwa [cellsRow_length] at hj
  have := (hchar _ (from_coords_isValid rk j hrk hj8)).mp hg
  simpa using this

theorem cellsRow_king_mem (b : Board) (p0 : Piece) (ks : Square) (hkv : ks.isValid)
    (hchar : ∀ sq : Square, sq.isValid → (b.piece_at sq = some p0 ↔ sq = ks))
    (rk : Nat) (hrk : rk < 8) :
    (some p0 ∈ cellsRow b (rk : Int)) ↔ (rk : Int) = ks.rank := by
  obtain ⟨hfc, hr0, hr8, hf0, hf8⟩ := rank_file_of_valid ks hkv
  unfold cellsRow
  rw [List.mem_map]
  constructor
  · rintro ⟨a, ha, hg⟩
    have ha8 : a < 8 := List.mem_range.mp ha
    have heq := (hchar _ (from_coords_isValid rk a hrk ha8)).mp hg
    have hrank := congrArg Square.index heq
    have hrank' : (rk : Int) * 8 + (a : Int) = ks.index := hrank
    have hkr : ks.rank = ks.index / 8 := rfl
    omega
  · intro hr
    refine ⟨ks.file.toNat, List.mem_range.mpr (by omega), ?_⟩
    rw [hchar _ (from_coords_isValid rk ks.file.toNat hrk (by omega))]
    rw [show ((ks.file.toNat : Nat) : Int) = ks.file from by omega, hr, hfc]

theorem rowKing1_state (b : Board) (p0 : Piece) (ks : Square) (hkv : ks.isValid)
    (hchar : ∀ sq : Square, sq.isValid → (b.piece_at sq = some p0 ↔ sq = ks))
    (rk : Nat) (hrk : rk < 8) (st : Option Square)
    (hst : st = if (rk : Int) < ks.rank then some ks else none) :
    rowKing1 p0 (rk : Int) 0 st (cellsRow b (rk : Int)) =
      if (rk : Int) - 1 < ks.rank then some ks else none := by
  obtain ⟨_, hr0, hr8, _, _⟩ := rank_file_of_valid ks hkv
  rw [rowKing1_eq p0 (rk : Int) ks (cellsRow b (rk : Int)) 0 st
    (cellsRow_king_loc b p0 ks hchar rk hrk)]
  by_cases hm : (rk : Int) = ks.rank
  · rw [if_pos ((cellsRow_king_mem b p0 ks hkv hchar rk hrk).mpr hm)]
    rw [if_pos (by omega)]
  · rw [if_neg (fun hc => hm ((cellsRow_king_mem b p0 ks hkv hchar rk hrk).mp hc))]
    rw [hst]
    by_cases h2 : (rk : Int) < ks.rank
    · rw [if_pos h2, if_pos (by omega)]
    · rw [if_neg h2, if_neg (by omega)]

theorem rowOk_state (b : Board) (hv : ValidBoard b) (wks bks : Square)
    (hwv : wks.isValid) (hbv : bks.isValid)
    (hwc : ∀ sq : Square, sq.isValid → (b.piece_at sq = some .WhiteKing ↔ sq = wks))
    (hbc : ∀ sq : Square, sq.isValid → (b.piece_at sq = some .BlackKing ↔ sq = bks))
    (rk : Nat) (hrk : rk < 8) (wk bk : Option Square)
    (hwkm : (rk : Int) = wks.rank → wk = none)
    (hbkm : (rk : Int) = bks.rank → bk = none) :
    rowOk (rk : Int) 0 wk bk (cellsRow b (rk : Int)) := by
  apply rowOk_of
  · intro j hj hg
    rw [cellsRow_get] at hg
    have hj8 : j < 8 := by rwa [cellsRow_length] at hj
    have := valid_wp_not_rank8 b hv _ (from_coords_isValid rk j hrk hj8) hg
    simpa using this
  · intro j hj hg
    rw [cellsRow_get] at hg
    have hj8 : j < 8 := by rwa [cellsRow_length] at hj
    have := valid_bp_not_rank1 b hv _ (from_coords_isValid rk j hrk hj8) hg
    simpa using this
  · intro hm
    exact hwkm ((cellsRow_king_mem b _ wks hwv hwc rk hrk).mp hm)
  · intro j hj j2 hj2 h1 h2
    have hj8 : j < 8 := by rwa [cellsRow_length] at hj
    have hj28 : j2 < 8 := by rwa [cellsRow_length] at hj2
    have l1 := cellsRow_king_loc b _ wks hwc rk hrk j hj h1
    have l2 := cellsRow_king_loc b _ wks hwc rk hrk j2 hj2 h2
    have := from_coords_inj (by omega) (by omega) (by omega) (by omega)
      (by omega) (by omega) (by omega) (by omega) (l1.trans l2.symm)
    omega
  · intro hm
    exact hbkm ((cellsRow_king_mem b _ bks hbv hbc rk hrk).mp hm)
  · intro j hj j2 hj2 h1 h2
    have hj8 : j < 8 := by rwa [cellsRow_length] at hj
    have hj28 : j2 < 8 := by rwa [cellsRow_length] at hj2
    have l1 := cellsRow_king_loc b _ bks hbc rk hrk j hj h1
    have l2 := cellsRow_king_loc b _ bks hbc rk hrk j2 hj2 h2
    have := from_coords_inj (by omega) (by omega) (by omega) (by omega)
      (by omega) (by omega) (by omega) (by omega) (l1.trans l2.symm)
    omega

theorem rows_result (b : Board) (hv : ValidBoard b) (wks bks : Square)
    (hwv : wks.isValid) (hbv : bks.isValid)
    (hwc : ∀ sq : Square, sq.isValid → (b.piece_at sq = some .WhiteKing ↔ sq = wks))
    (hbc : ∀ sq : Square, sq.isValid → (b.piece_at sq = some .BlackKing ↔ sq = bks)) :
    ∀ r : Nat, r < 8 →
      rowsOk b (if (r : Int) < wks.rank then some wks else none)
               (if (r : Int) < bks.rank then some bks else none) r ∧
      kingsRows b (if (r : Int) < wks.rank then some wks else none)
                  (if (r : Int) < bks.rank then some bks else none) r =
        (some wks, some bks) := by
  obtain ⟨_, hwr0, hwr8, _, _⟩ := rank_file_of_valid wks hwv
  obtain ⟨_, hbr0, hbr8, _, _⟩ := rank_file_of_valid bks hbv
  intro r
  induction r with
  | zero =>
    intro _
    constructor
    · have hro := rowOk_state b hv wks bks hwv hbv hwc hbc 0 (by omega)
        (if ((0 : Nat) : Int) < wks.rank then some wks else none)
        (if ((0 : Nat) : Int) < bks.rank then some bks else none)
        (fun h => by rw [if_neg (by omega)]) (fun h => by rw [if_neg (by omega)])
      show rowOk 0 0 _ _ (cellsRow b 0)
      simpa using hro
    · show rowKings 0 0 _ _ (cellsRow b 0) = (some wks, some bks)
      rw [rowKings_split]
      have hw := rowKing1_state b .WhiteKing wks hwv hwc 0 (by omega)
        (if ((0 : Nat) : Int) < wks.rank then some wks else none) rfl
      have hb := rowKing1_state b .BlackKing bks hbv hbc 0 (by omega)
        (if ((0 : Nat) : Int) < bks.rank then some bks else none) rfl
      simp only [Nat.cast_zero] at hw hb ⊢
      rw [hw, hb, if_pos (by omega : (0 : Int) - 1 < wks.rank),
        if_pos (by omega : (0 : Int) - 1 < bks.rank)]
  | succ r ihr =>
    intro h8
    have ih := ihr (by omega)
    have hcn : (((r + 1 : Nat)) : Int) = (r : Int) + 1 := by push_cast; ring
    rw [hcn]
    have hw := rowKing1_state b .WhiteKing wks hwv hwc (r + 1) (by omega)
      (if (((r + 1 : Nat)) : Int) < wks.rank then some wks else none) rfl
    have hb := rowKing1_state b .BlackKing bks hbv hbc (r + 1) (by omega)
      (if (((r + 1 : Nat)) : Int) < bks.rank then some bks else none) rfl
    rw [hcn] at hw hb
    rw [show (r : Int) + 1 - 1 = (r : Int) from by ring] at hw hb
    constructor
    · refine ⟨?_, ?_⟩
      · have hro := rowOk_state b hv wks bks hwv hbv hwc hbc (r + 1) (by omega)
          (if (((r + 1 : Nat)) : Int) < wks.rank then some wks else none)
          (if (((r + 1 : Nat)) : Int) < bks.rank then some bks else none)
          (fun h => by rw [if_neg (by omega)]) (fun h => by rw [if_neg (by omega)])
        rw [hcn] at hro
        exact hro
      · show rowsOk b
          (rowKings ((r : Int) + 1) 0
            (if (r : Int) + 1 < wks.rank then some wks else none)
            (if (r : Int) + 1 < bks.rank then some bks else none)
            (cellsRow b ((r : Int) + 1))).1
          (rowKings ((r : Int) + 1) 0
            (if (r : Int) + 1 < wks.rank then some wks else none)
            (if (r : Int) + 1 < bks.rank then some bks else none)
            (cellsRow b ((r : Int) + 1))).2 r
        rw [rowKings_split, hw, hb]
        exact ih.1
    · show kingsRows b _ _ (r + 1) = (some wks, some bks)
      simp only [kingsRows]
      rw [rowKings_split, hw, hb]
      exact ih.2


theorem words_to_fen (b : Board)
    (hep : ∀ sq, b.game_state.en_passant_square = some sq → sq.isValid) :
    words (Board.to_fen b) =
      [to_fen_position b,
       if b.white_to_move then ['w'] else ['b'],
       castlingChars b.game_state.castling_rights,
       epChars b.game_state.en_passant_square,
       natToChars b.game_state.half_move_clock,
       natToChars b.full_move_counter] := by
  unfold Board.to_fen
  simp only [List.append_assoc, List.cons_append]
  rw [words_append_word _ _
    (show to_fen_position b ≠ [] from fun h => to_fen_ranks_ne_nil b 7 h)
    (show ∀ c ∈ to_fen_position b, c.isWhitespace = false from to_fen_ranks_not_ws b 7)]
  rw [words_append_word _ _ (by cases b.white_to_move <;> simp)
    (by cases b.white_to_move <;> decide)]
  rw [words_append_word _ _ (castlingChars_ne_nil _) (castlingChars_not_ws _)]
  rw [words_append_word _ _ (epChars_ne_nil _) (epChars_not_ws _ hep)]
  rw [words_append_word _ _ (natToChars_ne_nil _) (natToChars_not_ws _)]
  rw [words_single _ (natToChars_ne_nil _) (natToChars_not_ws _)]

theorem parsePos_to_fen (b : Board) (hv : ValidBoard b) (wks bks : Square)
    (hwv : wks.isValid) (hbv : bks.isValid)
    (hwc : ∀ sq : Square, sq.isValid → (b.piece_at sq = some .WhiteKing ↔ sq = wks))
    (hbc : ∀ sq : Square, sq.isValid → (b.piece_at sq = some .BlackKing ↔ sq = bks)) :
    parsePos (to_fen_position b) 7 0 ⟨0, 0, 0, 0, 0, 0, 0, 0, 0, 0, 0, 0⟩ none none =
      .ok (b.bit_boards, some wks, some bks) := by
  obtain ⟨_, hwr0, hwr8, _, _⟩ := rank_file_of_valid wks hwv
  obtain ⟨_, hbr0, hbr8, _, _⟩ := rank_file_of_valid bks hbv
  have h7 := rows_result b hv wks bks hwv hbv hwc hbc 7 (by omega)
  rw [if_neg (by omega), if_neg (by omega)] at h7
  have hrun := parsePos_to_fen_ranks b 7 ⟨0, 0, 0, 0, 0, 0, 0, 0, 0, 0, 0, 0⟩ none none h7.1
  rw [h7.2, setRows_eq_bit_boards b hv] at hrun
  show parsePos (to_fen_ranks b 7) 7 0 _ none none = _
  simpa using hrun

theorem from_fen_to_fen (b : Board) (hv : ValidBoard b) :
    Board.from_fen (Board.to_fen b) = .ok (stripCaptured b) := by
  obtain ⟨wks, bks, hwv, hbv, hwbb, hbbb, hapart, hcheck⟩ := hv.kings
  have hwc := king_char b hv.disjoint .WhiteKing wks hwv hwbb
  have hbc := king_char b hv.disjoint .BlackKing bks hbv hbbb
  have hwords := words_to_fen b hv.ep_valid
  have hpos := parsePos_to_fen b hv wks bks hwv hbv hwc hbc
  unfold Board.from_fen
  rw [hwords]
  simp only []
  rw [hpos]
  simp only []
  rw [hapart]
  simp only [Bool.false_eq_true, if_false]
  rw [parseSide_roundtrip]
  simp only []
  rw [from_fen_section_castlingChars]
  rw [parseNat_natToChars _ _ hv.hmc_fits, parseNat_natToChars _ _ hv.fmc_fits]
  cases hep : b.game_state.en_passant_square with
  | none =>
    simp only [epChars, if_true]
    rw [if_neg (by omega : ¬ (checkers_of b.white_to_move b.bit_boards
      (if b.white_to_move then wks else bks)).count ≥ 3)]
    simp [stripCaptured, hep]
  | some sq =>
    have hval := hv.ep_valid sq hep
    simp only [epChars]
    rw [if_neg (to_notation_ne_dash sq hval)]
    rw [Square.from_to_notation sq hval]
    simp only []
    rw [if_neg (by omega : ¬ (checkers_of b.white_to_move b.bit_boards
      (if b.white_to_move then wks else bks)).count ≥ 3)]
    simp [stripCaptured, hep]

theorem to_fen_stripCaptured (b : Board) :
    Board.to_fen (stripCaptured b) = Board.to_fen b := by
  obtain ⟨bb, wtm, ⟨cr, ep, hmc, cap⟩, fmc⟩ := b
  rfl

/-- C2: for every valid canonical FEN string — the serialisation `to_fen b`
of a board `b` satisfying the parser's validity conditions (`ValidBoard`,
which every legal position meets) — `Board::from_fen` succeeds, and
`Board::to_fen` applied to the resulting board returns exactly the original
string. The parsed board differs from `b` only in the non-serialised
`captured` field. -/
theorem fen_roundtrip (f : List Char) (b : Board) (hb : ValidBoard b)
    (hf : f = Board.to_fen b) :
    ∃ b' : Board, Board.from_fen f = .ok b' ∧ Board.to_fen b' = f := by
  subst hf
  exact ⟨stripCaptured b, from_fen_to_fen b hb, to_fen_stripCaptured b⟩

/-- C2 witness: the round-trip theorem applied to the start position. -/
theorem fen_roundtrip_witness :
    ∃ b' : Board, Board.from_fen (Board.to_fen demo_board) = .ok b' ∧
      Board.to_fen b' = Board.to_fen demo_board :=
  fen_roundtrip (Board.to_fen demo_board) demo_board
    ⟨by decide, by decide,
     ⟨⟨4⟩, ⟨60⟩, by decide, by decide, by decide, by decide, by decide, by decide⟩,
     by decide, by decide, fun sq h => Option.noConfusion h, by decide, by decide⟩
    rfl
end Encrustant
